import Mathlib

/-!
Verification of the Smart-Parking-Simulator core against its specification.

The Python sources are shallowly embedded: every `def` below mirrors the
method of the same (or nearly the same) name in `ParkingSpot.py`,
`ParkingFacility.py`, `ComparisonAlgorithms.py` or `SmartParkingSimulator.py`.
Python floats are modelled as rationals (`ℚ`), `time.time()` is modelled by
an explicit clock argument, `float('inf')` by `⊤` in `WithTop _`, and Python
dicts by association lists with first-match lookup/update (which coincides
with dict behaviour, whose keys are unique).
-/

/-! ## ParkingSpot.py -/

/-- State of one parking spot (`ParkingSpot.__init__`). -/
structure Spot where
  id : String
  location : ℕ × ℕ
  type : String
  floor : ℕ
  occupied : Bool
  reserved : Bool
  vehicle_id : Option String
  occupied_since : Option ℚ
  reserved_until : Option ℚ
deriving DecidableEq, Repr

/-- A freshly constructed spot: not occupied, not reserved, no occupant. -/
def mkSpot (spot_id : String) (location : ℕ × ℕ) (spot_type : String) (floor : ℕ) : Spot :=
  { id := spot_id, location := location, type := spot_type, floor := floor,
    occupied := false, reserved := false, vehicle_id := none,
    occupied_since := none, reserved_until := none }

/-- `ParkingSpot.occupy`; `now` models `time.time()`. -/
def Spot.occupy (s : Spot) (vehicle_id : String) (now : ℚ) : Bool × Spot :=
  if s.occupied || s.reserved then (false, s)
  else (true, { s with occupied := true, vehicle_id := some vehicle_id,
                       occupied_since := some now })

/-- `ParkingSpot.vacate`; returns the elapsed duration (Python returns
`False` on failure, modelled as `none`). -/
def Spot.vacate (s : Spot) (now : ℚ) : Option ℚ × Spot :=
  if !s.occupied then (none, s)
  else (some (now - s.occupied_since.getD 0),
        { s with occupied := false, vehicle_id := none, occupied_since := none })

/-- `ParkingSpot.reserve` (duration in minutes, default 30 in Python). -/
def Spot.reserve (s : Spot) (duration : ℚ) (now : ℚ) : Bool × Spot :=
  if s.occupied || s.reserved then (false, s)
  else (true, { s with reserved := true, reserved_until := some (now + duration * 60) })

/-- `ParkingSpot.cancel_reservation`. -/
def Spot.cancel_reservation (s : Spot) : Bool × Spot :=
  if !s.reserved then (false, s)
  else (true, { s with reserved := false, reserved_until := none })

/-- `ParkingSpot.get_status`. -/
def Spot.get_status (s : Spot) : String :=
  if s.occupied then "occupied" else if s.reserved then "reserved" else "available"

/-- One transition of the spot state machine (the four mutating methods). -/
inductive SpotOp where
  | occupy (vehicle_id : String) (now : ℚ)
  | vacate (now : ℚ)
  | reserve (duration now : ℚ)
  | cancel_reservation
deriving Repr

/-- Apply a transition, keeping only the successor state. -/
def Spot.applyOp (s : Spot) : SpotOp → Spot
  | .occupy vid now => (s.occupy vid now).2
  | .vacate now => (s.vacate now).2
  | .reserve dur now => (s.reserve dur now).2
  | .cancel_reservation => (s.cancel_reservation).2

/-- The spot-status invariant: the `occupied` and `reserved` flags are never
both set, the occupant is recorded iff the spot is occupied, and
`get_status` reports exactly one of the three statuses accordingly. -/
def SpotInv (s : Spot) : Prop :=
  ¬(s.occupied = true ∧ s.reserved = true) ∧
  (s.vehicle_id ≠ none ↔ s.occupied = true) ∧
  ((s.get_status = "occupied" ∧ s.occupied = true) ∨
   (s.get_status = "reserved" ∧ s.occupied = false ∧ s.reserved = true) ∨
   (s.get_status = "available" ∧ s.occupied = false ∧ s.reserved = false))

theorem spotInv_mk (spot_id : String) (loc : ℕ × ℕ) (ty : String) (fl : ℕ) :
    SpotInv (mkSpot spot_id loc ty fl) := by
  simp [SpotInv, mkSpot, Spot.get_status]

theorem spotInv_applyOp (s : Spot) (op : SpotOp) (h : SpotInv s) : SpotInv (s.applyOp op) := by
  obtain ⟨h₁, h₂, h₃⟩ := h
  cases op with
  | occupy vid now =>
      by_cases hc : s.occupied || s.reserved
      · simpa [Spot.applyOp, Spot.occupy, hc] using ⟨h₁, h₂, h₃⟩
      · simp only [Bool.or_eq_true, not_or, Bool.not_eq_true] at hc
        simp [Spot.applyOp, Spot.occupy, hc.1, hc.2, SpotInv, Spot.get_status]
  | vacate now =>
      by_cases hc : s.occupied
      · have hr : s.reserved = false := by
          cases hres : s.reserved
          · rfl
          · exact absurd ⟨hc, hres⟩ h₁
        simp [Spot.applyOp, Spot.vacate, hc, hr, SpotInv, Spot.get_status]
      · simp only [Bool.not_eq_true] at hc
        simpa [Spot.applyOp, Spot.vacate, hc] using ⟨h₁, h₂, h₃⟩
  | reserve dur now =>
      by_cases hc : s.occupied || s.reserved
      · simpa [Spot.applyOp, Spot.reserve, hc] using ⟨h₁, h₂, h₃⟩
      · simp only [Bool.or_eq_true, not_or, Bool.not_eq_true] at hc
        simp only [SpotInv, Spot.applyOp, Spot.reserve, hc.1, hc.2] at h₂ ⊢
        simp [Spot.get_status, hc.1, h₂]
  | cancel_reservation =>
      by_cases hc : s.reserved
      · have ho : s.occupied = false := by
          cases hocc : s.occupied
          · rfl
          · exact absurd ⟨hocc, hc⟩ h₁
        simp only [SpotInv, Spot.applyOp, Spot.cancel_reservation, hc, ho] at h₂ ⊢
        simp [Spot.get_status, ho, h₂]
      · simp only [Bool.not_eq_true] at hc
        simpa [Spot.applyOp, Spot.cancel_reservation, hc] using ⟨h₁, h₂, h₃⟩

theorem spotInv_foldl (s : Spot) (ops : List SpotOp) (h : SpotInv s) :
    SpotInv (ops.foldl Spot.applyOp s) := by
  induction ops generalizing s with
  | nil => exact h
  | cons op rest ih => exact ih _ (spotInv_applyOp s op h)

/-- C1: after any sequence of occupy/vacate/reserve/cancel_reservation
transitions from the initial state, the `occupied` and `reserved` flags are
never both true (so exactly one of the three statuses holds, as reported by
`get_status`), and the occupant field is non-none iff the spot is occupied. -/
theorem C1_spot_state_machine (spot_id : String) (loc : ℕ × ℕ) (ty : String) (fl : ℕ)
    (ops : List SpotOp) :
    SpotInv (ops.foldl Spot.applyOp (mkSpot spot_id loc ty fl)) :=
  spotInv_foldl _ _ (spotInv_mk spot_id loc ty fl)

/-! ## Navigation graph and `ParkingFacility._dijkstra`

Python represents the graph as a dict from node-id strings `"floor-x-y"` to
adjacency lists, distances as a dict into floats with `float('inf')`
(modelled by `WithTop ℕ`: all edge weights are the integer 1), and the
priority queue as a `heapq` of `(distance, node)` tuples, which pops the
lexicographically least tuple (ints first, then Python's code-point string
order, modelled by `strLt`). -/

/-- Code-point lexicographic order on char lists (Python string `<`). -/
def charListLt : List Char → List Char → Bool
  | [], [] => false
  | [], _ :: _ => true
  | _ :: _, [] => false
  | c :: cs, d :: ds => c.toNat < d.toNat || (c.toNat == d.toNat && charListLt cs ds)

/-- Python's `<` on strings: code-point lexicographic. -/
def strLt (s t : String) : Bool := charListLt s.data t.data

/-- Lexicographic order on `(distance, node)` heap entries, as compared by
Python tuple comparison inside `heapq`. -/
def entryLt (a b : ℕ × String) : Bool :=
  a.1 < b.1 || (a.1 == b.1 && strLt a.2 b.2)

/-- Select a least entry (w.r.t. `entryLt`) from `x :: l`, returning it and
the remaining entries. -/
def selMin (x : ℕ × String) : List (ℕ × String) → (ℕ × String) × List (ℕ × String)
  | [] => (x, [])
  | y :: ys =>
    if entryLt y x then
      let r := selMin y ys
      (r.1, x :: r.2)
    else
      let r := selMin x ys
      (r.1, y :: r.2)

/-- `heapq.heappop`: remove and return a least entry of the heap. -/
def popMin : List (ℕ × String) → Option ((ℕ × String) × List (ℕ × String))
  | [] => none
  | x :: xs => some (selMin x xs)

/-- The navigation graph: node list (dict key order) plus adjacency. -/
structure DGraph where
  nodes : List String
  adj : String → List String

/-- Every adjacency target is a node of the graph. -/
def GraphWF (g : DGraph) : Prop := ∀ u : String, ∀ v ∈ g.adj u, v ∈ g.nodes

/-- Mutable state of the Dijkstra loop: priority queue, tentative
distances, predecessor map. -/
structure DState where
  pq : List (ℕ × String)
  dist : String → WithTop ℕ
  prev : String → Option String

/-- Relax one edge `u → v` with popped distance `d` (edge weight 1):
if `d + 1` improves `dist v`, record it, set the predecessor and push. -/
def relaxOne (u : String) (d : ℕ) (s : DState) (v : String) : DState :=
  if ((d + 1 : ℕ) : WithTop ℕ) < s.dist v then
    { pq := (d + 1, v) :: s.pq,
      dist := fun w => if w = v then ((d + 1 : ℕ) : WithTop ℕ) else s.dist w,
      prev := fun w => if w = v then some u else s.prev w }
  else s

/-- Relax all neighbours of `u` in adjacency order. -/
def relaxAll (u : String) (d : ℕ) (nbrs : List String) (s : DState) : DState :=
  nbrs.foldl (relaxOne u d) s

/-- The Dijkstra main loop (`while pq:` in `_dijkstra`), with fuel.
Breaks when the target is popped; skips stale entries
(`current_distance > distances[current_node]`). -/
def dijkstraLoop (g : DGraph) (target : String) : ℕ → DState → DState
  | 0, s => s
  | fuel + 1, s =>
    match popMin s.pq with
    | none => s
    | some ((d, u), rest) =>
      if u = target then { s with pq := rest }
      else if s.dist u < (d : WithTop ℕ) then
        dijkstraLoop g target fuel { s with pq := rest }
      else
        dijkstraLoop g target fuel (relaxAll u d (g.adj u) { s with pq := rest })

/-- Path reconstruction chain (`while current: path.append(current);
current = previous[current]`), with fuel; the result is reversed by the
caller as in the source. -/
def chainOf (prev : String → Option String) : ℕ → String → List String
  | 0, _ => []
  | fuel + 1, c =>
    c :: (match prev c with
          | none => []
          | some p => chainOf prev fuel p)

/-- Fuel that provably outlasts the loop (the loop's step measure starts
below this; the Python loop needs no fuel because it always terminates). -/
def dijkstraFuel (g : DGraph) : ℕ := (g.nodes.length + 1) * (g.nodes.length + 1)

/-- `ParkingFacility._dijkstra`: returns `(distances[target], path)`. -/
def dijkstra (g : DGraph) (start target : String) : WithTop ℕ × List String :=
  let s0 : DState :=
    { pq := [(0, start)],
      dist := fun v => if v = start then (0 : WithTop ℕ) else ⊤,
      prev := fun _ => none }
  let s := dijkstraLoop g target (dijkstraFuel g) s0
  (s.dist target, (chainOf s.prev (g.nodes.length + 1) target).reverse)

/-! Specification side: walks of a given edge count, and the breadth-first
(minimum-edge-count) distance. These are written from the claims, to be
compared with what `dijkstra` computes. -/

/-- `walkX g k s t` decides whether some walk of exactly `k` edges leads
from `s` to `t` in `g`. -/
def walkX (g : DGraph) : ℕ → String → String → Bool
  | 0, s, t => s == t
  | k + 1, s, t => (g.adj s).any (fun v => walkX g k v t)

/-- First walk length `≤ bound` from `s` to `t`, if any. -/
def firstWalkLe (g : DGraph) (s t : String) : ℕ → Option ℕ
  | 0 => if walkX g 0 s t then some 0 else none
  | k + 1 =>
    match firstWalkLe g s t k with
    | some j => some j
    | none => if walkX g (k + 1) s t then some (k + 1) else none

/-- The breadth-first distance: least number of edges of any walk from `s`
to `t` (`⊤` if there is none); searching up to `|nodes|` suffices because a
minimal walk never repeats a node. -/
def distStar (g : DGraph) (s t : String) : WithTop ℕ :=
  match firstWalkLe g s t g.nodes.length with
  | some k => (k : WithTop ℕ)
  | none => ⊤

/-! ## ParkingFacility.py : data model and operations -/

/-- `Vehicle.py`; `preferences` is modelled by the one flag the core reads
(`near_entrance`); `covered_spot`/`easy_exit` are never consulted. -/
structure Vehicle where
  id : String
  type : String
  arrival_time : ℚ
  expected_duration : ℚ
  assigned_spot : Option String
  near_entrance : Bool
deriving DecidableEq, Repr

/-- `Vehicle.assign_spot`. -/
def Vehicle.assignSpot (v : Vehicle) (sid : String) : Vehicle :=
  { v with assigned_spot := some sid }

/-- Python dict assignment `d[k] = v` on an association list: replace the
(unique) binding if present, else append. -/
def dictInsert {β : Type} : List (String × β) → String → β → List (String × β)
  | [], k, v => [(k, v)]
  | (k', v') :: rest, k, v =>
    if k' = k then (k, v) :: rest else (k', v') :: dictInsert rest k v

/-- Python `del d[k]` (guarded by `if k in d`): drop the binding. -/
def dictRemove {β : Type} : List (String × β) → String → List (String × β)
  | [], _ => []
  | (k', v') :: rest, k => if k' = k then rest else (k', v') :: dictRemove rest k

/-- Facility state (`ParkingFacility.__init__` plus the layout fields the
core reads; the occupancy grid is write-only in the core and omitted). -/
structure Facility where
  name : String
  spots : List (String × Spot)
  vehicles : List (String × Vehicle)
  entrances : List (ℕ × ℕ)
  exits : List (ℕ × ℕ)
  graph : DGraph
  total_spots : ℕ
  available_spots : ℤ
  stat_total_vehicles : ℕ
  stat_avg_occupancy_rate : ℚ
  stat_avg_search_time : ℚ
  stat_revenue : ℚ

/-- Update the (unique) spot binding `sid` in place. -/
def updateSpotList : List (String × Spot) → String → Spot → List (String × Spot)
  | [], _, _ => []
  | (k, v) :: rest, sid, sp =>
    if k = sid then (k, sp) :: rest else (k, v) :: updateSpotList rest sid sp

/-- `self.spots[spot_id] = ...` -/
def updateSpot (f : Facility) (sid : String) (sp : Spot) : Facility :=
  { f with spots := updateSpotList f.spots sid sp }

/-- `ParkingFacility._manhattan_distance`. -/
def manhattan_distance (pos1 pos2 : ℕ × ℕ) : ℕ :=
  ((pos1.1 : ℤ) - pos2.1).natAbs + ((pos1.2 : ℤ) - pos2.2).natAbs

/-- `ParkingFacility._compute_spot_preference_score`. The Python `min(...)`
over entrance distances is total only when an entrance exists; theorems
about vehicles holding `near_entrance` therefore assume `entrances ≠ []`. -/
def compute_spot_preference_score (f : Facility) (spot : Spot) (vehicle : Vehicle) : ℚ :=
  let score : ℚ := 10
  let score : ℚ :=
    if vehicle.near_entrance then
      let entrance_dist : ℕ :=
        ((f.entrances.map fun e => manhattan_distance spot.location e).min?).getD 0
      score + max 0 (5 - (entrance_dist : ℚ))
    else score
  if vehicle.type = "handicap" && spot.type = "handicap" then score + 20
  else if vehicle.type = "electric" && spot.type = "electric" then score + 15
  else if spot.type = "standard" then score + 5
  else score

/-- Node-id string `f"{floor}-{x}-{y}"`. -/
def nodeId (fl x y : ℕ) : String :=
  toString fl ++ "-" ++ toString x ++ "-" ++ toString y

/-- Stable insertion keeping higher scores first; equal scores keep the
existing (earlier) element first, matching Python's stable
`sort(key=..., reverse=True)`. -/
def insertByScore (x : String × ℚ) : List (String × ℚ) → List (String × ℚ)
  | [] => [x]
  | y :: ys => if y.2 < x.2 then x :: y :: ys else y :: insertByScore x ys

/-- Stable sort by score descending. -/
def sortByScoreDesc (l : List (String × ℚ)) : List (String × ℚ) :=
  l.foldl (fun acc x => insertByScore x acc) []

/-- The best-spot accumulator of `find_nearest_available_spot`'s loop:
keep the candidate whose Dijkstra distance from `start_node` strictly
beats the best so far. -/
def bestByDistance (f : Facility) (start_node : String)
    (acc : Option String × WithTop ℕ) (sp : String × ℚ) : Option String × WithTop ℕ :=
  match f.spots.lookup sp.1 with
  | none => acc
  | some spot =>
    let spot_node := nodeId spot.floor spot.location.1 spot.location.2
    let d := (dijkstra f.graph start_node spot_node).1
    if d < acc.2 then (some sp.1, d) else acc

/-- `ParkingFacility.find_nearest_available_spot`. -/
def find_nearest_available_spot (f : Facility) (vehicle : Vehicle)
    (location : Option (ℕ × ℕ × ℕ)) : Option String :=
  if f.available_spots = 0 then none
  else
    let start : ℕ × ℕ × ℕ :=
      match location with
      | none => (0, ((f.entrances.headD (0, 0)).1, (f.entrances.headD (0, 0)).2))
      | some loc => loc
    let start_node := nodeId start.1 start.2.1 start.2.2
    let compatible_spots : List (String × ℚ) :=
      (f.spots.filter fun p => !p.2.occupied && !p.2.reserved).map
        fun p => (p.1, compute_spot_preference_score f p.2 vehicle)
    if compatible_spots.isEmpty then none
    else
      let top_spots := (sortByScoreDesc compatible_spots).take 5
      let best := top_spots.foldl (bestByDistance f start_node)
        ((none : Option String), (⊤ : WithTop ℕ))
      best.1

/-- Second half of `ParkingFacility.assign_vehicle_to_spot`, from the point
where the spot id has been resolved. -/
def assignResolved (f : Facility) (vehicle : Vehicle) (resolved : Option String)
    (now : ℚ) : Bool × Facility × Vehicle :=
  match resolved with
  | none => (false, f, vehicle)
  | some sid =>
    match f.spots.lookup sid with
    | none => (false, f, vehicle)
    | some spot =>
      if spot.occupied || spot.reserved then (false, f, vehicle)
      else
        let r := spot.occupy vehicle.id now
        if r.1 then
          let v' := vehicle.assignSpot sid
          (true,
           { updateSpot f sid r.2 with
             vehicles := dictInsert f.vehicles v'.id v',
             available_spots := f.available_spots - 1,
             stat_total_vehicles := f.stat_total_vehicles + 1 },
           v')
        else (false, f, vehicle)

/-- `ParkingFacility.assign_vehicle_to_spot`; returns `(success, facility,
vehicle)` since the Python method mutates the facility and the vehicle:
resolve the spot id (`find_nearest_available_spot` when none is given),
then occupy. -/
def assign_vehicle_to_spot (f : Facility) (vehicle : Vehicle) (spot_id : Option String)
    (now : ℚ) : Bool × Facility × Vehicle :=
  assignResolved f vehicle
    (match spot_id with
     | some sid => some sid
     | none => find_nearest_available_spot f vehicle none) now

/-- `ParkingFacility.vacate_spot`; returns the duration in minutes. -/
def vacate_spot (f : Facility) (spot_id : String) (now : ℚ) : Option ℚ × Facility :=
  match f.spots.lookup spot_id with
  | none => (none, f)
  | some spot =>
    if !spot.occupied then (none, f)
    else
      let vehicle_id := spot.vehicle_id
      let r := spot.vacate now
      let duration := r.1.getD 0
      (some (duration / 60),
       { updateSpot f spot_id r.2 with
         vehicles :=
           match vehicle_id with
           | some vid => dictRemove f.vehicles vid
           | none => f.vehicles,
         available_spots := f.available_spots + 1,
         stat_revenue := f.stat_revenue + (duration / 3600) * 2 })

/-- One vehicle step of `ComparisonAlgorithms.nearest_spot_assignment`:
find the nearest spot from the fixed start, record the assignment
(`assignments[vehicle.id] = spot_id`, overwriting any previous binding of
the id) and transiently reserve the spot (default duration 30; the
`time.time()` draw of each successful `reserve()` call comes from `clock`
at the running call index). -/
def nearestStep (start : ℕ × ℕ × ℕ) (clock : ℕ → ℚ)
    (acc : ℕ × Facility × List (String × String)) (vehicle : Vehicle) :
    ℕ × Facility × List (String × String) :=
  match find_nearest_available_spot acc.2.1 vehicle (some start) with
  | none => acc
  | some sid =>
    (acc.1 + 1,
     (match acc.2.1.spots.lookup sid with
      | none => acc.2.1
      | some sp => updateSpot acc.2.1 sid (sp.reserve 30 (clock acc.1)).2),
     dictInsert acc.2.2 vehicle.id sid)

/-- `ComparisonAlgorithms.nearest_spot_assignment`: assign each vehicle the
nearest available spot (default start: floor 0 at the first entrance),
transiently reserving each assigned spot, then cancel the reservation of
every spot in `assignments.values()`; returns `(assignments, facility)`
since the Python function mutates the facility. -/
def nearest_spot_assignment (f : Facility) (vehicles : List Vehicle)
    (starting_pos : Option (ℕ × ℕ × ℕ)) (clock : ℕ → ℚ) :
    List (String × String) × Facility :=
  let start : ℕ × ℕ × ℕ :=
    match starting_pos with
    | some p => p
    | none => (0, f.entrances.headD (0, 0))
  let r := vehicles.foldl (nearestStep start clock) (0, f, [])
  let fc := r.2.2.foldl
    (fun fc p =>
      match fc.spots.lookup p.2 with
      | none => fc
      | some sp => updateSpot fc p.2 (sp.cancel_reservation).2) r.2.1
  (r.2.2, fc)

/-- Invariant of the `nearest_spot_assignment` passes: the current facility
differs from the pristine one exactly by a transient reservation on each
spot in the pending value list, whose pre-call state was available with no
reservation timestamp; the value list has no duplicates and everything
else of the facility is untouched. -/
structure NearInv (f : Facility) (fc : Facility)
    (asg : List (String × String)) : Prop where
  keys : fc.spots.map Prod.fst = f.spots.map Prod.fst
  vals_nodup : (asg.map Prod.snd).Nodup
  reserved_mem : ∀ q ∈ asg, ∃ sp, f.spots.lookup q.2 = some sp ∧
    sp.occupied = false ∧ sp.reserved = false ∧ sp.reserved_until = none ∧
    ∃ t : ℚ, fc.spots.lookup q.2 =
      some { sp with reserved := true, reserved_until := some t }
  untouched : ∀ k, k ∉ asg.map Prod.snd → fc.spots.lookup k = f.spots.lookup k
  shape : fc = { f with spots := fc.spots }

/-- The read-only part of `ParkingFacility.get_occupancy_status`. -/
structure OccupancyStatus where
  total_spots : ℕ
  occupied_spots : ℤ
  available_spots : ℤ
  occupancy_rate : ℚ
  by_type : List (String × (ℕ × ℕ))

/-- `ParkingFacility.get_occupancy_status`: returns the snapshot and the
facility with its rolling occupancy average updated (the one mutating
side effect of this query). -/
def get_occupancy_status (f : Facility) : OccupancyStatus × Facility :=
  let occupied : ℤ := (f.total_spots : ℤ) - f.available_spots
  let occupancy_rate : ℚ := if 0 < f.total_spots then (occupied : ℚ) / f.total_spots else 0
  let f' := { f with stat_avg_occupancy_rate :=
                f.stat_avg_occupancy_rate * 0.95 + occupancy_rate * 0.05 }
  let by_type := f.spots.foldl
    (fun acc p =>
      let cur := (acc.lookup p.2.type).getD (0, 0)
      dictInsert acc p.2.type (cur.1 + 1, if p.2.occupied then cur.2 + 1 else cur.2))
    ([] : List (String × (ℕ × ℕ)))
  ({ total_spots := f.total_spots, occupied_spots := occupied,
     available_spots := f.available_spots, occupancy_rate := occupancy_rate,
     by_type := by_type }, f')

/-! ## Facility construction (`_default_layout`, `_determine_spot_type`,
`_build_navigation_graph`, and the set-up performed by `__init__`). -/

/-- Layout configuration; `spot_types` keeps each type's `distribution`
(the `count` entries are never read by the code). -/
structure Layout where
  dimensions : ℕ × ℕ
  floors : ℕ
  spot_types : List (String × ℚ)
  entrances : List (ℕ × ℕ)
  exits : List (ℕ × ℕ)
  aisles : List (ℕ × ℕ)

/-- `ParkingFacility._default_layout`. -/
def default_layout : Layout :=
  { dimensions := (20, 15), floors := 1,
    spot_types := [("standard", 0.8), ("handicap", 0.1), ("electric", 0.1)],
    entrances := [(0, 7)], exits := [(19, 7)],
    aisles := (List.range 20).flatMap fun x => [3, 7, 11].map fun y => (x, y) }

/-- Helper for `_determine_spot_type`: walk the cumulative distribution. -/
def determineSpotTypeGo (r : ℚ) : List (String × ℚ) → ℚ → String
  | [], _ => "standard"
  | (name, d) :: rest, cum =>
    if r ≤ cum + d then name else determineSpotTypeGo r rest (cum + d)

/-- `ParkingFacility._determine_spot_type`, with the `random.random()` draw
`r` passed explicitly. -/
def determine_spot_type (spot_types : List (String × ℚ)) (r : ℚ) : String :=
  determineSpotTypeGo r spot_types 0

/-- In-floor 4-way grid adjacency of node `(fl, x, y)`, in the source's
direction order, bounds-checked. -/
def gridNeighbors (w h : ℕ) (fl x y : ℕ) : List String :=
  ([((x : ℤ), (y : ℤ) + 1), ((x : ℤ) + 1, (y : ℤ)),
    ((x : ℤ), (y : ℤ) - 1), ((x : ℤ) - 1, (y : ℤ))] : List (ℤ × ℤ)).filterMap
    fun p =>
      if 0 ≤ p.1 ∧ p.1 < (w : ℤ) ∧ 0 ≤ p.2 ∧ p.2 < (h : ℤ) then
        some (nodeId fl p.1.toNat p.2.toNat)
      else none

/-- Inter-floor elevator edges appended to the adjacency of node
`(fl, x, y)`: for each occurrence of `(x, y)` among the entrances, first the
edge down a floor (appended during the earlier loop iteration), then the
edge up a floor, each guarded as in the source's `range(floors - 1)` loop. -/
def entranceEdges (floors : ℕ) (entrances : List (ℕ × ℕ)) (fl x y : ℕ) : List String :=
  (if 1 ≤ fl ∧ fl < floors then
     entrances.filterMap fun e => if e = (x, y) then some (nodeId (fl - 1) x y) else none
   else []) ++
  (if fl + 1 < floors then
     entrances.filterMap fun e => if e = (x, y) then some (nodeId (fl + 1) x y) else none
   else [])

/-- `ParkingFacility._build_navigation_graph`: nodes for every grid cell on
every floor (dict insertion order: floor, then y, then x), 4-way in-floor
edges plus entrance-aligned inter-floor edges. -/
def build_navigation_graph (dimensions : ℕ × ℕ) (floors : ℕ)
    (entrances : List (ℕ × ℕ)) : DGraph :=
  let w := dimensions.1
  let h := dimensions.2
  let entries : List (String × List String) :=
    (List.range floors).flatMap fun fl =>
      (List.range h).flatMap fun y =>
        (List.range w).map fun x =>
          (nodeId fl x y, gridNeighbors w h fl x y ++ entranceEdges floors entrances fl x y)
  { nodes := entries.map Prod.fst, adj := fun s => ((entries.lookup s).getD []) }

/-- The entry list underlying `build_navigation_graph`, spelled out for
reasoning (definitionally what the `let entries := ...` above builds). -/
def navEntries (dimensions : ℕ × ℕ) (floors : ℕ)
    (entrances : List (ℕ × ℕ)) : List (String × List String) :=
  (List.range floors).flatMap fun fl =>
    (List.range dimensions.2).flatMap fun y =>
      (List.range dimensions.1).map fun x =>
        (nodeId fl x y,
         gridNeighbors dimensions.1 dimensions.2 fl x y ++
           entranceEdges floors entrances fl x y)

/-- Concrete two-spot facility for the C6 counterexample. -/
def facC6 : Facility :=
  { name := "c6", spots := [("s1", mkSpot "s1" (0, 0) "standard" 0),
      ("s2", mkSpot "s2" (1, 0) "standard" 0)],
    vehicles := [], entrances := [(0, 0)],
    exits := [], graph := build_navigation_graph (2, 1) 1 [(0, 0)], total_spots := 2,
    available_spots := 2, stat_total_vehicles := 0, stat_avg_occupancy_rate := 0,
    stat_avg_search_time := 0, stat_revenue := 0 }

/-- Vehicle with id `"A"`, used twice in the C6 counterexample. -/
def vehC6 : Vehicle :=
  { id := "A", type := "standard", arrival_time := 0, expected_duration := 60,
    assigned_spot := none, near_entrance := false }

/-- One step of the spot-creation loop in `_initialize_facility`: skip
aisle/entrance/exit cells, otherwise create a spot (consuming one random
draw) and advance the id counter. -/
def initSpotsStep (layout : Layout) (rs : ℕ → ℚ)
    (acc : ℕ × List (String × Spot)) (cell : ℕ × ℕ × ℕ) : ℕ × List (String × Spot) :=
  let fl := cell.1
  let x := cell.2.1
  let y := cell.2.2
  if (x, y) ∈ layout.aisles ∨ (x, y) ∈ layout.entrances ∨ (x, y) ∈ layout.exits then acc
  else
    let spot_type := determine_spot_type layout.spot_types (rs (acc.1 - 1))
    let sid := toString fl ++ "-" ++ toString acc.1
    (acc.1 + 1, acc.2 ++ [(sid, mkSpot sid (x, y) spot_type fl)])

/-- The cell enumeration order of `_initialize_facility`: floor, then y,
then x. -/
def initCells (layout : Layout) : List (ℕ × ℕ × ℕ) :=
  (List.range layout.floors).flatMap fun fl =>
    (List.range layout.dimensions.2).flatMap fun y =>
      (List.range layout.dimensions.1).map fun x => (fl, (x, y))

/-- `ParkingFacility.__init__` / `_initialize_facility` with the stream
`rs` of `random.random()` draws passed explicitly. -/
def initFacility (name : String) (layout : Layout) (rs : ℕ → ℚ) : Facility :=
  let spots := ((initCells layout).foldl (initSpotsStep layout rs) (1, [])).2
  { name := name, spots := spots, vehicles := [],
    entrances := layout.entrances, exits := layout.exits,
    graph := build_navigation_graph layout.dimensions layout.floors layout.entrances,
    total_spots := spots.length, available_spots := (spots.length : ℤ),
    stat_total_vehicles := 0, stat_avg_occupancy_rate := 0,
    stat_avg_search_time := 0, stat_revenue := 0 }

/-! ## Association-list lemmas (dict semantics) -/

theorem lookup_updateSpotList_self (l : List (String × Spot)) (sid : String) (sp₀ sp : Spot)
    (h : l.lookup sid = some sp₀) : (updateSpotList l sid sp).lookup sid = some sp := by
  induction l with
  | nil => simp [List.lookup] at h
  | cons p rest ih =>
    obtain ⟨k, v⟩ := p
    by_cases hk : k = sid
    · subst hk
      simp [updateSpotList, List.lookup]
    · have hbe : (sid == k) = false := beq_eq_false_iff_ne.mpr fun hc => hk hc.symm
      simp only [List.lookup, hbe] at h
      simp only [updateSpotList, if_neg hk, List.lookup, hbe]
      exact ih h

theorem lookup_updateSpotList_other (l : List (String × Spot)) (sid k' : String) (sp : Spot)
    (h : k' ≠ sid) : (updateSpotList l sid sp).lookup k' = l.lookup k' := by
  induction l with
  | nil => simp [updateSpotList]
  | cons p rest ih =>
    obtain ⟨k, v⟩ := p
    by_cases hk : k = sid
    · subst hk
      have hbe : (k' == k) = false := beq_eq_false_iff_ne.mpr h
      simp [updateSpotList, List.lookup, hbe]
    · simp only [updateSpotList, if_neg hk, List.lookup]
      cases hbe : (k' == k) <;> simp [hbe, ih]

theorem countP_updateSpotList (l : List (String × Spot)) (sid : String) (sp₀ sp : Spot)
    (P : Spot → Bool) (h : l.lookup sid = some sp₀) :
    (updateSpotList l sid sp).countP (fun p => P p.2) + (if P sp₀ then 1 else 0) =
      l.countP (fun p => P p.2) + (if P sp then 1 else 0) := by
  induction l with
  | nil => simp [List.lookup] at h
  | cons p rest ih =>
    obtain ⟨k, v⟩ := p
    by_cases hk : k = sid
    · subst hk
      have hbe : (k == k) = true := beq_self_eq_true k
      simp only [List.lookup, hbe, Option.some.injEq] at h
      subst h
      simp only [updateSpotList, if_pos rfl, List.countP_cons]
      cases hP : P v <;> cases hQ : P sp <;> simp [hP, hQ]
    · have hbe : (sid == k) = false := beq_eq_false_iff_ne.mpr fun hc => hk hc.symm
      simp only [List.lookup, hbe] at h
      simp only [updateSpotList, if_neg hk, List.countP_cons]
      have := ih h
      cases hP : P v <;> simp [hP] <;> omega

theorem keys_updateSpotList (l : List (String × Spot)) (sid : String) (sp : Spot) :
    (updateSpotList l sid sp).map Prod.fst = l.map Prod.fst := by
  induction l with
  | nil => rfl
  | cons p rest ih =>
    obtain ⟨k, v⟩ := p
    by_cases hk : k = sid
    · subst hk
      simp [updateSpotList]
    · simp [updateSpotList, hk, ih]

/-! ## C7: assign followed by vacate restores the spot -/

/-- C7: assigning a vehicle to an available spot succeeds, and vacating it
afterwards (at a later clock time) leaves the spot available with no
occupant, restores the available-spot counter, and returns a non-negative
duration. -/
theorem C7_assign_vacate_roundtrip (f : Facility) (v : Vehicle) (sid : String) (sp : Spot)
    (t₁ t₂ : ℚ) (hlk : f.spots.lookup sid = some sp) (hocc : sp.occupied = false)
    (hres : sp.reserved = false) (ht : t₁ ≤ t₂) :
    (assign_vehicle_to_spot f v (some sid) t₁).1 = true ∧
    (vacate_spot (assign_vehicle_to_spot f v (some sid) t₁).2.1 sid t₂).1 =
      some ((t₂ - t₁) / 60) ∧
    0 ≤ (t₂ - t₁) / 60 ∧
    (∃ sp' : Spot,
      ((vacate_spot (assign_vehicle_to_spot f v (some sid) t₁).2.1 sid t₂).2).spots.lookup sid
        = some sp' ∧ sp'.get_status = "available" ∧ sp'.vehicle_id = none) ∧
    ((vacate_spot (assign_vehicle_to_spot f v (some sid) t₁).2.1 sid t₂).2).available_spots
      = f.available_spots := by
  have hguard : (sp.occupied || sp.reserved) = false := by simp [hocc, hres]
  have hocc1 : Spot.occupy sp v.id t₁ =
      (true,
       { sp with
          occupied := true,
          vehicle_id := some v.id,
          occupied_since := some t₁ }) := by
    simp [Spot.occupy, hguard]
  have hassign : assign_vehicle_to_spot f v (some sid) t₁ =
      (true,
       { updateSpot f sid
           ({ sp with
               occupied := true,
               vehicle_id := some v.id,
               occupied_since := some t₁ }) with
          vehicles := dictInsert f.vehicles (v.assignSpot sid).id (v.assignSpot sid),
          available_spots := f.available_spots - 1,
          stat_total_vehicles := f.stat_total_vehicles + 1 },
       v.assignSpot sid) := by
    simp [assign_vehicle_to_spot, assignResolved, hlk, hguard, hocc1]
  have hlk₁ :
      ((assign_vehicle_to_spot f v (some sid) t₁).2.1).spots.lookup sid =
        some ({ sp with
                 occupied := true,
                 vehicle_id := some v.id,
                 occupied_since := some t₁ }) := by
    rw [hassign]
    exact lookup_updateSpotList_self f.spots sid sp _ hlk
  have hvac :
      vacate_spot (assign_vehicle_to_spot f v (some sid) t₁).2.1 sid t₂ =
      (some ((t₂ - t₁) / 60),
       { updateSpot (assign_vehicle_to_spot f v (some sid) t₁).2.1 sid
           ({ sp with
               occupied := false,
               vehicle_id := none,
               occupied_since := none }) with
          vehicles :=
            dictRemove ((assign_vehicle_to_spot f v (some sid) t₁).2.1).vehicles v.id,
          available_spots :=
            ((assign_vehicle_to_spot f v (some sid) t₁).2.1).available_spots + 1,
          stat_revenue :=
            ((assign_vehicle_to_spot f v (some sid) t₁).2.1).stat_revenue +
              ((t₂ - t₁) / 3600) * 2 }) := by
    simp [vacate_spot, hlk₁, Spot.vacate]
  refine ⟨by rw [hassign], by rw [hvac], ?_, ?_, ?_⟩
  · have h60 : (0 : ℚ) ≤ 60 := by norm_num
    exact div_nonneg (sub_nonneg.2 ht) h60
  · refine ⟨{ sp with
               occupied := false,
               vehicle_id := none,
               occupied_since := none }, ?_, ?_, rfl⟩
    · rw [hvac]
      show (updateSpotList ((assign_vehicle_to_spot f v (some sid) t₁).2.1).spots sid _).lookup sid
        = _
      exact lookup_updateSpotList_self _ sid _ _ hlk₁
    · simp [Spot.get_status, hres]
  · rw [hvac]
    show ((assign_vehicle_to_spot f v (some sid) t₁).2.1).available_spots + 1 =
      f.available_spots
    rw [hassign]
    show f.available_spots - 1 + 1 = f.available_spots
    omega

/-- Concrete data for the C7 witness. -/
def spotW : Spot := mkSpot "0-1" (1, 0) "standard" 0

/-- Concrete facility for the C7 witness. -/
def facW : Facility :=
  { name := "w", spots := [("0-1", spotW)], vehicles := [], entrances := [(0, 0)],
    exits := [], graph := build_navigation_graph (2, 1) 1 [(0, 0)], total_spots := 1,
    available_spots := 1, stat_total_vehicles := 0, stat_avg_occupancy_rate := 0,
    stat_avg_search_time := 0, stat_revenue := 0 }

/-- Concrete vehicle for the C7 witness. -/
def vehW : Vehicle :=
  { id := "V1", type := "standard", arrival_time := 0, expected_duration := 60,
    assigned_spot := none, near_entrance := false }

theorem C7_witness :
    facW.spots.lookup "0-1" = some spotW ∧ spotW.occupied = false ∧
    spotW.reserved = false ∧ (0 : ℚ) ≤ 60 ∧
    ((assign_vehicle_to_spot facW vehW (some "0-1") 0).1 = true ∧
     (vacate_spot (assign_vehicle_to_spot facW vehW (some "0-1") 0).2.1 "0-1" 60).1 =
       some (((60 : ℚ) - 0) / 60) ∧
     0 ≤ ((60 : ℚ) - 0) / 60 ∧
     (∃ sp' : Spot,
       ((vacate_spot (assign_vehicle_to_spot facW vehW (some "0-1") 0).2.1 "0-1" 60).2).spots.lookup
           "0-1" = some sp' ∧ sp'.get_status = "available" ∧ sp'.vehicle_id = none) ∧
     ((vacate_spot (assign_vehicle_to_spot facW vehW (some "0-1") 0).2.1 "0-1" 60).2).available_spots
       = facW.available_spots) :=
  ⟨rfl, rfl, rfl, by norm_num,
   C7_assign_vacate_roundtrip facW vehW "0-1" spotW 0 60 rfl rfl rfl (by norm_num)⟩

/-! ## C10: the available-spot counter tracks exactly the occupied flags -/

/-- Facility-level operations reachable through the public mutation
surface: `assign_vehicle_to_spot`, `vacate_spot`, and the per-spot
`spot.reserve()` / `spot.cancel_reservation()` calls made on
`facility.spots[sid]`. -/
inductive FOp where
  | assign (vehicle : Vehicle) (spot_id : Option String) (now : ℚ)
  | vacate (spot_id : String) (now : ℚ)
  | reserveSpot (spot_id : String) (duration now : ℚ)
  | cancelSpot (spot_id : String)

/-- Apply one facility operation. -/
def applyFOp (f : Facility) : FOp → Facility
  | .assign v sid now => (assign_vehicle_to_spot f v sid now).2.1
  | .vacate sid now => (vacate_spot f sid now).2
  | .reserveSpot sid dur now =>
    match f.spots.lookup sid with
    | none => f
    | some sp => updateSpot f sid (sp.reserve dur now).2
  | .cancelSpot sid =>
    match f.spots.lookup sid with
    | none => f
    | some sp => updateSpot f sid (sp.cancel_reservation).2

/-- The number of spots whose occupied flag is set. -/
def occupiedCount (f : Facility) : ℕ := f.spots.countP fun p => p.2.occupied

/-- The counter invariant: `available_spots = total_spots − #occupied`. -/
def CounterInv (f : Facility) : Prop :=
  f.available_spots = (f.total_spots : ℤ) - (occupiedCount f : ℤ)

/-- `assignResolved` either returns the facility unchanged or occupies one
previously-unoccupied spot and decrements the counter. -/
theorem assignResolved_shape (f : Facility) (v : Vehicle) (resolved : Option String)
    (now : ℚ) :
    (assignResolved f v resolved now).2.1 = f ∨
    ∃ s sp, f.spots.lookup s = some sp ∧ sp.occupied = false ∧
      (assignResolved f v resolved now).2.1 =
        { updateSpot f s
            ({ sp with
                occupied := true,
                vehicle_id := some v.id,
                occupied_since := some now }) with
          vehicles := dictInsert f.vehicles (v.assignSpot s).id (v.assignSpot s),
          available_spots := f.available_spots - 1,
          stat_total_vehicles := f.stat_total_vehicles + 1 } := by
  cases resolved with
  | none => left; rfl
  | some s =>
    cases hlk : f.spots.lookup s with
    | none => left; simp [assignResolved, hlk]
    | some sp =>
      by_cases hg : (sp.occupied || sp.reserved) = true
      · left; simp [assignResolved, hlk, hg]
      · have hocc : sp.occupied = false := by
          cases hx : sp.occupied
          · rfl
          · simp [hx] at hg
        right
        refine ⟨s, sp, hlk, hocc, ?_⟩
        simp [assignResolved, hlk, hg, Spot.occupy]

/-- `vacate_spot` either returns the facility unchanged or clears one
previously-occupied spot and increments the counter. -/
theorem vacate_shape (f : Facility) (sid : String) (now : ℚ) :
    (vacate_spot f sid now).2 = f ∨
    ∃ sp, f.spots.lookup sid = some sp ∧ sp.occupied = true ∧
      (vacate_spot f sid now).2 =
        { updateSpot f sid
            ({ sp with
                occupied := false,
                vehicle_id := none,
                occupied_since := none }) with
          vehicles :=
            match sp.vehicle_id with
            | some vid => dictRemove f.vehicles vid
            | none => f.vehicles,
          available_spots := f.available_spots + 1,
          stat_revenue := f.stat_revenue +
            ((now - sp.occupied_since.getD 0) / 3600) * 2 } := by
  cases hlk : f.spots.lookup sid with
  | none => left; simp [vacate_spot, hlk]
  | some sp =>
    by_cases hocc : sp.occupied = true
    · right
      refine ⟨sp, rfl, hocc, ?_⟩
      simp [vacate_spot, hlk, hocc, Spot.vacate]
    · have hocc' : sp.occupied = false := by
        cases hx : sp.occupied
        · rfl
        · exact absurd hx hocc
      left; simp [vacate_spot, hlk, hocc']

theorem counterInv_applyFOp (f : Facility) (op : FOp) (h : CounterInv f) :
    CounterInv (applyFOp f op) := by
  cases op with
  | assign v sid now =>
    show CounterInv (assignResolved f v
      (match sid with
       | some s => some s
       | none => find_nearest_available_spot f v none) now).2.1
    rcases assignResolved_shape f v
      (match sid with
       | some s => some s
       | none => find_nearest_available_spot f v none) now with heq | ⟨s, sp, hlk, hocc, heq⟩
    · rw [heq]; exact h
    · rw [heq]
      have hc := countP_updateSpotList f.spots s sp
        ({ sp with
            occupied := true,
            vehicle_id := some v.id,
            occupied_since := some now }) (fun q => q.occupied) hlk
      simp only [hocc, Bool.false_eq_true, if_false, if_true, add_zero] at hc
      unfold CounterInv occupiedCount at h ⊢
      simp only [updateSpot] at hc ⊢
      omega
  | vacate sid now =>
    show CounterInv (vacate_spot f sid now).2
    rcases vacate_shape f sid now with heq | ⟨sp, hlk, hocc, heq⟩
    · rw [heq]; exact h
    · rw [heq]
      have hc := countP_updateSpotList f.spots sid sp
        ({ sp with
            occupied := false,
            vehicle_id := none,
            occupied_since := none }) (fun q => q.occupied) hlk
      simp only [hocc, Bool.false_eq_true, if_false, if_true, add_zero] at hc
      unfold CounterInv occupiedCount at h ⊢
      simp only [updateSpot] at hc ⊢
      omega
  | reserveSpot sid dur now =>
    have hstep : applyFOp f (.reserveSpot sid dur now) =
        match f.spots.lookup sid with
        | none => f
        | some sp => updateSpot f sid (sp.reserve dur now).2 := rfl
    rw [hstep]
    cases hlk : f.spots.lookup sid with
    | none => exact h
    | some sp =>
      have hflag : ((sp.reserve dur now).2).occupied = sp.occupied := by
        unfold Spot.reserve
        by_cases hg : (sp.occupied || sp.reserved) = true <;> simp [hg]
      show CounterInv (updateSpot f sid (sp.reserve dur now).2)
      have hc := countP_updateSpotList f.spots sid sp (sp.reserve dur now).2
        (fun q => q.occupied) hlk
      simp only [hflag] at hc
      unfold CounterInv occupiedCount at h ⊢
      simp only [updateSpot] at hc ⊢
      omega
  | cancelSpot sid =>
    have hstep : applyFOp f (.cancelSpot sid) =
        match f.spots.lookup sid with
        | none => f
        | some sp => updateSpot f sid (sp.cancel_reservation).2 := rfl
    rw [hstep]
    cases hlk : f.spots.lookup sid with
    | none => exact h
    | some sp =>
      have hflag : ((sp.cancel_reservation).2).occupied = sp.occupied := by
        unfold Spot.cancel_reservation
        by_cases hg : (!sp.reserved) = true <;> simp [hg]
      show CounterInv (updateSpot f sid (sp.cancel_reservation).2)
      have hc := countP_updateSpotList f.spots sid sp (sp.cancel_reservation).2
        (fun q => q.occupied) hlk
      simp only [hflag] at hc
      unfold CounterInv occupiedCount at h ⊢
      simp only [updateSpot] at hc ⊢
      omega

theorem counterInv_foldl (f : Facility) (ops : List FOp) (h : CounterInv f) :
    CounterInv (ops.foldl applyFOp f) := by
  induction ops generalizing f with
  | nil => exact h
  | cons op rest ih => exact ih _ (counterInv_applyFOp f op h)

/-- All spots created by `_initialize_facility` start unoccupied. -/
theorem initSpots_unoccupied (layout : Layout) (rs : ℕ → ℚ) (cells : List (ℕ × ℕ × ℕ))
    (acc : ℕ × List (String × Spot)) (hacc : ∀ p ∈ acc.2, p.2.occupied = false) :
    ∀ p ∈ (cells.foldl (initSpotsStep layout rs) acc).2, p.2.occupied = false := by
  induction cells generalizing acc with
  | nil => exact hacc
  | cons c rest ih =>
    refine ih _ ?_
    unfold initSpotsStep
    by_cases hskip : (c.2.1, c.2.2) ∈ layout.aisles ∨ (c.2.1, c.2.2) ∈ layout.entrances ∨
        (c.2.1, c.2.2) ∈ layout.exits
    · simpa [hskip] using hacc
    · simp only [hskip, if_false]
      intro p hp
      rcases List.mem_append.mp hp with hp | hp
      · exact hacc p hp
      · simp only [List.mem_singleton] at hp
        subst hp
        rfl

theorem counterInv_initFacility (name : String) (layout : Layout) (rs : ℕ → ℚ) :
    CounterInv (initFacility name layout rs) := by
  unfold CounterInv initFacility occupiedCount
  simp only
  have hz :
      (((initCells layout).foldl (initSpotsStep layout rs) (1, [])).2).countP
        (fun p => p.2.occupied) = 0 := by
    rw [List.countP_eq_zero]
    intro p hp
    have := initSpots_unoccupied layout rs (initCells layout) (1, []) (by simp) p hp
    simp [this]
  rw [hz]
  omega

/-- C10: starting from facility initialization, any sequence of
assign/vacate/per-spot-reserve/per-spot-cancel operations keeps
`available_spots = total_spots − #{occupied spots}`; the occupancy snapshot
therefore reports reserved-but-unoccupied spots as available, and the
per-spot reserve/cancel operations never change the counter. -/
theorem C10_available_counter (name : String) (layout : Layout) (rs : ℕ → ℚ)
    (ops : List FOp) :
    ((ops.foldl applyFOp (initFacility name layout rs)).available_spots =
      ((ops.foldl applyFOp (initFacility name layout rs)).total_spots : ℤ) -
        (occupiedCount (ops.foldl applyFOp (initFacility name layout rs)) : ℤ)) ∧
    ((get_occupancy_status (ops.foldl applyFOp (initFacility name layout rs))).1.available_spots
      = (ops.foldl applyFOp (initFacility name layout rs)).available_spots) ∧
    (∀ sid dur now,
      (applyFOp (ops.foldl applyFOp (initFacility name layout rs))
        (.reserveSpot sid dur now)).available_spots =
      (ops.foldl applyFOp (initFacility name layout rs)).available_spots) ∧
    (∀ sid,
      (applyFOp (ops.foldl applyFOp (initFacility name layout rs))
        (.cancelSpot sid)).available_spots =
      (ops.foldl applyFOp (initFacility name layout rs)).available_spots) := by
  refine ⟨counterInv_foldl _ ops (counterInv_initFacility name layout rs), rfl, ?_, ?_⟩
  · intro sid dur now
    have hstep : applyFOp (ops.foldl applyFOp (initFacility name layout rs))
        (.reserveSpot sid dur now) =
        match (ops.foldl applyFOp (initFacility name layout rs)).spots.lookup sid with
        | none => ops.foldl applyFOp (initFacility name layout rs)
        | some sp => updateSpot (ops.foldl applyFOp (initFacility name layout rs)) sid
            (sp.reserve dur now).2 := rfl
    rw [hstep]
    cases hlk : (ops.foldl applyFOp (initFacility name layout rs)).spots.lookup sid with
    | none => rfl
    | some sp => rfl
  · intro sid
    have hstep : applyFOp (ops.foldl applyFOp (initFacility name layout rs))
        (.cancelSpot sid) =
        match (ops.foldl applyFOp (initFacility name layout rs)).spots.lookup sid with
        | none => ops.foldl applyFOp (initFacility name layout rs)
        | some sp => updateSpot (ops.foldl applyFOp (initFacility name layout rs)) sid
            (sp.cancel_reservation).2 := rfl
    rw [hstep]
    cases hlk : (ops.foldl applyFOp (initFacility name layout rs)).spots.lookup sid with
    | none => rfl
    | some sp => rfl

/-! ## ComparisonAlgorithms.greedy_assignment and C5 -/

/-- One step of the greedy loop: pop the first remaining available spot for
this vehicle (Python `available_spots.pop(0)`), if any. -/
def greedyStep (acc : List (String × String) × List String) (vehicle : Vehicle) :
    List (String × String) × List String :=
  match acc.2 with
  | [] => acc
  | sid :: rest => (dictInsert acc.1 vehicle.id sid, rest)

/-- `ComparisonAlgorithms.greedy_assignment`: first-fit assignment of each
vehicle in input order to the spots that are neither occupied nor reserved
at call time, in spot-dict order. -/
def greedy_assignment (facility : Facility) (vehicles : List Vehicle) :
    List (String × String) :=
  let available_spots :=
    (facility.spots.filter fun p => !p.2.occupied && !p.2.reserved).map Prod.fst
  (vehicles.foldl greedyStep ([], available_spots)).1

theorem dictInsert_length_of_fresh {β : Type} (l : List (String × β)) (k : String) (v : β)
    (h : l.lookup k = none) : (dictInsert l k v).length = l.length + 1 := by
  induction l with
  | nil => rfl
  | cons p rest ih =>
    obtain ⟨k', v'⟩ := p
    by_cases hk : k' = k
    · subst hk
      simp [List.lookup] at h
    · have hbe : (k == k') = false := beq_eq_false_iff_ne.mpr fun hc => hk hc.symm
      simp only [List.lookup, hbe] at h
      simp [dictInsert, hk, ih h]

theorem dictInsert_lookup_other {β : Type} (l : List (String × β)) (k k' : String) (v : β)
    (h : k' ≠ k) : (dictInsert l k v).lookup k' = l.lookup k' := by
  induction l with
  | nil => simp [dictInsert, List.lookup, beq_eq_false_iff_ne.mpr h]
  | cons p rest ih =>
    obtain ⟨k₀, v₀⟩ := p
    by_cases hk : k₀ = k
    · subst hk
      simp [dictInsert, List.lookup, beq_eq_false_iff_ne.mpr h]
    · simp only [dictInsert, if_neg hk, List.lookup]
      cases hbe : (k' == k₀) <;> simp [hbe, ih]

/-- The greedy loop assigns exactly `min #vehicles #spots` new entries when
the vehicle ids are fresh and pairwise distinct. -/
theorem greedy_count (vehicles : List Vehicle) (A : List (String × String))
    (avail : List String) (hnd : (vehicles.map Vehicle.id).Nodup)
    (hfresh : ∀ v ∈ vehicles, A.lookup v.id = none) :
    (vehicles.foldl greedyStep (A, avail)).1.length =
      A.length + min vehicles.length avail.length := by
  induction vehicles generalizing A avail with
  | nil => simp
  | cons v rest ih =>
    cases avail with
    | nil =>
      have hstop : ∀ (vs : List Vehicle) (B : List (String × String)),
          vs.foldl greedyStep (B, ([] : List String)) = (B, []) := by
        intro vs
        induction vs with
        | nil => intro B; rfl
        | cons w ws ihw => intro B; simpa [greedyStep] using ihw B
      simp [greedyStep, hstop rest A]
    | cons sid srest =>
      have hv : A.lookup v.id = none := hfresh v (List.mem_cons_self v rest)
      have hnd' : (rest.map Vehicle.id).Nodup := (List.nodup_cons.mp hnd).2
      have hvnotin : v.id ∉ rest.map Vehicle.id := (List.nodup_cons.mp hnd).1
      have hfresh' : ∀ w ∈ rest, (dictInsert A v.id sid).lookup w.id = none := by
        intro w hw
        have hne : w.id ≠ v.id := by
          intro hcontra
          exact hvnotin (hcontra ▸ List.mem_map_of_mem Vehicle.id hw)
        rw [dictInsert_lookup_other A v.id w.id sid hne]
        exact hfresh w (List.mem_cons_of_mem v hw)
      have := ih (dictInsert A v.id sid) srest hnd' hfresh'
      simp only [List.foldl_cons, greedyStep, this,
        dictInsert_length_of_fresh A v.id sid hv, List.length_cons]
      omega

/-- C5: for pairwise-distinct vehicle ids, `greedy_assignment` returns
exactly `min (#vehicles) (#spots neither occupied nor reserved)`
assignments, and the count is unchanged under any permutation of the
vehicle batch. -/
theorem C5_greedy_count (facility : Facility) (vehicles : List Vehicle)
    (hnd : (vehicles.map Vehicle.id).Nodup) :
    (greedy_assignment facility vehicles).length =
      min vehicles.length
        ((facility.spots.filter fun p => !p.2.occupied && !p.2.reserved).length) ∧
    ∀ vehicles' : List Vehicle, vehicles'.Perm vehicles →
      (greedy_assignment facility vehicles').length =
        (greedy_assignment facility vehicles).length := by
  have hmain : ∀ (vs : List Vehicle), (vs.map Vehicle.id).Nodup →
      (greedy_assignment facility vs).length =
        min vs.length
          ((facility.spots.filter fun p => !p.2.occupied && !p.2.reserved).length) := by
    intro vs hvs
    unfold greedy_assignment
    rw [greedy_count vs [] _ hvs (by intro v hv; rfl)]
    simp
  refine ⟨hmain vehicles hnd, ?_⟩
  intro vehicles' hperm
  have hnd' : (vehicles'.map Vehicle.id).Nodup :=
    ((hperm.map Vehicle.id).nodup_iff).mpr hnd
  rw [hmain vehicles' hnd', hmain vehicles hnd, hperm.length_eq]

/-- Concrete second vehicle for the C5 witness. -/
def vehW2 : Vehicle :=
  { id := "V2", type := "standard", arrival_time := 0, expected_duration := 30,
    assigned_spot := none, near_entrance := false }

theorem C5_witness :
    (([vehW, vehW2].map Vehicle.id).Nodup) ∧
    ((greedy_assignment facW [vehW, vehW2]).length =
      min ([vehW, vehW2] : List Vehicle).length
        ((facW.spots.filter fun p => !p.2.occupied && !p.2.reserved).length) ∧
     ∀ vehicles' : List Vehicle, vehicles'.Perm [vehW, vehW2] →
        (greedy_assignment facW vehicles').length =
          (greedy_assignment facW [vehW, vehW2]).length) :=
  ⟨by decide, C5_greedy_count facW [vehW, vehW2] (by decide)⟩

/-! ## Heap-pop specification -/

theorem entryLt_fst_le {y x : ℕ × String} (h : entryLt y x = true) : y.1 ≤ x.1 := by
  unfold entryLt at h
  rcases Bool.or_eq_true_iff.mp h with h | h
  · exact le_of_lt (by simpa using h)
  · have := (Bool.and_eq_true_iff.mp h).1
    exact le_of_eq (by simpa using this)

theorem entryLt_fst_le_of_not {y x : ℕ × String} (h : entryLt y x = false) : x.1 ≤ y.1 := by
  unfold entryLt at h
  rcases Bool.or_eq_false_iff.mp h with ⟨h1, _⟩
  simpa using Nat.le_of_not_lt (by simpa using h1)

theorem selMin_cons_pos (x z : ℕ × String) (zs : List (ℕ × String))
    (h : entryLt z x = true) :
    selMin x (z :: zs) = ((selMin z zs).1, x :: (selMin z zs).2) := by
  simp [selMin, h]

theorem selMin_cons_neg (x z : ℕ × String) (zs : List (ℕ × String))
    (h : entryLt z x = false) :
    selMin x (z :: zs) = ((selMin x zs).1, z :: (selMin x zs).2) := by
  simp [selMin, h]

theorem selMin_spec (x : ℕ × String) (l : List (ℕ × String)) :
    (x :: l).Perm ((selMin x l).1 :: (selMin x l).2) ∧
    ∀ y ∈ x :: l, (selMin x l).1.1 ≤ y.1 := by
  induction l generalizing x with
  | nil =>
    refine ⟨by simp [selMin], ?_⟩
    intro y hy
    simp only [List.mem_cons, List.not_mem_nil, or_false] at hy
    subst hy
    exact le_refl _
  | cons z zs ih =>
    cases hlt : entryLt z x with
    | true =>
      obtain ⟨hperm, hmin⟩ := ih z
      rw [selMin_cons_pos x z zs hlt]
      constructor
      · exact (hperm.cons x).trans (List.Perm.swap (selMin z zs).1 x (selMin z zs).2)
      · intro y hy
        rcases List.mem_cons.mp hy with hy | hy
        · subst hy
          exact le_trans (hmin z (List.mem_cons_self z zs)) (entryLt_fst_le hlt)
        · exact hmin y hy
    | false =>
      obtain ⟨hperm, hmin⟩ := ih x
      rw [selMin_cons_neg x z zs hlt]
      constructor
      · exact (List.Perm.swap z x zs).trans
          ((hperm.cons z).trans (List.Perm.swap (selMin x zs).1 z (selMin x zs).2))
      · intro y hy
        rcases List.mem_cons.mp hy with hy | hy
        · rw [hy]
          exact hmin x (List.mem_cons_self x zs)
        · rcases List.mem_cons.mp hy with hy | hy
          · rw [hy]
            exact le_trans (hmin x (List.mem_cons_self x zs)) (entryLt_fst_le_of_not hlt)
          · exact hmin y (List.mem_cons_of_mem x hy)

theorem popMin_spec (l : List (ℕ × String)) (m : ℕ × String) (rest : List (ℕ × String))
    (h : popMin l = some (m, rest)) :
    l.Perm (m :: rest) ∧ ∀ y ∈ l, m.1 ≤ y.1 := by
  cases l with
  | nil => simp [popMin] at h
  | cons x xs =>
    have hsel := selMin_spec x xs
    simp only [popMin, Option.some.injEq] at h
    have h1 : (selMin x xs).1 = m := by rw [h]
    have h2 : (selMin x xs).2 = rest := by rw [h]
    rw [h1, h2] at hsel
    exact hsel

theorem popMin_none (l : List (ℕ × String)) (h : popMin l = none) : l = [] := by
  cases l with
  | nil => rfl
  | cons x xs => simp [popMin] at h

/-! ## Walk theory for the breadth-first distance -/

/-- A list of nodes is a chain when consecutive nodes are adjacent. -/
def chainL (g : DGraph) : List String → Bool
  | [] => true
  | [_] => true
  | a :: b :: l => decide (b ∈ g.adj a) && chainL g (b :: l)

theorem chainL_single (g : DGraph) (a : String) : chainL g [a] = true := rfl

theorem chainL_cons₂ (g : DGraph) (a b : String) (l : List String) :
    chainL g (a :: b :: l) = (decide (b ∈ g.adj a) && chainL g (b :: l)) := rfl

/-- `walkX g k s t` holds iff some chain of `k + 1` nodes leads from `s`
to `t`. -/
theorem walkX_iff_chainL (g : DGraph) (k : ℕ) (s t : String) :
    walkX g k s t = true ↔
      ∃ w : List String, chainL g w = true ∧ w.head? = some s ∧
        w.getLast? = some t ∧ w.length = k + 1 := by
  induction k generalizing s with
  | zero =>
    simp only [walkX, beq_iff_eq]
    constructor
    · rintro rfl
      exact ⟨[s], rfl, rfl, rfl, rfl⟩
    · rintro ⟨w, hc, hh, hl, hlen⟩
      cases w with
      | nil => simp at hlen
      | cons a w' =>
        cases w' with
        | nil =>
          simp only [List.head?_cons, Option.some.injEq] at hh
          simp only [List.getLast?_singleton, Option.some.injEq] at hl
          rw [← hh, ← hl]
        | cons b w'' => simp at hlen
  | succ k ih =>
    simp only [walkX, List.any_eq_true]
    constructor
    · rintro ⟨v, hv, hw⟩
      obtain ⟨w, hc, hh, hl, hlen⟩ := (ih v).mp hw
      cases w with
      | nil => simp at hlen
      | cons a w' =>
        simp only [List.head?_cons, Option.some.injEq] at hh
        rw [← hh] at hv hw
        refine ⟨s :: a :: w', ?_, rfl, ?_, by simpa using hlen⟩
        · rw [chainL_cons₂]
          simp [hv, hc]
        · simpa using hl
    · rintro ⟨w, hc, hh, hl, hlen⟩
      cases w with
      | nil => simp at hlen
      | cons a w' =>
        simp only [List.head?_cons, Option.some.injEq] at hh
        subst hh
        cases w' with
        | nil => simp at hlen
        | cons b w'' =>
          rw [chainL_cons₂] at hc
          obtain ⟨hadj, hc'⟩ := Bool.and_eq_true_iff.mp hc
          refine ⟨b, by simpa using hadj, ?_⟩
          refine (ih b).mpr ⟨b :: w'', hc', rfl, ?_, by simpa using hlen⟩
          simpa using hl

/-- Every node of a chain except possibly the first is a graph node. -/
theorem chainL_tail_mem (g : DGraph) (hwf : GraphWF g) :
    ∀ w : List String, chainL g w = true → ∀ x ∈ w.tail, x ∈ g.nodes := by
  intro w
  induction w with
  | nil => intro _ x hx; simp at hx
  | cons a w' ih =>
    intro hc x hx
    cases w' with
    | nil => simp at hx
    | cons b w'' =>
      rw [chainL_cons₂] at hc
      obtain ⟨hadj, hc'⟩ := Bool.and_eq_true_iff.mp hc
      simp only [List.tail_cons] at hx
      rcases List.mem_cons.mp hx with hx | hx
      · exact hx ▸ hwf a b (by simpa using hadj)
      · exact ih hc' x (by simpa using hx)

/-- A list with a duplicate splits around the repeated element. -/
theorem dup_decomp (w : List String) (h : ¬ w.Nodup) :
    ∃ (w₁ : List String) (a : String) (w₂ w₃ : List String),
      w = w₁ ++ a :: (w₂ ++ a :: w₃) := by
  induction w with
  | nil => exact absurd List.nodup_nil h
  | cons a l ih =>
    by_cases hmem : a ∈ l
    · obtain ⟨s, t, hst⟩ := List.append_of_mem hmem
      exact ⟨[], a, s, t, by simp [hst]⟩
    · have hl : ¬ l.Nodup := fun hnd => h (List.nodup_cons.mpr ⟨hmem, hnd⟩)
      obtain ⟨w₁, b, w₂, w₃, hw⟩ := ih hl
      exact ⟨a :: w₁, b, w₂, w₃, by simp [hw]⟩

/-- Splitting a chain at an interior node. -/
theorem chainL_append (g : DGraph) (xs : List String) (m : String) (ys : List String) :
    chainL g (xs ++ m :: ys) = (chainL g (xs ++ [m]) && chainL g (m :: ys)) := by
  induction xs with
  | nil => simp [chainL_single]
  | cons a xs ih =>
    cases xs with
    | nil =>
      simp only [List.nil_append, List.cons_append, chainL_cons₂, chainL_single,
        Bool.and_true]
    | cons b xs' =>
      simp only [List.cons_append, chainL_cons₂] at ih ⊢
      rw [ih, Bool.and_assoc]

/-- Any chain can be shortened to a duplicate-free chain with the same
endpoints. -/
theorem exists_nodup_chain (g : DGraph) :
    ∀ (n : ℕ) (w : List String), w.length ≤ n → chainL g w = true →
      ∃ w', chainL g w' = true ∧ w'.Nodup ∧ w'.head? = w.head? ∧
        w'.getLast? = w.getLast? ∧ w'.length ≤ w.length := by
  intro n
  induction n with
  | zero =>
    intro w hlen _
    have hw : w = [] := List.length_eq_zero.mp (Nat.le_zero.mp hlen)
    subst hw
    exact ⟨[], rfl, List.nodup_nil, rfl, rfl, le_refl _⟩
  | succ n ih =>
    intro w hlen hc
    by_cases hnd : w.Nodup
    · exact ⟨w, hc, hnd, rfl, rfl, le_refl _⟩
    · obtain ⟨w₁, a, w₂, w₃, hw⟩ := dup_decomp w hnd
      have hc1 : chainL g (w₁ ++ [a]) = true ∧ chainL g (a :: w₃) = true := by
        rw [hw] at hc
        rw [chainL_append g w₁ a (w₂ ++ a :: w₃)] at hc
        obtain ⟨h1, h2⟩ := Bool.and_eq_true_iff.mp hc
        have h2' : chainL g ((a :: w₂) ++ a :: w₃) = true := by
          simpa using h2
        rw [chainL_append g (a :: w₂) a w₃] at h2'
        exact ⟨h1, (Bool.and_eq_true_iff.mp h2').2⟩
      have hcn : chainL g (w₁ ++ a :: w₃) = true := by
        rw [chainL_append g w₁ a w₃]
        exact Bool.and_eq_true_iff.mpr ⟨hc1.1, hc1.2⟩
      have hlen' : (w₁ ++ a :: w₃).length < w.length := by
        rw [hw]
        simp only [List.length_append, List.length_cons]
        omega
      obtain ⟨w', hc', hnd', hh', hl', hle'⟩ :=
        ih (w₁ ++ a :: w₃) (by omega) hcn
      refine ⟨w', hc', hnd', ?_, ?_, by omega⟩
      · rw [hh', hw]
        cases w₁ with
        | nil => simp
        | cons c w₁' => simp
      · rw [hl', hw, List.getLast?_append_cons w₁ a w₃,
          List.getLast?_append_cons w₁ a (w₂ ++ a :: w₃)]
        have : (a :: (w₂ ++ a :: w₃)) = (a :: w₂) ++ a :: w₃ := by simp
        rw [this, List.getLast?_append_cons (a :: w₂) a w₃]

/-- A duplicate-free list drawn from `L` is no longer than `L`. -/
theorem nodup_length_le (w L : List String) (hnd : w.Nodup) (hsub : ∀ x ∈ w, x ∈ L) :
    w.length ≤ L.length := by
  have h1 : w.toFinset.card = w.length := List.toFinset_card_of_nodup hnd
  have h2 : w.toFinset ⊆ L.toFinset := by
    intro x hx
    exact List.mem_toFinset.mpr (hsub x (List.mem_toFinset.mp hx))
  calc w.length = w.toFinset.card := h1.symm
    _ ≤ L.toFinset.card := Finset.card_le_card h2
    _ ≤ L.length := List.toFinset_card_le L

/-- Any walk can be shortened to one of at most `#nodes` edges. -/
theorem walk_short (g : DGraph) (hwf : GraphWF g) (k : ℕ) (s t : String)
    (hk : walkX g k s t = true) :
    ∃ j, j ≤ g.nodes.length ∧ walkX g j s t = true := by
  obtain ⟨w, hc, hh, hl, hlen⟩ := (walkX_iff_chainL g k s t).mp hk
  obtain ⟨w', hc', hnd', hh', hl', hle'⟩ := exists_nodup_chain g w.length w (le_refl _) hc
  cases hw' : w' with
  | nil => rw [hw'] at hh'; rw [hh] at hh'; simp at hh'
  | cons c tail =>
    have hlen' : w'.length = tail.length + 1 := by rw [hw']; simp
    refine ⟨tail.length, ?_, ?_⟩
    · have htail_nd : tail.Nodup := by
        have := hnd'
        rw [hw'] at this
        exact (List.nodup_cons.mp this).2
      have htail_sub : ∀ x ∈ tail, x ∈ g.nodes := by
        intro x hx
        exact chainL_tail_mem g hwf w' hc' x (by rw [hw']; simpa using hx)
      exact nodup_length_le tail g.nodes htail_nd htail_sub
    · refine (walkX_iff_chainL g tail.length s t).mpr ⟨w', hc', ?_, ?_, by omega⟩
      · rw [hh', hh]
      · rw [hl', hl]

/-- When the start is itself a node, the shortened walk has at most
`#nodes − 1` edges. -/
theorem walk_short_mem (g : DGraph) (hwf : GraphWF g) (hs : s ∈ g.nodes) (k : ℕ)
    (t : String) (hk : walkX g k s t = true) :
    ∃ j, j + 1 ≤ g.nodes.length ∧ walkX g j s t = true := by
  obtain ⟨w, hc, hh, hl, hlen⟩ := (walkX_iff_chainL g k s t).mp hk
  obtain ⟨w', hc', hnd', hh', hl', hle'⟩ := exists_nodup_chain g w.length w (le_refl _) hc
  cases hw' : w' with
  | nil => rw [hw'] at hh'; rw [hh] at hh'; simp at hh'
  | cons c tail =>
    have hlen' : w'.length = tail.length + 1 := by rw [hw']; simp
    refine ⟨tail.length, ?_, ?_⟩
    · have hsub : ∀ x ∈ w', x ∈ g.nodes := by
        intro x hx
        rw [hw'] at hx
        rcases List.mem_cons.mp hx with hx | hx
        · have hcs : c = s := by
            rw [hw'] at hh'
            rw [hh] at hh'
            simpa using hh'
          rw [hx, hcs]
          exact hs
        · exact chainL_tail_mem g hwf w' hc' x (by rw [hw']; simpa using hx)
      have := nodup_length_le w' g.nodes hnd' hsub
      omega
    · refine (walkX_iff_chainL g tail.length s t).mpr ⟨w', hc', ?_, ?_, by omega⟩
      · rw [hh', hh]
      · rw [hl', hl]

/-! ## Properties of the breadth-first distance `distStar` -/

theorem firstWalkLe_none (g : DGraph) (s t : String) :
    ∀ bound, firstWalkLe g s t bound = none → ∀ i ≤ bound, walkX g i s t = false := by
  intro bound
  induction bound with
  | zero =>
    intro h i hi
    interval_cases i
    by_cases h0 : walkX g 0 s t = true
    · simp [firstWalkLe, h0] at h
    · simpa using h0
  | succ b ih =>
    intro h i hi
    simp only [firstWalkLe] at h
    cases hb : firstWalkLe g s t b with
    | some j => rw [hb] at h; cases h
    | none =>
      rw [hb] at h
      by_cases hw : walkX g (b + 1) s t = true
      · simp [hw] at h
      · rcases Nat.lt_or_ge i (b + 1) with hib | hib
        · exact ih hb i (Nat.lt_succ_iff.mp hib)
        · have : i = b + 1 := by omega
          subst this
          simpa using hw

theorem firstWalkLe_spec (g : DGraph) (s t : String) :
    ∀ bound j, firstWalkLe g s t bound = some j →
      j ≤ bound ∧ walkX g j s t = true ∧ ∀ i < j, walkX g i s t = false := by
  intro bound
  induction bound with
  | zero =>
    intro j h
    by_cases h0 : walkX g 0 s t = true
    · simp only [firstWalkLe, h0, if_true, Option.some.injEq] at h
      subst h
      exact ⟨le_refl _, h0, fun i hi => absurd hi (Nat.not_lt_zero i)⟩
    · simp [firstWalkLe, h0] at h
  | succ b ih =>
    intro j h
    simp only [firstWalkLe] at h
    cases hb : firstWalkLe g s t b with
    | some j₀ =>
      rw [hb] at h
      simp only [Option.some.injEq] at h
      subst h
      obtain ⟨h1, h2, h3⟩ := ih j₀ hb
      exact ⟨le_trans h1 (Nat.le_succ b), h2, h3⟩
    | none =>
      rw [hb] at h
      by_cases hw : walkX g (b + 1) s t = true
      · simp only [hw, if_true, Option.some.injEq] at h
        subst h
        refine ⟨le_refl _, hw, ?_⟩
        intro i hi
        exact firstWalkLe_none g s t b hb i (Nat.lt_succ_iff.mp hi)
      · simp [hw] at h

theorem firstWalkLe_isSome (g : DGraph) (s t : String) :
    ∀ bound j, j ≤ bound → walkX g j s t = true →
      ∃ j₀, firstWalkLe g s t bound = some j₀ := by
  intro bound
  induction bound with
  | zero =>
    intro j hj hw
    have : j = 0 := Nat.le_zero.mp hj
    subst this
    exact ⟨0, by simp [firstWalkLe, hw]⟩
  | succ b ih =>
    intro j hj hw
    simp only [firstWalkLe]
    cases hb : firstWalkLe g s t b with
    | some j₀ => exact ⟨j₀, rfl⟩
    | none =>
      rcases Nat.lt_or_ge j (b + 1) with hjb | hjb
      · obtain ⟨j₀, hj₀⟩ := ih j (Nat.lt_succ_iff.mp hjb) hw
        rw [hj₀] at hb
        cases hb
      · have : j = b + 1 := by omega
        subst this
        exact ⟨b + 1, by simp [hw]⟩

theorem distStar_le_of_walk (g : DGraph) (hwf : GraphWF g) (s t : String) (k : ℕ)
    (hk : walkX g k s t = true) : distStar g s t ≤ (k : WithTop ℕ) := by
  obtain ⟨j, hj, hwj⟩ := walk_short g hwf k s t hk
  obtain ⟨j₀, hj₀⟩ := firstWalkLe_isSome g s t g.nodes.length j hj hwj
  obtain ⟨h1, h2, h3⟩ := firstWalkLe_spec g s t g.nodes.length j₀ hj₀
  have hj₀k : j₀ ≤ k := by
    by_contra hgt
    have := h3 k (Nat.lt_of_not_le hgt)
    rw [hk] at this
    cases this
  have hds : distStar g s t = (j₀ : WithTop ℕ) := by
    unfold distStar
    rw [hj₀]
  rw [hds]
  exact_mod_cast hj₀k

theorem distStar_fin_spec (g : DGraph) (s t : String) (k : ℕ)
    (h : distStar g s t = (k : WithTop ℕ)) :
    walkX g k s t = true ∧ ∀ i < k, walkX g i s t = false := by
  unfold distStar at h
  cases hb : firstWalkLe g s t g.nodes.length with
  | none => rw [hb] at h; cases h
  | some j =>
    rw [hb] at h
    have h' : (j : WithTop ℕ) = (k : WithTop ℕ) := h
    have hjk : j = k := by exact_mod_cast h'
    subst hjk
    obtain ⟨_, h2, h3⟩ := firstWalkLe_spec g s t g.nodes.length j hb
    exact ⟨h2, h3⟩

theorem distStar_eq_top (g : DGraph) (hwf : GraphWF g) (s t : String)
    (h : distStar g s t = ⊤) : ∀ k, walkX g k s t = false := by
  intro k
  by_contra hk
  have hk' : walkX g k s t = true := by
    cases hx : walkX g k s t
    · exact absurd hx hk
    · rfl
  obtain ⟨j, hj, hwj⟩ := walk_short g hwf k s t hk'
  obtain ⟨j₀, hj₀⟩ := firstWalkLe_isSome g s t g.nodes.length j hj hwj
  unfold distStar at h
  rw [hj₀] at h
  cases h

theorem distStar_self (g : DGraph) (s : String) : distStar g s s = (0 : WithTop ℕ) := by
  have h0 : walkX g 0 s s = true := by simp [walkX]
  obtain ⟨j₀, hj₀⟩ := firstWalkLe_isSome g s s g.nodes.length 0 (Nat.zero_le _) h0
  obtain ⟨_, _, h3⟩ := firstWalkLe_spec g s s g.nodes.length j₀ hj₀
  have : j₀ = 0 := by
    by_contra hne
    have := h3 0 (Nat.pos_of_ne_zero hne)
    rw [h0] at this
    cases this
  subst this
  unfold distStar
  rw [hj₀]
  rfl

theorem walk_extend (g : DGraph) (k : ℕ) (s u v : String) (hw : walkX g k s u = true)
    (hv : v ∈ g.adj u) : walkX g (k + 1) s v = true := by
  induction k generalizing s with
  | zero =>
    simp only [walkX, beq_iff_eq] at hw
    subst hw
    simp only [walkX, List.any_eq_true]
    exact ⟨v, hv, by simp [walkX]⟩
  | succ k ih =>
    have hstep : walkX g (k + 1 + 1) s v = (g.adj s).any (fun w => walkX g (k + 1) w v) := rfl
    rw [hstep, List.any_eq_true]
    simp only [walkX, List.any_eq_true] at hw
    obtain ⟨w, hmem, hww⟩ := hw
    exact ⟨w, hmem, ih w hww⟩

theorem distStar_triangle (g : DGraph) (hwf : GraphWF g) (s u v : String)
    (hv : v ∈ g.adj u) : distStar g s v ≤ distStar g s u + 1 := by
  cases hd : distStar g s u with
  | top => simp
  | coe k =>
    obtain ⟨h1, _⟩ := distStar_fin_spec g s u k hd
    have := distStar_le_of_walk g hwf s v (k + 1) (walk_extend g k s u v h1 hv)
    calc distStar g s v ≤ ((k + 1 : ℕ) : WithTop ℕ) := this
      _ = (k : WithTop ℕ) + 1 := by push_cast; rfl

theorem distStar_lt_nodes (g : DGraph) (hwf : GraphWF g) (s t : String)
    (hs : s ∈ g.nodes) (k : ℕ) (h : distStar g s t = (k : WithTop ℕ)) :
    k + 1 ≤ g.nodes.length := by
  obtain ⟨h1, h3⟩ := distStar_fin_spec g s t k h
  obtain ⟨j, hj, hwj⟩ := walk_short_mem g hwf hs k t h1
  have hkj : k ≤ j := by
    by_contra hgt
    have := h3 j (Nat.lt_of_not_le hgt)
    rw [hwj] at this
    cases this
  omega

/-! ## The Dijkstra loop invariant -/

/-- Bound on the number of future pushes that can still lower a tentative
distance with current value `c` (all pushed values lie in `1..n`). -/
def pb (n : ℕ) : WithTop ℕ → ℕ
  | ⊤ => n + 1
  | (k : ℕ) => min k n

/-- Loop measure: queue length plus total remaining push budget. -/
def loopMeasure (g : DGraph) (s : DState) : ℕ :=
  s.pq.length + (g.nodes.map (fun v => pb g.nodes.length (s.dist v))).sum

theorem sum_map_le_sum_map (l : List String) (f g' : String → ℕ)
    (h : ∀ x ∈ l, f x ≤ g' x) : (l.map f).sum ≤ (l.map g').sum := by
  induction l with
  | nil => simp
  | cons a rest ih =>
    simp only [List.map_cons, List.sum_cons]
    have ha := h a (List.mem_cons_self a rest)
    have hr := ih fun x hx => h x (List.mem_cons_of_mem a hx)
    omega

theorem sum_map_lt_sum_map (l : List String) (f g' : String → ℕ) (a : String)
    (ha : a ∈ l) (h : ∀ x ∈ l, f x ≤ g' x) (hstrict : f a + 1 ≤ g' a) :
    (l.map f).sum + 1 ≤ (l.map g').sum := by
  induction l with
  | nil => simp at ha
  | cons b rest ih =>
    simp only [List.map_cons, List.sum_cons]
    rcases List.mem_cons.mp ha with hab | ha'
    · have hr := sum_map_le_sum_map rest f g' fun x hx => h x (List.mem_cons_of_mem b hx)
      rw [hab] at hstrict
      omega
    · have hb := h b (List.mem_cons_self b rest)
      have hr := ih ha' fun x hx => h x (List.mem_cons_of_mem b hx)
      omega

/-- The full loop invariant, with `S` the (ghost) list of settled nodes. -/
structure DInv (g : DGraph) (start : String) (S : List String) (s : DState) : Prop where
  dist_start : s.dist start = 0
  sound : ∀ v, distStar g start v ≤ s.dist v
  prev_adj : ∀ v u, s.prev v = some u →
    v ∈ g.adj u ∧ s.dist u + 1 ≤ s.dist v ∧ s.dist v ≠ ⊤
  prev_start : s.prev start = none
  prev_set : ∀ v, v ≠ start → s.dist v ≠ ⊤ → s.prev v ≠ none
  pq_dom : ∀ d v, (d, v) ∈ s.pq → s.dist v ≤ (d : WithTop ℕ)
  pq_nodes : ∀ d v, (d, v) ∈ s.pq → v ∈ g.nodes
  pq_bound : ∀ d v, (d, v) ∈ s.pq → d ≤ g.nodes.length
  dist_bound : ∀ v, s.dist v ≠ ⊤ → s.dist v ≤ (g.nodes.length : WithTop ℕ)
  settled : ∀ u ∈ S, s.dist u = distStar g start u
  relaxed : ∀ u ∈ S, ∀ v ∈ g.adj u, s.dist v ≤ s.dist u + 1
  active : ∀ v, v ∉ S → s.dist v ≠ ⊤ →
    ∃ d : ℕ, (d, v) ∈ s.pq ∧ (d : WithTop ℕ) = s.dist v

/-- The part of the invariant that survives to the returned state and is
needed for the results (distances and the predecessor map). -/
structure DFinal (g : DGraph) (start : String) (s : DState) : Prop where
  dist_start : s.dist start = 0
  sound : ∀ v, distStar g start v ≤ s.dist v
  prev_adj : ∀ v u, s.prev v = some u →
    v ∈ g.adj u ∧ s.dist u + 1 ≤ s.dist v ∧ s.dist v ≠ ⊤
  prev_start : s.prev start = none
  prev_set : ∀ v, v ≠ start → s.dist v ≠ ⊤ → s.prev v ≠ none

theorem DInv.toFinal {g : DGraph} {start : String} {S : List String} {s : DState}
    (h : DInv g start S s) : DFinal g start s :=
  ⟨h.dist_start, h.sound, h.prev_adj, h.prev_start, h.prev_set⟩

/-- Decompose a walk at its last edge. -/
theorem walkX_snoc (g : DGraph) (k : ℕ) (s t : String)
    (h : walkX g (k + 1) s t = true) :
    ∃ u, walkX g k s u = true ∧ t ∈ g.adj u := by
  induction k generalizing s with
  | zero =>
    simp only [walkX, List.any_eq_true, beq_iff_eq] at h
    obtain ⟨v, hv, hvt⟩ := h
    exact ⟨s, by simp [walkX], hvt ▸ hv⟩
  | succ k ih =>
    have hstep : walkX g (k + 1 + 1) s t = (g.adj s).any (fun w => walkX g (k + 1) w t) := rfl
    rw [hstep, List.any_eq_true] at h
    obtain ⟨w, hmem, hw⟩ := h
    obtain ⟨u, hku, hadj⟩ := ih w hw
    refine ⟨u, ?_, hadj⟩
    have hstep' : walkX g (k + 1) s u = (g.adj s).any (fun z => walkX g k z u) := rfl
    rw [hstep', List.any_eq_true]
    exact ⟨w, hmem, hku⟩

/-- Key frontier lemma: while a node at finite true distance still has the
wrong tentative distance, some node on a shortest path to it sits in the
queue, already settled-valued, with key at most that distance. -/
theorem key_frontier (g : DGraph) (hwf : GraphWF g) (start : String)
    (S : List String) (s : DState) (inv : DInv g start S s) :
    ∀ (k : ℕ) (t' : String), distStar g start t' = (k : WithTop ℕ) →
      s.dist t' ≠ (k : WithTop ℕ) →
      ∃ (d : ℕ) (v : String), (d, v) ∈ s.pq ∧ (d : WithTop ℕ) = s.dist v ∧
        s.dist v = distStar g start v ∧ d ≤ k := by
  intro k
  induction k with
  | zero =>
    intro t' hds hne
    obtain ⟨hw, _⟩ := distStar_fin_spec g start t' 0 hds
    simp only [walkX, beq_iff_eq] at hw
    rw [← hw] at hne
    exact absurd inv.dist_start (by simpa using hne)
  | succ k ih =>
    intro t' hds hne
    obtain ⟨hw, hmin⟩ := distStar_fin_spec g start t' (k + 1) hds
    obtain ⟨u, hwu, hadj⟩ := walkX_snoc g k start t' hw
    have hdu_le : distStar g start u ≤ (k : WithTop ℕ) :=
      distStar_le_of_walk g hwf start u k hwu
    obtain ⟨k', hk'⟩ : ∃ k' : ℕ, distStar g start u = (k' : WithTop ℕ) := by
      cases hx : distStar g start u with
      | top => rw [hx] at hdu_le; exact absurd hdu_le (by simp)
      | coe k' => exact ⟨k', rfl⟩
    have hk'k : k' ≤ k := by
      rw [hk'] at hdu_le
      exact_mod_cast hdu_le
    have htri := distStar_triangle g hwf start u t' hadj
    have hkk' : k' = k := by
      rw [hds, hk'] at htri
      have : ((k + 1 : ℕ) : WithTop ℕ) ≤ ((k' + 1 : ℕ) : WithTop ℕ) := by
        push_cast
        exact_mod_cast htri
      have hle : k + 1 ≤ k' + 1 := by exact_mod_cast this
      omega
    subst hkk'
    by_cases hdu : s.dist u = (k' : WithTop ℕ)
    · by_cases hS : u ∈ S
      · exfalso
        have h1 := inv.relaxed u hS t' hadj
        rw [hdu] at h1
        have h2 := inv.sound t'
        rw [hds] at h2
        have hcast : ((k' : WithTop ℕ)) + 1 = ((k' + 1 : ℕ) : WithTop ℕ) := by push_cast; rfl
        rw [hcast] at h1
        have : s.dist t' = ((k' + 1 : ℕ) : WithTop ℕ) := le_antisymm h1 h2
        exact hne this
      · obtain ⟨d, hd, hdd⟩ := inv.active u hS (by rw [hdu]; exact WithTop.coe_ne_top)
        refine ⟨d, u, hd, hdd, by rw [hdu, hk'], ?_⟩
        have : (d : WithTop ℕ) = (k' : WithTop ℕ) := by rw [hdd, hdu]
        have hdk : d = k' := by exact_mod_cast this
        omega
    · obtain ⟨d, v, h1, h2, h3, h4⟩ := ih u hk' hdu
      exact ⟨d, v, h1, h2, h3, by omega⟩

/-- Crux: a non-stale popped minimum is settled at its true distance. -/
theorem settled_of_popped_min (g : DGraph) (hwf : GraphWF g) (start : String)
    (S : List String) (s : DState) (inv : DInv g start S s) (d : ℕ) (u : String)
    (rest : List (ℕ × String)) (hpop : popMin s.pq = some ((d, u), rest))
    (hnonstale : (d : WithTop ℕ) = s.dist u) :
    s.dist u = distStar g start u := by
  obtain ⟨hperm, hmin⟩ := popMin_spec s.pq (d, u) rest hpop
  by_contra hne
  have hle : distStar g start u ≤ s.dist u := inv.sound u
  obtain ⟨k, hk⟩ : ∃ k : ℕ, distStar g start u = (k : WithTop ℕ) := by
    cases hx : distStar g start u with
    | top =>
      rw [hx] at hle
      have hdu : s.dist u = ⊤ := top_le_iff.mp hle
      exact absurd (by rw [hdu, hx] : s.dist u = distStar g start u) hne
    | coe k => exact ⟨k, rfl⟩
  have hdku : s.dist u ≠ (k : WithTop ℕ) := fun hc => hne (by rw [hc, hk])
  obtain ⟨d', v, hmem, hdd', hsettle, hd'k⟩ := key_frontier g hwf start S s inv k u hk hdku
  have hdd : d ≤ d' := hmin (d', v) hmem
  have hkd : (k : WithTop ℕ) < s.dist u := lt_of_le_of_ne (hk ▸ hle) (Ne.symm hdku)
  rw [← hnonstale] at hkd
  have hkdn : k < d := by exact_mod_cast hkd
  omega

/-- When the queue is empty every node carries its true distance. -/
theorem pq_empty_settled (g : DGraph) (hwf : GraphWF g) (start : String)
    (S : List String) (s : DState) (inv : DInv g start S s) (hpq : s.pq = [])
    (t' : String) : s.dist t' = distStar g start t' := by
  cases hx : distStar g start t' with
  | top =>
    have := inv.sound t'
    rw [hx] at this
    exact top_le_iff.mp this
  | coe k =>
    by_contra hne
    obtain ⟨d, v, hmem, _, _, _⟩ := key_frontier g hwf start S s inv k t' hx hne
    rw [hpq] at hmem
    simp at hmem

/-- When the target is popped (the early break) its distance is final. -/
theorem break_settled (g : DGraph) (hwf : GraphWF g) (start : String)
    (S : List String) (s : DState) (inv : DInv g start S s) (d : ℕ) (target : String)
    (rest : List (ℕ × String)) (hpop : popMin s.pq = some ((d, target), rest)) :
    s.dist target = distStar g start target := by
  obtain ⟨hperm, hmin⟩ := popMin_spec s.pq (d, target) rest hpop
  have hmem : (d, target) ∈ s.pq := hperm.mem_iff.mpr (List.mem_cons_self _ _)
  have hfin : s.dist target ≤ (d : WithTop ℕ) := inv.pq_dom d target hmem
  by_cases hS : target ∈ S
  · exact inv.settled target hS
  · obtain ⟨d', hd', hdd'⟩ := inv.active target hS
      (fun hc => by rw [hc] at hfin; exact absurd (top_le_iff.mp hfin) WithTop.coe_ne_top)
    have h1 : d ≤ d' := hmin (d', target) hd'
    have h2 : (d' : WithTop ℕ) ≤ (d : WithTop ℕ) := hdd' ▸ hfin
    have h2' : d' ≤ d := by exact_mod_cast h2
    have hdd : d = d' := le_antisymm h1 h2'
    exact settled_of_popped_min g hwf start S s inv d target rest hpop (hdd ▸ hdd')

/-- Popping a stale entry preserves the invariant. -/
theorem dinv_stale (g : DGraph) (start : String) (S : List String) (s : DState)
    (inv : DInv g start S s) (d : ℕ) (u : String) (rest : List (ℕ × String))
    (hpop : popMin s.pq = some ((d, u), rest)) (hstale : s.dist u < (d : WithTop ℕ)) :
    DInv g start S { s with pq := rest } := by
  obtain ⟨hperm, hmin⟩ := popMin_spec s.pq (d, u) rest hpop
  have hsub : ∀ y ∈ rest, y ∈ s.pq := by
    intro y hy
    exact hperm.mem_iff.mpr (List.mem_cons_of_mem _ hy)
  refine ⟨inv.dist_start, inv.sound, inv.prev_adj, inv.prev_start, inv.prev_set,
    ?_, ?_, ?_, inv.dist_bound, inv.settled, inv.relaxed, ?_⟩
  · intro d₀ v h
    exact inv.pq_dom d₀ v (hsub _ h)
  · intro d₀ v h
    exact inv.pq_nodes d₀ v (hsub _ h)
  · intro d₀ v h
    exact inv.pq_bound d₀ v (hsub _ h)
  · intro v hvS hvfin
    obtain ⟨d₀, hd₀, hdd₀⟩ := inv.active v hvS hvfin
    have hmem' : (d₀, v) ∈ (d, u) :: rest := hperm.mem_iff.mp hd₀
    rcases List.mem_cons.mp hmem' with hc | hc
    · exfalso
      have h1 : d₀ = d := congrArg Prod.fst hc
      have h2 : v = u := congrArg Prod.snd hc
      rw [h1, h2] at hdd₀
      rw [← hdd₀] at hstale
      exact lt_irrefl _ hstale
    · exact ⟨d₀, hc, hdd₀⟩

/-- Monotonicity of the push budget. -/
theorem pb_mono (n : ℕ) (c c' : WithTop ℕ) (h : c ≤ c') : pb n c ≤ pb n c' := by
  cases c with
  | top =>
    have : c' = ⊤ := top_le_iff.mp h
    rw [this]
  | coe k =>
    cases c' with
    | top =>
      show min k n ≤ n + 1
      omega
    | coe k' =>
      have hkk : k ≤ k' := by exact_mod_cast h
      show min k n ≤ min k' n
      omega

/-- The invariant maintained while relaxing the neighbours of `u`, whose
popped key `d` equals both its tentative and its true distance. -/
structure RelaxInv (g : DGraph) (start : String) (S : List String) (u : String)
    (d : ℕ) (s : DState) : Prop where
  dist_start : s.dist start = 0
  sound : ∀ v, distStar g start v ≤ s.dist v
  prev_adj : ∀ v w, s.prev v = some w →
    v ∈ g.adj w ∧ s.dist w + 1 ≤ s.dist v ∧ s.dist v ≠ ⊤
  prev_start : s.prev start = none
  prev_set : ∀ v, v ≠ start → s.dist v ≠ ⊤ → s.prev v ≠ none
  pq_dom : ∀ d₀ v, (d₀, v) ∈ s.pq → s.dist v ≤ (d₀ : WithTop ℕ)
  pq_nodes : ∀ d₀ v, (d₀, v) ∈ s.pq → v ∈ g.nodes
  pq_bound : ∀ d₀ v, (d₀, v) ∈ s.pq → d₀ ≤ g.nodes.length
  dist_bound : ∀ v, s.dist v ≠ ⊤ → s.dist v ≤ (g.nodes.length : WithTop ℕ)
  settled : ∀ w ∈ S, s.dist w = distStar g start w
  relaxed : ∀ w ∈ S, ∀ v ∈ g.adj w, s.dist v ≤ s.dist w + 1
  activeEx : ∀ v, v ∉ S → v ≠ u → s.dist v ≠ ⊤ →
    ∃ d₀ : ℕ, (d₀, v) ∈ s.pq ∧ (d₀ : WithTop ℕ) = s.dist v
  dist_u : s.dist u = (d : WithTop ℕ)

theorem relaxOne_step (g : DGraph) (hwf : GraphWF g) (start : String) (S : List String)
    (u : String) (d : ℕ) (hdstar : distStar g start u = (d : WithTop ℕ))
    (hdb : d + 1 ≤ g.nodes.length) (s : DState)
    (hinv : RelaxInv g start S u d s) (v : String) (hv : v ∈ g.adj u) :
    RelaxInv g start S u d (relaxOne u d s v) ∧
    (relaxOne u d s v).dist v ≤ ((d + 1 : ℕ) : WithTop ℕ) ∧
    (∀ w, (relaxOne u d s v).dist w ≤ s.dist w) ∧
    loopMeasure g (relaxOne u d s v) ≤ loopMeasure g s := by
  have hcast : ((d + 1 : ℕ) : WithTop ℕ) = (d : WithTop ℕ) + 1 := by push_cast; rfl
  by_cases hlt : ((d + 1 : ℕ) : WithTop ℕ) < s.dist v
  case neg =>
    have hnored : relaxOne u d s v = s := by
      unfold relaxOne
      rw [if_neg hlt]
    rw [hnored]
    exact ⟨hinv, not_lt.mp hlt, fun w => le_refl _, le_refl _⟩
  case pos =>
    have hred : relaxOne u d s v =
        { pq := (d + 1, v) :: s.pq,
          dist := fun w => if w = v then ((d + 1 : ℕ) : WithTop ℕ) else s.dist w,
          prev := fun w => if w = v then some u else s.prev w } := by
      unfold relaxOne
      rw [if_pos hlt]
    have hvstart : v ≠ start := by
      intro hc
      rw [hc, hinv.dist_start] at hlt
      exact absurd hlt (by simp)
    have hvu : v ≠ u := by
      intro hc
      rw [hc, hinv.dist_u, hcast] at hlt
      have : (d : WithTop ℕ) + 1 < (d : WithTop ℕ) := hlt
      have hd1 : (d : WithTop ℕ) < (d : WithTop ℕ) + 1 := by
        rw [← hcast]
        exact_mod_cast Nat.lt_succ_self d
      exact absurd (lt_trans hd1 this) (lt_irrefl _)
    have htri : distStar g start v ≤ ((d + 1 : ℕ) : WithTop ℕ) := by
      rw [hcast, ← hdstar]
      exact distStar_triangle g hwf start u v hv
    have hvS : v ∉ S := by
      intro hc
      have h1 := hinv.settled v hc
      rw [h1] at hlt
      exact absurd (lt_of_le_of_lt htri hlt) (lt_irrefl _)
    have hmono : ∀ w, (relaxOne u d s v).dist w ≤ s.dist w := by
      intro w
      rw [hred]
      by_cases hwv : w = v
      · simp only [hwv, if_pos rfl]
        exact le_of_lt hlt
      · simp [hwv]
    refine ⟨?_, ?_, hmono, ?_⟩
    · refine ⟨?_, ?_, ?_, ?_, ?_, ?_, ?_, ?_, ?_, ?_, ?_, ?_, ?_⟩
      · rw [hred]
        simpa [Ne.symm hvstart] using hinv.dist_start
      · intro w
        rw [hred]
        by_cases hwv : w = v
        · simp only [hwv, if_pos rfl]
          exact htri
        · simpa [hwv] using hinv.sound w
      · intro w p hp
        rw [hred] at hp ⊢
        simp only at hp
        by_cases hwv : w = v
        · rw [if_pos hwv] at hp
          have hpu : u = p := by simpa using hp
          refine ⟨?_, ?_, ?_⟩
          · rw [hwv, ← hpu]
            exact hv
          · rw [hwv, ← hpu]
            simp [Ne.symm hvu, hinv.dist_u, hcast]
          · rw [hwv]
            simp
        · rw [if_neg hwv] at hp
          obtain ⟨h1, h2, h3⟩ := hinv.prev_adj w p hp
          refine ⟨h1, ?_, by simpa [hwv] using h3⟩
          simp only [if_neg hwv]
          calc (if p = v then ((d + 1 : ℕ) : WithTop ℕ) else s.dist p) + 1
              ≤ s.dist p + 1 := by
                by_cases hpv : p = v
                · simp only [hpv, if_pos rfl]
                  exact add_le_add_right (le_of_lt hlt) 1
                · simp [hpv]
            _ ≤ s.dist w := h2
      · rw [hred]
        simpa [Ne.symm hvstart] using hinv.prev_start
      · intro w hwstart hwfin
        rw [hred] at hwfin ⊢
        simp only at hwfin ⊢
        by_cases hwv : w = v
        · simp [hwv]
        · rw [if_neg hwv] at hwfin
          simpa [hwv] using hinv.prev_set w hwstart hwfin
      · intro d₀ w hw
        rw [hred] at hw ⊢
        simp only [List.mem_cons] at hw
        rcases hw with hw | hw
        · have h1 : d₀ = d + 1 := congrArg Prod.fst hw
          have h2 : w = v := congrArg Prod.snd hw
          simp [h1, h2]
        · have := hinv.pq_dom d₀ w hw
          by_cases hwv : w = v
          · simp only [hwv, if_pos rfl]
            rw [hwv] at this
            exact le_trans (le_of_lt hlt) this
          · simpa [hwv] using this
      · intro d₀ w hw
        rw [hred] at hw
        simp only [List.mem_cons] at hw
        rcases hw with hw | hw
        · have h2 : w = v := congrArg Prod.snd hw
          rw [h2]
          exact hwf u v hv
        · exact hinv.pq_nodes d₀ w hw
      · intro d₀ w hw
        rw [hred] at hw
        simp only [List.mem_cons] at hw
        rcases hw with hw | hw
        · have h1 : d₀ = d + 1 := congrArg Prod.fst hw
          omega
        · exact hinv.pq_bound d₀ w hw
      · intro w hwfin
        rw [hred] at hwfin ⊢
        simp only at hwfin ⊢
        by_cases hwv : w = v
        · rw [if_pos hwv]
          exact WithTop.coe_le_coe.mpr hdb
        · rw [if_neg hwv] at hwfin
          simpa [hwv] using hinv.dist_bound w hwfin
      · intro w hwS
        rw [hred]
        have hwv : w ≠ v := fun hc => hvS (hc ▸ hwS)
        simpa [hwv] using hinv.settled w hwS
      · intro w hwS z hz
        rw [hred]
        have hwv : w ≠ v := fun hc => hvS (hc ▸ hwS)
        simp only [if_neg hwv]
        calc (if z = v then ((d + 1 : ℕ) : WithTop ℕ) else s.dist z)
            ≤ s.dist z := by
              by_cases hzv : z = v
              · simp only [hzv, if_pos rfl]
                exact le_of_lt hlt
              · simp [hzv]
          _ ≤ s.dist w + 1 := hinv.relaxed w hwS z hz
      · intro w hwS hwu hwfin
        rw [hred] at hwfin ⊢
        simp only at hwfin ⊢
        by_cases hwv : w = v
        · exact ⟨d + 1, by simp [hwv], by simp [hwv]⟩
        · rw [if_neg hwv] at hwfin
          obtain ⟨d₀, hd₀, hdd₀⟩ := hinv.activeEx w hwS hwu hwfin
          exact ⟨d₀, List.mem_cons_of_mem _ hd₀, by simpa [hwv] using hdd₀⟩
      · rw [hred]
        simpa [Ne.symm hvu] using hinv.dist_u
    · rw [hred]
      simp
    · rw [hred]
      show ((d + 1, v) :: s.pq).length +
          (g.nodes.map (fun w => pb g.nodes.length
            (if w = v then ((d + 1 : ℕ) : WithTop ℕ) else s.dist w))).sum ≤
        loopMeasure g s
      have hvnode : v ∈ g.nodes := hwf u v hv
      have hstrict : pb g.nodes.length ((d + 1 : ℕ) : WithTop ℕ) + 1 ≤
          pb g.nodes.length (s.dist v) := by
        cases hc : s.dist v with
        | top =>
          show min (d + 1) g.nodes.length + 1 ≤ g.nodes.length + 1
          omega
        | coe m =>
          have hm : m ≤ g.nodes.length := by
            have := hinv.dist_bound v (by rw [hc]; exact WithTop.coe_ne_top)
            rw [hc] at this
            exact WithTop.coe_le_coe.mp this
          have hdm : d + 1 < m := by
            rw [hc] at hlt
            exact WithTop.coe_lt_coe.mp hlt
          show min (d + 1) g.nodes.length + 1 ≤ min m g.nodes.length
          omega
      have hsum := sum_map_lt_sum_map g.nodes
        (fun w => pb g.nodes.length
          (if w = v then ((d + 1 : ℕ) : WithTop ℕ) else s.dist w))
        (fun w => pb g.nodes.length (s.dist w)) v hvnode
        (fun x _ => by
          by_cases hxv : x = v
          · simp only [hxv, if_pos rfl]
            exact pb_mono _ _ _ (le_of_lt hlt)
          · simp [hxv])
        (by simp only [if_pos rfl]; exact hstrict)
      show s.pq.length + 1 + _ ≤ s.pq.length + _
      omega

theorem relaxAll_fold (g : DGraph) (hwf : GraphWF g) (start : String) (S : List String)
    (u : String) (d : ℕ) (hdstar : distStar g start u = (d : WithTop ℕ))
    (hdb : d + 1 ≤ g.nodes.length) :
    ∀ (nbrs : List String) (s : DState), (∀ v ∈ nbrs, v ∈ g.adj u) →
      RelaxInv g start S u d s →
      RelaxInv g start S u d (nbrs.foldl (relaxOne u d) s) ∧
      (∀ v ∈ nbrs, (nbrs.foldl (relaxOne u d) s).dist v ≤ ((d + 1 : ℕ) : WithTop ℕ)) ∧
      (∀ w, (nbrs.foldl (relaxOne u d) s).dist w ≤ s.dist w) ∧
      loopMeasure g (nbrs.foldl (relaxOne u d) s) ≤ loopMeasure g s := by
  intro nbrs
  induction nbrs with
  | nil =>
    intro s _ hinv
    exact ⟨hinv, by simp, fun w => le_refl _, le_refl _⟩
  | cons v rest ih =>
    intro s hmem hinv
    have hv : v ∈ g.adj u := hmem v (List.mem_cons_self v rest)
    obtain ⟨hinv₁, hbv, hmono₁, hmeas₁⟩ :=
      relaxOne_step g hwf start S u d hdstar hdb s hinv v hv
    obtain ⟨hinv₂, hbrest, hmono₂, hmeas₂⟩ :=
      ih (relaxOne u d s v) (fun w hw => hmem w (List.mem_cons_of_mem v hw)) hinv₁
    simp only [List.foldl_cons]
    refine ⟨hinv₂, ?_, ?_, le_trans hmeas₂ hmeas₁⟩
    · intro w hw
      rcases List.mem_cons.mp hw with hwv | hw'
      · rw [hwv]
        exact le_trans (hmono₂ v) hbv
      · exact hbrest w hw'
    · intro w
      exact le_trans (hmono₂ w) (hmono₁ w)

/-- A non-stale relaxation step settles `u` and strictly decreases the
measure. -/
theorem dinv_relax (g : DGraph) (hwf : GraphWF g) (start : String)
    (hstart : start ∈ g.nodes) (S : List String) (s : DState)
    (inv : DInv g start S s) (d : ℕ) (u : String) (rest : List (ℕ × String))
    (hpop : popMin s.pq = some ((d, u), rest))
    (hnonstale : ¬ s.dist u < (d : WithTop ℕ)) :
    DInv g start (u :: S) (relaxAll u d (g.adj u) { s with pq := rest }) ∧
    loopMeasure g (relaxAll u d (g.adj u) { s with pq := rest }) + 1 ≤ loopMeasure g s := by
  unfold relaxAll
  obtain ⟨hperm, hmin⟩ := popMin_spec s.pq (d, u) rest hpop
  have hmem : (d, u) ∈ s.pq := hperm.mem_iff.mpr (List.mem_cons_self _ _)
  have hdist_u : s.dist u = (d : WithTop ℕ) :=
    le_antisymm (inv.pq_dom d u hmem) (not_lt.mp hnonstale)
  have hu_nodes : u ∈ g.nodes := inv.pq_nodes d u hmem
  have hsettled_u : s.dist u = distStar g start u :=
    settled_of_popped_min g hwf start S s inv d u rest hpop hdist_u.symm
  have hdstar : distStar g start u = (d : WithTop ℕ) := by rw [← hsettled_u, hdist_u]
  have hdb : d + 1 ≤ g.nodes.length :=
    distStar_lt_nodes g hwf start u hstart d hdstar
  have hsub : ∀ y ∈ rest, y ∈ s.pq := by
    intro y hy
    exact hperm.mem_iff.mpr (List.mem_cons_of_mem _ hy)
  have hstart0 : RelaxInv g start S u d { s with pq := rest } := by
    refine ⟨inv.dist_start, inv.sound, inv.prev_adj, inv.prev_start, inv.prev_set,
      ?_, ?_, ?_, inv.dist_bound, inv.settled, inv.relaxed, ?_, hdist_u⟩
    · intro d₀ v h
      exact inv.pq_dom d₀ v (hsub _ h)
    · intro d₀ v h
      exact inv.pq_nodes d₀ v (hsub _ h)
    · intro d₀ v h
      exact inv.pq_bound d₀ v (hsub _ h)
    · intro v hvS hvu hvfin
      obtain ⟨d₀, hd₀, hdd₀⟩ := inv.active v hvS hvfin
      have hmem' : (d₀, v) ∈ (d, u) :: rest := hperm.mem_iff.mp hd₀
      rcases List.mem_cons.mp hmem' with hc | hc
      · exact absurd (congrArg Prod.snd hc) hvu
      · exact ⟨d₀, hc, hdd₀⟩
  obtain ⟨hfin, hbnd, hmono, hmeas⟩ :=
    relaxAll_fold g hwf start S u d hdstar hdb (g.adj u) { s with pq := rest }
      (fun v hv => hv) hstart0
  have hcast : ((d + 1 : ℕ) : WithTop ℕ) = (d : WithTop ℕ) + 1 := by push_cast; rfl
  constructor
  · refine ⟨hfin.dist_start, hfin.sound, hfin.prev_adj, hfin.prev_start, hfin.prev_set,
      hfin.pq_dom, hfin.pq_nodes, hfin.pq_bound, hfin.dist_bound, ?_, ?_, ?_⟩
    · intro w hw
      rcases List.mem_cons.mp hw with hwu | hwS
      · rw [hwu]
        rw [hfin.dist_u, hdstar]
      · exact hfin.settled w hwS
    · intro w hw v hv
      rcases List.mem_cons.mp hw with hwu | hwS
      · rw [hwu]
        rw [hfin.dist_u, ← hcast]
        exact hbnd v (hwu ▸ hv)
      · exact hfin.relaxed w hwS v hv
    · intro v hv hvfin
      have hvS : v ∉ S := fun hc => hv (List.mem_cons_of_mem u hc)
      have hvu : v ≠ u := fun hc => hv (hc ▸ List.mem_cons_self u S)
      exact hfin.activeEx v hvS hvu hvfin
  · have hlen : s.pq.length = rest.length + 1 := by
      have := hperm.length_eq
      simpa using this
    have hm0 : loopMeasure g { s with pq := rest } + 1 = loopMeasure g s := by
      unfold loopMeasure
      simp only
      omega
    omega

theorem dijkstraLoop_eq_none (g : DGraph) (target : String) (fuel : ℕ) (s : DState)
    (hpop : popMin s.pq = none) : dijkstraLoop g target (fuel + 1) s = s := by
  unfold dijkstraLoop
  rw [hpop]

theorem dijkstraLoop_eq_pop (g : DGraph) (target : String) (fuel : ℕ) (s : DState)
    (d : ℕ) (u : String) (rest : List (ℕ × String))
    (hpop : popMin s.pq = some ((d, u), rest)) :
    dijkstraLoop g target (fuel + 1) s =
      if u = target then { s with pq := rest }
      else if s.dist u < (d : WithTop ℕ) then
        dijkstraLoop g target fuel { s with pq := rest }
      else dijkstraLoop g target fuel (relaxAll u d (g.adj u) { s with pq := rest }) := by
  simp only [dijkstraLoop, hpop]

/-- Main loop theorem: from any invariant state with enough fuel, the loop
ends in a state whose distance for `target` is the true breadth-first
distance, and which still satisfies the result-facing invariant. -/
theorem dijkstraLoop_spec (g : DGraph) (hwf : GraphWF g) (start target : String)
    (hstart : start ∈ g.nodes) :
    ∀ (fuel : ℕ) (S : List String) (s : DState), DInv g start S s →
      loopMeasure g s ≤ fuel →
      DFinal g start (dijkstraLoop g target fuel s) ∧
      (dijkstraLoop g target fuel s).dist target = distStar g start target := by
  intro fuel
  induction fuel with
  | zero =>
    intro S s inv hfuel
    have hpq : s.pq = [] := by
      unfold loopMeasure at hfuel
      exact List.length_eq_zero.mp (by omega)
    show DFinal g start s ∧ s.dist target = distStar g start target
    exact ⟨inv.toFinal, pq_empty_settled g hwf start S s inv hpq target⟩
  | succ fuel ih =>
    intro S s inv hfuel
    cases hpop : popMin s.pq with
    | none =>
      have hpq : s.pq = [] := popMin_none s.pq hpop
      rw [dijkstraLoop_eq_none g target fuel s hpop]
      exact ⟨inv.toFinal, pq_empty_settled g hwf start S s inv hpq target⟩
    | some p =>
      obtain ⟨⟨d, u⟩, rest⟩ := p
      rw [dijkstraLoop_eq_pop g target fuel s d u rest hpop]
      by_cases htgt : u = target
      · rw [if_pos htgt]
        subst htgt
        refine ⟨?_, ?_⟩
        · exact ⟨inv.dist_start, inv.sound, inv.prev_adj, inv.prev_start, inv.prev_set⟩
        · exact break_settled g hwf start S s inv d u rest hpop
      · rw [if_neg htgt]
        obtain ⟨hperm, _⟩ := popMin_spec s.pq (d, u) rest hpop
        have hlen : s.pq.length = rest.length + 1 := by
          have := hperm.length_eq
          simpa using this
        by_cases hstale : s.dist u < (d : WithTop ℕ)
        · rw [if_pos hstale]
          have hinv' := dinv_stale g start S s inv d u rest hpop hstale
          have hmeas' : loopMeasure g { s with pq := rest } ≤ fuel := by
            unfold loopMeasure at hfuel ⊢
            simp only at hfuel ⊢
            omega
          exact ih S { s with pq := rest } hinv' hmeas'
        · rw [if_neg hstale]
          obtain ⟨hinv', hmeas'⟩ :=
            dinv_relax g hwf start hstart S s inv d u rest hpop hstale
          exact ih (u :: S) _ hinv' (by omega)

/-- The initial Dijkstra state satisfies the invariant with no settled
nodes. -/
theorem dinv_init (g : DGraph) (start : String) (hstart : start ∈ g.nodes) :
    DInv g start []
      { pq := [(0, start)],
        dist := fun v => if v = start then (0 : WithTop ℕ) else ⊤,
        prev := fun _ => none } := by
  refine ⟨by simp, ?_, ?_, by simp, ?_, ?_, ?_, ?_, ?_, by simp, by simp, ?_⟩
  · intro v
    by_cases hv : v = start
    · rw [hv]
      simp [distStar_self]
    · simp [hv]
  · intro v u h
    simp at h
  · intro v hv hfin
    simp only [if_neg hv] at hfin
    exact absurd rfl hfin
  · intro d₀ v h
    simp only [List.mem_singleton] at h
    have h1 : d₀ = 0 := congrArg Prod.fst h
    have h2 : v = start := congrArg Prod.snd h
    simp [h1, h2]
  · intro d₀ v h
    simp only [List.mem_singleton] at h
    have h2 : v = start := congrArg Prod.snd h
    rw [h2]
    exact hstart
  · intro d₀ v h
    simp only [List.mem_singleton] at h
    have h1 : d₀ = 0 := congrArg Prod.fst h
    omega
  · intro v hfin
    by_cases hv : v = start
    · simp [hv]
    · simp only [if_neg hv] at hfin
      exact absurd rfl hfin
  · intro v _ hfin
    by_cases hv : v = start
    · refine ⟨0, by simp [hv], ?_⟩
      show (0 : WithTop ℕ) = if v = start then (0 : WithTop ℕ) else ⊤
      rw [if_pos hv]
    · simp only [if_neg hv] at hfin
      exact absurd rfl hfin

/-- The canonical fuel bound dominates the initial measure. -/
theorem initial_measure_le (g : DGraph) (start : String) :
    loopMeasure g
      { pq := [(0, start)],
        dist := fun v => if v = start then (0 : WithTop ℕ) else ⊤,
        prev := fun _ => none } ≤ dijkstraFuel g := by
  unfold loopMeasure dijkstraFuel
  simp only [List.length_singleton]
  have hb : ∀ v ∈ g.nodes,
      pb g.nodes.length (if v = start then (0 : WithTop ℕ) else ⊤) ≤ g.nodes.length + 1 := by
    intro v _
    by_cases hv : v = start
    · simp only [hv, if_pos rfl]
      show min 0 g.nodes.length ≤ g.nodes.length + 1
      omega
    · simp only [if_neg hv]
      exact le_refl _
  have hsum : (g.nodes.map (fun v =>
      pb g.nodes.length (if v = start then (0 : WithTop ℕ) else ⊤))).sum ≤
      g.nodes.length * (g.nodes.length + 1) := by
    calc (g.nodes.map (fun v =>
        pb g.nodes.length (if v = start then (0 : WithTop ℕ) else ⊤))).sum
        ≤ (g.nodes.map (fun _ => g.nodes.length + 1)).sum :=
          sum_map_le_sum_map g.nodes _ _ hb
      _ = g.nodes.length * (g.nodes.length + 1) := by
          rw [List.map_const']
          rw [List.sum_replicate]
          rw [smul_eq_mul]
  nlinarith [hsum]

/-- Appending a next node to a chain. -/
theorem chainL_snoc (g : DGraph) :
    ∀ (xs : List String) (p v : String), chainL g xs = true →
      xs.getLast? = some p → v ∈ g.adj p → chainL g (xs ++ [v]) = true := by
  intro xs
  induction xs with
  | nil => intro p v _ hl _; simp at hl
  | cons a rest ih =>
    intro p v hc hl hv
    cases rest with
    | nil =>
      simp only [List.getLast?_singleton, Option.some.injEq] at hl
      subst hl
      simp only [List.singleton_append, chainL_cons₂, chainL_single, Bool.and_true]
      simpa using hv
    | cons b rest' =>
      rw [chainL_cons₂] at hc
      obtain ⟨hadj, hc'⟩ := Bool.and_eq_true_iff.mp hc
      have hl' : (b :: rest').getLast? = some p := by
        rw [List.getLast?_cons_cons] at hl
        exact hl
      have := ih p v hc' hl' hv
      show chainL g (a :: ((b :: rest') ++ [v])) = true
      rw [List.cons_append, chainL_cons₂]
      exact Bool.and_eq_true_iff.mpr ⟨hadj, this⟩

/-- The reconstructed predecessor chain, reversed, is a chain from `start`
to `v` whose edge count is at most the recorded distance. -/
theorem chainOf_spec (g : DGraph) (start : String) (s : DState) (hf : DFinal g start s) :
    ∀ (k : ℕ) (v : String), s.dist v = (k : WithTop ℕ) → ∀ fuel, k + 1 ≤ fuel →
      ∃ ℓ, ℓ ≤ k ∧ (chainOf s.prev fuel v).length = ℓ + 1 ∧
        (chainOf s.prev fuel v).reverse.head? = some start ∧
        (chainOf s.prev fuel v).reverse.getLast? = some v ∧
        chainL g (chainOf s.prev fuel v).reverse = true := by
  intro k
  induction k using Nat.strong_induction_on with
  | _ k ih =>
    intro v hv fuel hfuel
    by_cases hvs : v = start
    · subst hvs
      obtain ⟨f, rfl⟩ : ∃ f, fuel = f + 1 := ⟨fuel - 1, by omega⟩
      have hch : chainOf s.prev (f + 1) v = [v] := by
        unfold chainOf
        rw [hf.prev_start]
      refine ⟨0, Nat.zero_le k, ?_, ?_, ?_, ?_⟩ <;> rw [hch] <;> simp [chainL_single]
    · have hvfin : s.dist v ≠ ⊤ := by rw [hv]; exact WithTop.coe_ne_top
      have hprev := hf.prev_set v hvs hvfin
      obtain ⟨p, hp⟩ : ∃ p, s.prev v = some p := by
        cases hx : s.prev v with
        | none => exact absurd hx hprev
        | some p => exact ⟨p, rfl⟩
      obtain ⟨hadj, hle, _⟩ := hf.prev_adj v p hp
      obtain ⟨k', hk', hk'k⟩ : ∃ k' : ℕ, s.dist p = (k' : WithTop ℕ) ∧ k' + 1 ≤ k := by
        cases hx : s.dist p with
        | top =>
          rw [hx] at hle
          rw [hv] at hle
          simp at hle
        | coe k' =>
          have hx' : s.dist p = (k' : WithTop ℕ) := hx
          rw [hx', hv] at hle
          have hcast : ((k' : WithTop ℕ)) + 1 = ((k' + 1 : ℕ) : WithTop ℕ) := by
            push_cast
            rfl
          rw [hcast] at hle
          exact ⟨k', rfl, by exact_mod_cast hle⟩
      obtain ⟨f, rfl⟩ : ∃ f, fuel = f + 1 := ⟨fuel - 1, by omega⟩
      have hch : chainOf s.prev (f + 1) v = v :: chainOf s.prev f p := by
        simp only [chainOf, hp]
      obtain ⟨ℓ', hℓ'le, hlen', hhead', hlast', hchain'⟩ :=
        ih k' (by omega) p hk' f (by omega)
      have hrevne : (chainOf s.prev f p).reverse ≠ [] := by
        intro hc
        have := congrArg List.length hc
        simp only [List.length_reverse, hlen'] at this
        simp at this
      refine ⟨ℓ' + 1, by omega, ?_, ?_, ?_, ?_⟩
      · rw [hch]
        simp [hlen']
      · rw [hch]
        simp only [List.reverse_cons]
        rw [List.head?_append]
        rw [hhead']
        rfl
      · rw [hch]
        simp only [List.reverse_cons]
        rw [List.getLast?_concat]
      · rw [hch]
        simp only [List.reverse_cons]
        exact chainL_snoc g (chainOf s.prev f p).reverse p v hchain' hlast' hadj

/-- Path facts of a final state whose recorded target distance is the
breadth-first distance: in the finite case the reconstructed path is a
chain of exactly that many edges from start to target; in the infinite
case the reconstruction is just `[target]`. -/
theorem dijkstra_path_aux (g : DGraph) (hwf : GraphWF g) (start target : String)
    (hstart : start ∈ g.nodes) (s : DState) (hfin : DFinal g start s)
    (hdist : s.dist target = distStar g start target) :
    (∀ k : ℕ, distStar g start target = (k : WithTop ℕ) →
      ((chainOf s.prev (g.nodes.length + 1) target).reverse.length = k + 1 ∧
       (chainOf s.prev (g.nodes.length + 1) target).reverse.head? = some start ∧
       (chainOf s.prev (g.nodes.length + 1) target).reverse.getLast? = some target ∧
       chainL g (chainOf s.prev (g.nodes.length + 1) target).reverse = true)) ∧
    (distStar g start target = ⊤ →
      (chainOf s.prev (g.nodes.length + 1) target).reverse = [target]) := by
  constructor
  · intro k hk
    have hkb := distStar_lt_nodes g hwf start target hstart k hk
    have hdt : s.dist target = (k : WithTop ℕ) := by rw [hdist, hk]
    obtain ⟨ℓ, hℓk, hlen, hhead, hlast, hchain⟩ :=
      chainOf_spec g start s hfin k target hdt (g.nodes.length + 1) (by omega)
    have hwalk : walkX g ℓ start target = true := by
      rw [walkX_iff_chainL]
      refine ⟨(chainOf s.prev (g.nodes.length + 1) target).reverse, hchain, hhead, hlast, ?_⟩
      rw [List.length_reverse, hlen]
    have hle := distStar_le_of_walk g hwf start target ℓ hwalk
    rw [hk] at hle
    have hkℓ : k ≤ ℓ := by exact_mod_cast hle
    have hℓeq : ℓ = k := le_antisymm hℓk hkℓ
    subst hℓeq
    exact ⟨by rw [List.length_reverse, hlen], hhead, hlast, hchain⟩
  · intro ht
    have hdt : s.dist target = ⊤ := by rw [hdist, ht]
    have hpnone : s.prev target = none := by
      cases hx : s.prev target with
      | none => rfl
      | some u =>
        obtain ⟨_, _, hne⟩ := hfin.prev_adj target u hx
        exact absurd hdt hne
    have hch : chainOf s.prev (g.nodes.length + 1) target = [target] := by
      simp only [chainOf, hpnone]
    rw [hch]
    rfl

/-- Full correctness of the embedded `_dijkstra`: the returned distance is
the breadth-first distance; when finite, the returned path is a chain of
exactly that many edges from start to target; when infinite, the returned
path is `[target]` (not `[]`). -/
theorem dijkstra_spec (g : DGraph) (hwf : GraphWF g) (start target : String)
    (hstart : start ∈ g.nodes) :
    (dijkstra g start target).1 = distStar g start target ∧
    (∀ k : ℕ, distStar g start target = (k : WithTop ℕ) →
      ((dijkstra g start target).2.length = k + 1 ∧
       (dijkstra g start target).2.head? = some start ∧
       (dijkstra g start target).2.getLast? = some target ∧
       chainL g (dijkstra g start target).2 = true)) ∧
    (distStar g start target = ⊤ → (dijkstra g start target).2 = [target]) := by
  obtain ⟨hfin, hdist⟩ := dijkstraLoop_spec g hwf start target hstart (dijkstraFuel g) [] _
    (dinv_init g start hstart) (initial_measure_le g start)
  obtain ⟨hfinite, htop⟩ := dijkstra_path_aux g hwf start target hstart _ hfin hdist
  exact ⟨hdist, hfinite, htop⟩

/-- A successful association-list lookup is a membership. -/
theorem lookup_mem {β : Type} : ∀ (l : List (String × β)) (k : String) (v : β),
    l.lookup k = some v → (k, v) ∈ l := by
  intro l
  induction l with
  | nil => intro k v h; simp [List.lookup] at h
  | cons p rest ih =>
    intro k v h
    obtain ⟨a, b⟩ := p
    by_cases hk : k = a
    · subst hk
      simp only [List.lookup, beq_self_eq_true, Option.some.injEq] at h
      subst h
      exact List.mem_cons_self _ _
    · have hbe : (k == a) = false := beq_eq_false_iff_ne.mpr hk
      simp only [List.lookup, hbe] at h
      exact List.mem_cons_of_mem _ (ih k v h)

/-- Decomposing membership in the navigation entry list. -/
theorem navEntries_mem (dims : ℕ × ℕ) (floors : ℕ) (entrances : List (ℕ × ℕ))
    (u : String) (l : List String) (h : (u, l) ∈ navEntries dims floors entrances) :
    ∃ fl x y : ℕ, fl < floors ∧ x < dims.1 ∧ y < dims.2 ∧ u = nodeId fl x y ∧
      l = gridNeighbors dims.1 dims.2 fl x y ++ entranceEdges floors entrances fl x y := by
  unfold navEntries at h
  simp only [List.mem_flatMap, List.mem_map, List.mem_range, Prod.mk.injEq] at h
  obtain ⟨fl, hfl, y, hy, x, hx, hu, hl⟩ := h
  exact ⟨fl, x, y, hfl, hx, hy, hu.symm, hl.symm⟩

/-- Every in-range cell id is a key of the navigation entry list. -/
theorem nodeId_mem_navEntries (dims : ℕ × ℕ) (floors : ℕ) (entrances : List (ℕ × ℕ))
    (fl x y : ℕ) (hfl : fl < floors) (hx : x < dims.1) (hy : y < dims.2) :
    nodeId fl x y ∈ (navEntries dims floors entrances).map Prod.fst := by
  refine List.mem_map.mpr ⟨(nodeId fl x y,
    gridNeighbors dims.1 dims.2 fl x y ++ entranceEdges floors entrances fl x y), ?_, rfl⟩
  unfold navEntries
  refine List.mem_flatMap.mpr ⟨fl, List.mem_range.mpr hfl, ?_⟩
  refine List.mem_flatMap.mpr ⟨y, List.mem_range.mpr hy, ?_⟩
  exact List.mem_map.mpr ⟨x, List.mem_range.mpr hx, rfl⟩

/-- Every in-range cell id is a node of the built navigation graph. -/
theorem nodeId_mem_nav (dims : ℕ × ℕ) (floors : ℕ) (entrances : List (ℕ × ℕ))
    (fl x y : ℕ) (hfl : fl < floors) (hx : x < dims.1) (hy : y < dims.2) :
    nodeId fl x y ∈ (build_navigation_graph dims floors entrances).nodes :=
  nodeId_mem_navEntries dims floors entrances fl x y hfl hx hy

/-- Grid neighbours are in-range cell ids on the same floor. -/
theorem gridNeighbors_mem (w h fl x y : ℕ) (v : String)
    (hv : v ∈ gridNeighbors w h fl x y) :
    ∃ a b : ℕ, a < w ∧ b < h ∧ v = nodeId fl a b := by
  unfold gridNeighbors at hv
  rw [List.mem_filterMap] at hv
  obtain ⟨p, hp, hpv⟩ := hv
  by_cases hc : 0 ≤ p.1 ∧ p.1 < (w : ℤ) ∧ 0 ≤ p.2 ∧ p.2 < (h : ℤ)
  · rw [if_pos hc] at hpv
    obtain ⟨h1, h2, h3, h4⟩ := hc
    injection hpv with hpv
    refine ⟨p.1.toNat, p.2.toNat, ?_, ?_, hpv.symm⟩
    · omega
    · omega
  · rw [if_neg hc] at hpv
    cases hpv

/-- Entrance edges are in-range cell ids at the same grid position. -/
theorem entranceEdges_mem (floors : ℕ) (entrances : List (ℕ × ℕ)) (fl x y : ℕ)
    (hfl : fl < floors) (v : String) (hv : v ∈ entranceEdges floors entrances fl x y) :
    ∃ fl2 : ℕ, fl2 < floors ∧ v = nodeId fl2 x y := by
  unfold entranceEdges at hv
  rw [List.mem_append] at hv
  cases hv with
  | inl h =>
    by_cases hc : 1 ≤ fl ∧ fl < floors
    · rw [if_pos hc] at h
      rw [List.mem_filterMap] at h
      obtain ⟨e, he, hev⟩ := h
      by_cases heq : e = (x, y)
      · rw [if_pos heq] at hev
        injection hev with hev
        exact ⟨fl - 1, by omega, hev.symm⟩
      · rw [if_neg heq] at hev
        cases hev
    · rw [if_neg hc] at h
      simp at h
  | inr h =>
    by_cases hc : fl + 1 < floors
    · rw [if_pos hc] at h
      rw [List.mem_filterMap] at h
      obtain ⟨e, he, hev⟩ := h
      by_cases heq : e = (x, y)
      · rw [if_pos heq] at hev
        injection hev with hev
        exact ⟨fl + 1, hc, hev.symm⟩
      · rw [if_neg heq] at hev
        cases hev
    · rw [if_neg hc] at h
      simp at h

/-- The facility navigation graph is well-formed: every adjacency target
is a node. -/
theorem navGraph_wf (dims : ℕ × ℕ) (floors : ℕ) (entrances : List (ℕ × ℕ)) :
    GraphWF (build_navigation_graph dims floors entrances) := by
  intro u v hv
  have hv2 : v ∈ ((navEntries dims floors entrances).lookup u).getD [] := hv
  show v ∈ (navEntries dims floors entrances).map Prod.fst
  cases hlk : (navEntries dims floors entrances).lookup u with
  | none =>
    rw [hlk] at hv2
    simp at hv2
  | some l =>
    rw [hlk] at hv2
    have hvl : v ∈ l := hv2
    obtain ⟨fl, x, y, hfl, hx, hy, hu, hl⟩ :=
      navEntries_mem dims floors entrances u l (lookup_mem _ u l hlk)
    subst hl
    rw [List.mem_append] at hvl
    cases hvl with
    | inl hg =>
      obtain ⟨a, b, ha, hb, hveq⟩ := gridNeighbors_mem dims.1 dims.2 fl x y v hg
      subst hveq
      exact nodeId_mem_navEntries dims floors entrances fl a b hfl ha hb
    | inr he =>
      obtain ⟨fl2, hfl2, hveq⟩ := entranceEdges_mem floors entrances fl x y hfl v he
      subst hveq
      exact nodeId_mem_navEntries dims floors entrances fl2 x y hfl2 hx hy

/-- C3: on every facility-built navigation graph (all edge weights 1), for
every start node and every target connected to it by at least one walk,
`_dijkstra` returns exactly the minimum edge count over all connecting
walks (the breadth-first distance), and the returned path is a path with
exactly that many edges from start to target in the graph. -/
theorem C3_dijkstra_shortest (dims : ℕ × ℕ) (floors : ℕ) (entrances : List (ℕ × ℕ))
    (start target : String)
    (hstart : start ∈ (build_navigation_graph dims floors entrances).nodes)
    (hconn : ∃ j, walkX (build_navigation_graph dims floors entrances) j start target = true) :
    ∃ k : ℕ,
      (dijkstra (build_navigation_graph dims floors entrances) start target).1 =
        (k : WithTop ℕ) ∧
      walkX (build_navigation_graph dims floors entrances) k start target = true ∧
      (∀ i, i < k →
        walkX (build_navigation_graph dims floors entrances) i start target = false) ∧
      (dijkstra (build_navigation_graph dims floors entrances) start target).2.length = k + 1 ∧
      (dijkstra (build_navigation_graph dims floors entrances) start target).2.head? =
        some start ∧
      (dijkstra (build_navigation_graph dims floors entrances) start target).2.getLast? =
        some target ∧
      chainL (build_navigation_graph dims floors entrances)
        (dijkstra (build_navigation_graph dims floors entrances) start target).2 = true := by
  obtain ⟨j, hj⟩ := hconn
  have hwf := navGraph_wf dims floors entrances
  have hle := distStar_le_of_walk _ hwf start target j hj
  obtain ⟨k, hk⟩ : ∃ k : ℕ,
      distStar (build_navigation_graph dims floors entrances) start target =
        (k : WithTop ℕ) := by
    cases hx : distStar (build_navigation_graph dims floors entrances) start target with
    | top =>
      rw [hx] at hle
      simp at hle
    | coe k => exact ⟨k, rfl⟩
  obtain ⟨hwalk, hmin⟩ := distStar_fin_spec _ start target k hk
  obtain ⟨hdist, hfinite, _⟩ := dijkstra_spec _ hwf start target hstart
  obtain ⟨hlen, hhead, hlast, hchain⟩ := hfinite k hk
  exact ⟨k, by rw [hdist, hk], hwalk, hmin, hlen, hhead, hlast, hchain⟩

/-- Closed instance of `C3_dijkstra_shortest`: 2×1 single-floor graph,
start `"0-0-0"`, target `"0-1-0"`. -/
theorem C3_witness :
    ("0-0-0" ∈ (build_navigation_graph (2,1) 1 []).nodes) ∧
    (∃ j, walkX (build_navigation_graph (2,1) 1 []) j "0-0-0" "0-1-0" = true) ∧
    (∃ k : ℕ,
      (dijkstra (build_navigation_graph (2,1) 1 []) "0-0-0" "0-1-0").1 = (k : WithTop ℕ) ∧
      walkX (build_navigation_graph (2,1) 1 []) k "0-0-0" "0-1-0" = true ∧
      (∀ i, i < k → walkX (build_navigation_graph (2,1) 1 []) i "0-0-0" "0-1-0" = false) ∧
      (dijkstra (build_navigation_graph (2,1) 1 []) "0-0-0" "0-1-0").2.length = k + 1 ∧
      (dijkstra (build_navigation_graph (2,1) 1 []) "0-0-0" "0-1-0").2.head? = some "0-0-0" ∧
      (dijkstra (build_navigation_graph (2,1) 1 []) "0-0-0" "0-1-0").2.getLast? =
        some "0-1-0" ∧
      chainL (build_navigation_graph (2,1) 1 [])
        (dijkstra (build_navigation_graph (2,1) 1 []) "0-0-0" "0-1-0").2 = true) :=
  ⟨by decide, ⟨1, by decide⟩,
   C3_dijkstra_shortest (2,1) 1 [] "0-0-0" "0-1-0" (by decide) ⟨1, by decide⟩⟩

/-- C2 counterexample: in the 1×1 two-floor facility graph with no
entrances the two nodes are connected by no walk at all, and the returned
distance is indeed `⊤`, but the returned path is `["1-0-0"]` — the target
alone — not the empty list claimed by the spec. -/
theorem C2_counterexample :
    (∀ j, walkX (build_navigation_graph (1,1) 2 []) j "0-0-0" "1-0-0" = false) ∧
    (dijkstra (build_navigation_graph (1,1) 2 []) "0-0-0" "1-0-0").1 = ⊤ ∧
    (dijkstra (build_navigation_graph (1,1) 2 []) "0-0-0" "1-0-0").2 = ["1-0-0"] ∧
    (dijkstra (build_navigation_graph (1,1) 2 []) "0-0-0" "1-0-0").2 ≠ [] := by
  refine ⟨distStar_eq_top _ (navGraph_wf _ _ _) _ _ (by decide), ?_, ?_, ?_⟩
  · decide
  · decide
  · decide

/-- C2 amended: on every facility-built navigation graph, for every start
node and target with no connecting walk, `_dijkstra` returns distance `⊤`
and the one-element path `[target]` (the reconstruction loop appends the
target before finding no predecessor), not the empty path. -/
theorem C2_dijkstra_unreachable (dims : ℕ × ℕ) (floors : ℕ) (entrances : List (ℕ × ℕ))
    (start target : String)
    (hstart : start ∈ (build_navigation_graph dims floors entrances).nodes)
    (hunreach : ∀ j,
      walkX (build_navigation_graph dims floors entrances) j start target = false) :
    (dijkstra (build_navigation_graph dims floors entrances) start target).1 = ⊤ ∧
    (dijkstra (build_navigation_graph dims floors entrances) start target).2 = [target] := by
  have hwf := navGraph_wf dims floors entrances
  have hds : distStar (build_navigation_graph dims floors entrances) start target = ⊤ := by
    cases hb : firstWalkLe (build_navigation_graph dims floors entrances) start target
        (build_navigation_graph dims floors entrances).nodes.length with
    | none =>
      unfold distStar
      rw [hb]
    | some j =>
      obtain ⟨_, h2, _⟩ := firstWalkLe_spec _ start target _ j hb
      rw [hunreach j] at h2
      cases h2
  obtain ⟨hdist, _, htop⟩ := dijkstra_spec _ hwf start target hstart
  exact ⟨by rw [hdist, hds], htop hds⟩

/-- Closed instance of `C2_dijkstra_unreachable` on the 1×1 two-floor
graph. -/
theorem C2_witness :
    ("0-0-0" ∈ (build_navigation_graph (1,1) 2 []).nodes) ∧
    (∀ j, walkX (build_navigation_graph (1,1) 2 []) j "0-0-0" "1-0-0" = false) ∧
    ((dijkstra (build_navigation_graph (1,1) 2 []) "0-0-0" "1-0-0").1 = ⊤ ∧
     (dijkstra (build_navigation_graph (1,1) 2 []) "0-0-0" "1-0-0").2 = ["1-0-0"]) :=
  ⟨by decide,
   distStar_eq_top _ (navGraph_wf (1,1) 2 []) _ _ (by decide),
   C2_dijkstra_unreachable (1,1) 2 [] "0-0-0" "1-0-0" (by decide)
     (distStar_eq_top _ (navGraph_wf (1,1) 2 []) _ _ (by decide))⟩

/-- A key outside the key list looks up to nothing. -/
theorem lookup_none_of_not_mem {β : Type} :
    ∀ (l : List (String × β)) (k : String), k ∉ l.map Prod.fst → l.lookup k = none := by
  intro l
  induction l with
  | nil => intro k _; rfl
  | cons p rest ih =>
    intro k hk
    obtain ⟨a, b⟩ := p
    simp only [List.map_cons, List.mem_cons] at hk
    push_neg at hk
    have hbe : (k == a) = false := beq_eq_false_iff_ne.mpr hk.1
    simp only [List.lookup, hbe]
    exact ih k hk.2

/-- With distinct keys, membership determines the lookup. -/
theorem mem_lookup_of_nodup {β : Type} :
    ∀ (l : List (String × β)) (k : String) (v : β), (l.map Prod.fst).Nodup →
      (k, v) ∈ l → l.lookup k = some v := by
  intro l
  induction l with
  | nil => intro k v _ h; simp at h
  | cons p rest ih =>
    intro k v hnd h
    obtain ⟨a, b⟩ := p
    simp only [List.map_cons, List.nodup_cons] at hnd
    rcases List.mem_cons.mp h with hh | hh
    · injection hh with hk hv
      subst hk
      subst hv
      simp [List.lookup]
    · have hka : k ≠ a := fun hc => hnd.1 (hc ▸ List.mem_map_of_mem Prod.fst hh)
      have hbe : (k == a) = false := beq_eq_false_iff_ne.mpr hka
      simp only [List.lookup, hbe]
      exact ih k v hnd.2 hh

/-- Association lists with the same distinct key sequence and the same
lookups are equal. -/
theorem assoc_ext {β : Type} :
    ∀ (l l2 : List (String × β)), l2.map Prod.fst = l.map Prod.fst →
      (l.map Prod.fst).Nodup → (∀ k, l2.lookup k = l.lookup k) → l2 = l := by
  intro l
  induction l with
  | nil =>
    intro l2 hkeys _ _
    exact List.map_eq_nil_iff.mp hkeys
  | cons p rest ih =>
    intro l2 hkeys hnd hlk
    obtain ⟨a, b⟩ := p
    cases l2 with
    | nil => simp at hkeys
    | cons q rest2 =>
      obtain ⟨a2, b2⟩ := q
      simp only [List.map_cons, List.cons.injEq] at hkeys
      obtain ⟨ha, hrest⟩ := hkeys
      simp only [List.map_cons, List.nodup_cons] at hnd
      have hb : b2 = b := by
        have h1 := hlk a2
        have e1 : ((a2, b2) :: rest2).lookup a2 = some b2 := by simp [List.lookup]
        have e2 : ((a, b) :: rest).lookup a2 = some b := by
          have hbt : (a2 == a) = true := beq_iff_eq.mpr ha
          simp [List.lookup, hbt]
        rw [e1, e2] at h1
        injection h1
      have hlk2 : ∀ k2, rest2.lookup k2 = rest.lookup k2 := by
        intro k2
        by_cases hka : k2 = a
        · rw [hka]
          rw [lookup_none_of_not_mem rest a hnd.1]
          rw [lookup_none_of_not_mem rest2 a (by rw [hrest]; exact hnd.1)]
        · have hbe : (k2 == a) = false := beq_eq_false_iff_ne.mpr hka
          have hbe2 : (k2 == a2) = false :=
            beq_eq_false_iff_ne.mpr (by rw [ha]; exact hka)
          have h1 := hlk k2
          simp only [List.lookup, hbe, hbe2] at h1
          exact h1
      rw [ih rest2 hrest hnd.2 hlk2, ha, hb]

/-- `insertByScore` permutes a cons. -/
theorem insertByScore_perm (x : String × ℚ) :
    ∀ l : List (String × ℚ), (insertByScore x l).Perm (x :: l) := by
  intro l
  induction l with
  | nil => exact List.Perm.refl _
  | cons y ys ih =>
    unfold insertByScore
    by_cases hc : y.2 < x.2
    · rw [if_pos hc]
    · rw [if_neg hc]
      exact (ih.cons y).trans (List.Perm.swap x y ys)

/-- The stable descending sort permutes its input. -/
theorem sortByScoreDesc_perm (l : List (String × ℚ)) : (sortByScoreDesc l).Perm l := by
  have key : ∀ (l acc : List (String × ℚ)),
      (l.foldl (fun acc x => insertByScore x acc) acc).Perm (l ++ acc) := by
    intro l
    induction l with
    | nil => intro acc; simp
    | cons x xs ih =>
      intro acc
      have h1 := ih (insertByScore x acc)
      have h2 : (xs ++ insertByScore x acc).Perm (xs ++ x :: acc) :=
        (insertByScore_perm x acc).append_left xs
      have h3 : (xs ++ x :: acc).Perm (x :: (xs ++ acc)) := List.perm_middle
      simpa using (h1.trans h2).trans h3
  simpa using key l []

/-- The best-spot fold of `find_nearest_available_spot` only ever selects
an id from the candidate list. -/
theorem foldl_best_mem (f : Facility) (sn : String) :
    ∀ (l : List (String × ℚ)) (acc : Option String × WithTop ℕ) (sid : String),
      (l.foldl (bestByDistance f sn) acc).1 = some sid →
      acc.1 = some sid ∨ sid ∈ l.map Prod.fst := by
  intro l
  induction l with
  | nil => intro acc sid h; exact Or.inl h
  | cons p rest ih =>
    intro acc sid h
    rw [List.foldl_cons] at h
    rcases ih _ sid h with h2 | h2
    · unfold bestByDistance at h2
      cases hlk : f.spots.lookup p.1 with
      | none =>
        rw [hlk] at h2
        exact Or.inl h2
      | some spot =>
        rw [hlk] at h2
        dsimp only at h2
        by_cases hd : (dijkstra f.graph sn
            (nodeId spot.floor spot.location.1 spot.location.2)).1 < acc.2
        · rw [if_pos hd] at h2
          injection h2 with h2
          exact Or.inr (by rw [← h2]; simp)
        · rw [if_neg hd] at h2
          exact Or.inl h2
    · exact Or.inr (by simp only [List.map_cons, List.mem_cons]; exact Or.inr h2)

/-- A successful `find_nearest_available_spot` names an existing spot that
is neither occupied nor reserved (given distinct spot keys). -/
theorem find_nearest_some (f : Facility) (veh : Vehicle) (loc : Option (ℕ × ℕ × ℕ))
    (sid : String) (hnd : (f.spots.map Prod.fst).Nodup)
    (h : find_nearest_available_spot f veh loc = some sid) :
    ∃ sp, f.spots.lookup sid = some sp ∧ sp.occupied = false ∧ sp.reserved = false := by
  unfold find_nearest_available_spot at h
  by_cases hav : f.available_spots = 0
  · rw [if_pos hav] at h
    cases h
  · rw [if_neg hav] at h
    dsimp only at h
    by_cases hemp : ((f.spots.filter fun p => !p.2.occupied && !p.2.reserved).map
        fun p => (p.1, compute_spot_preference_score f p.2 veh)).isEmpty
    · rw [if_pos hemp] at h
      cases h
    · rw [if_neg hemp] at h
      rcases foldl_best_mem f _ _ _ sid h with h2 | h2
      · cases h2
      · rw [List.mem_map] at h2
        obtain ⟨q, hq, hq1⟩ := h2
        have hq2 := List.mem_of_mem_take hq
        have hq3 : q ∈ (f.spots.filter fun p => !p.2.occupied && !p.2.reserved).map
            fun p => (p.1, compute_spot_preference_score f p.2 veh) :=
          (sortByScoreDesc_perm _).mem_iff.mp hq2
        rw [List.mem_map] at hq3
        obtain ⟨r, hr, hr1⟩ := hq3
        rw [List.mem_filter] at hr
        obtain ⟨hrmem, hrflags⟩ := hr
        have hflags := Bool.and_eq_true_iff.mp hrflags
        have hocc : r.2.occupied = false := by
          have h3 := hflags.1
          cases hx : r.2.occupied
          · rfl
          · rw [hx] at h3; cases h3
        have hres : r.2.reserved = false := by
          have h3 := hflags.2
          cases hx : r.2.reserved
          · rfl
          · rw [hx] at h3; cases h3
        have hrid : r.1 = sid := by
          have h3 := congrArg Prod.fst hr1
          simp at h3
          rw [h3, hq1]
        refine ⟨r.2, ?_, hocc, hres⟩
        rw [← hrid]
        exact mem_lookup_of_nodup f.spots r.1 r.2 hnd hrmem

/-- Inserting a fresh key appends the binding. -/
theorem dictInsert_append_of_fresh {β : Type} :
    ∀ (l : List (String × β)) (k : String) (v : β), k ∉ l.map Prod.fst →
      dictInsert l k v = l ++ [(k, v)] := by
  intro l
  induction l with
  | nil => intro k v _; rfl
  | cons p rest ih =>
    intro k v hk
    obtain ⟨a, b⟩ := p
    simp only [List.map_cons, List.mem_cons] at hk
    push_neg at hk
    unfold dictInsert
    rw [if_neg (fun hc => hk.1 hc.symm)]
    rw [ih k v hk.2]
    rfl

/-- `updateSpot` only rewrites the spot list. -/
theorem updateSpot_spots (f : Facility) (sid : String) (sp : Spot) :
    (updateSpot f sid sp).spots = updateSpotList f.spots sid sp := rfl

/-- `updateSpot` preserves the every-field-but-spots shape. -/
theorem updateSpot_shape (f g : Facility) (sid : String) (sp : Spot)
    (h : g = { f with spots := g.spots }) :
    updateSpot g sid sp = { f with spots := (updateSpot g sid sp).spots } := by
  conv_lhs => rw [h]
  rfl

/-- Resetting the reservation fields of an unreserved spot changes
nothing. -/
theorem spot_unreserve_id (sp : Spot) (hres : sp.reserved = false)
    (huntil : sp.reserved_until = none) :
    ({ sp with reserved := false, reserved_until := none } : Spot) = sp := by
  cases sp
  simp_all

/-- One `nearest_spot_assignment` step preserves the invariant; the
assignment keys grow by at most the vehicle's id. -/
theorem nearestStep_inv (f : Facility) (hnd : (f.spots.map Prod.fst).Nodup)
    (hwfres : ∀ p ∈ f.spots, p.2.reserved = false → p.2.reserved_until = none)
    (start : ℕ × ℕ × ℕ) (clock : ℕ → ℚ) (n : ℕ) (fc : Facility)
    (asg : List (String × String)) (hinv : NearInv f fc asg) (v : Vehicle)
    (hfresh : v.id ∉ asg.map Prod.fst) :
    NearInv f (nearestStep start clock (n, fc, asg) v).2.1
      (nearestStep start clock (n, fc, asg) v).2.2 ∧
    ((nearestStep start clock (n, fc, asg) v).2.2.map Prod.fst = asg.map Prod.fst ∨
     (nearestStep start clock (n, fc, asg) v).2.2.map Prod.fst =
       asg.map Prod.fst ++ [v.id]) := by
  unfold nearestStep
  cases hfind : find_nearest_available_spot fc v (some start) with
  | none => exact ⟨hinv, Or.inl rfl⟩
  | some sid =>
    dsimp only
    have hndfc : (fc.spots.map Prod.fst).Nodup := by rw [hinv.keys]; exact hnd
    obtain ⟨sp, hlk, hocc, hres⟩ := find_nearest_some fc v (some start) sid hndfc hfind
    have hsid_not : sid ∉ asg.map Prod.snd := by
      intro hin
      rw [List.mem_map] at hin
      obtain ⟨q, hq, hq2⟩ := hin
      obtain ⟨sp0, _, _, _, _, t, hlk0⟩ := hinv.reserved_mem q hq
      rw [hq2] at hlk0
      rw [hlk0] at hlk
      injection hlk with hlk
      have hbad : sp.reserved = true := by rw [← hlk]
      rw [hres] at hbad
      cases hbad
    have hlkf : f.spots.lookup sid = some sp := by
      rw [← hinv.untouched sid hsid_not]
      exact hlk
    have hwu : sp.reserved_until = none :=
      hwfres (sid, sp) (lookup_mem f.spots sid sp hlkf) hres
    simp only [hlk]
    have hrsv : (sp.reserve 30 (clock n)).2 =
        { sp with reserved := true, reserved_until := some (clock n + 30 * 60) } := by
      unfold Spot.reserve
      rw [hocc, hres]
      rfl
    rw [hrsv]
    rw [dictInsert_append_of_fresh asg v.id sid hfresh]
    constructor
    · refine ⟨?_, ?_, ?_, ?_, ?_⟩
      · rw [updateSpot_spots, keys_updateSpotList]
        exact hinv.keys
      · simp only [List.map_append]
        refine List.Nodup.append hinv.vals_nodup (by simp) ?_
        intro a ha hb
        simp only [List.map_cons, List.map_nil, List.mem_singleton] at hb
        rw [hb] at ha
        exact hsid_not ha
      · intro q hq
        rcases List.mem_append.mp hq with hq2 | hq2
        · obtain ⟨sp0, h1, h2, h3, h4, t, h5⟩ := hinv.reserved_mem q hq2
          have hne : q.2 ≠ sid :=
            fun hc => hsid_not (hc ▸ List.mem_map_of_mem Prod.snd hq2)
          refine ⟨sp0, h1, h2, h3, h4, t, ?_⟩
          rw [updateSpot_spots, lookup_updateSpotList_other fc.spots sid q.2 _ hne]
          exact h5
        · simp only [List.mem_singleton] at hq2
          rw [hq2]
          refine ⟨sp, hlkf, hocc, hres, hwu, clock n + 30 * 60, ?_⟩
          rw [updateSpot_spots]
          exact lookup_updateSpotList_self fc.spots sid sp _ hlk
      · intro k hk
        simp only [List.map_append, List.map_cons, List.map_nil, List.mem_append,
          List.mem_singleton] at hk
        push_neg at hk
        rw [updateSpot_spots, lookup_updateSpotList_other fc.spots sid k _ hk.2]
        exact hinv.untouched k hk.1
      · exact updateSpot_shape f fc sid _ hinv.shape
    · right
      simp

/-- The assignment loop of `nearest_spot_assignment` preserves the
invariant, for any batch with distinct ids fresh for the accumulator. -/
theorem nearestLoop_inv (f : Facility) (hnd : (f.spots.map Prod.fst).Nodup)
    (hwfres : ∀ p ∈ f.spots, p.2.reserved = false → p.2.reserved_until = none)
    (start : ℕ × ℕ × ℕ) (clock : ℕ → ℚ) :
    ∀ (vehicles : List Vehicle) (n : ℕ) (fc : Facility) (asg : List (String × String)),
      NearInv f fc asg → (vehicles.map Vehicle.id).Nodup →
      (∀ v ∈ vehicles, v.id ∉ asg.map Prod.fst) →
      NearInv f (vehicles.foldl (nearestStep start clock) (n, fc, asg)).2.1
        (vehicles.foldl (nearestStep start clock) (n, fc, asg)).2.2 := by
  intro vehicles
  induction vehicles with
  | nil => intro n fc asg hinv _ _; exact hinv
  | cons v vs ih =>
    intro n fc asg hinv hnodup hfr
    rw [List.foldl_cons]
    obtain ⟨hinv2, hkeys2⟩ := nearestStep_inv f hnd hwfres start clock n fc asg hinv v
      (hfr v (List.mem_cons_self _ _))
    simp only [List.map_cons, List.nodup_cons] at hnodup
    have hfr2 : ∀ w ∈ vs, w.id ∉
        (nearestStep start clock (n, fc, asg) v).2.2.map Prod.fst := by
      intro w hw
      have hwid : w.id ≠ v.id := by
        intro hc
        exact hnodup.1 (hc ▸ List.mem_map_of_mem Vehicle.id hw)
      rcases hkeys2 with hk | hk
      · rw [hk]
        exact hfr w (List.mem_cons_of_mem _ hw)
      · rw [hk]
        intro hmem
        rcases List.mem_append.mp hmem with hm | hm
        · exact hfr w (List.mem_cons_of_mem _ hw) hm
        · simp only [List.mem_singleton] at hm
          exact hwid hm
    exact ih (nearestStep start clock (n, fc, asg) v).1
      (nearestStep start clock (n, fc, asg) v).2.1
      (nearestStep start clock (n, fc, asg) v).2.2 hinv2 hnodup.2 hfr2

/-- Cancelling the reservations of all pending values restores the
pristine facility. -/
theorem cancelLoop_restore (f : Facility) (hnd : (f.spots.map Prod.fst).Nodup) :
    ∀ (asg : List (String × String)) (fc : Facility), NearInv f fc asg →
      (asg.foldl (fun fc p =>
        match fc.spots.lookup p.2 with
        | none => fc
        | some sp => updateSpot fc p.2 (sp.cancel_reservation).2) fc) = f := by
  intro asg
  induction asg with
  | nil =>
    intro fc hinv
    have hspots : fc.spots = f.spots := assoc_ext f.spots fc.spots hinv.keys hnd
      (fun k => hinv.untouched k (by simp))
    rw [List.foldl_nil, hinv.shape, hspots]
  | cons q rest ih =>
    intro fc hinv
    rw [List.foldl_cons]
    obtain ⟨sp, hlkf, hocc, hres, huntil, t, hlkfc⟩ :=
      hinv.reserved_mem q (List.mem_cons_self _ _)
    simp only [hlkfc]
    have hcanc :
        (({ sp with reserved := true, reserved_until := some t } : Spot).cancel_reservation).2
          = sp := by
      have h1 :
          (({ sp with reserved := true, reserved_until := some t } : Spot).cancel_reservation).2
            = ({ sp with reserved := false, reserved_until := none } : Spot) := rfl
      rw [h1]
      exact spot_unreserve_id sp hres huntil
    rw [hcanc]
    have hvn : (q.2 :: rest.map Prod.snd).Nodup := by
      have h2 := hinv.vals_nodup
      rw [List.map_cons] at h2
      exact h2
    have hnodups := List.nodup_cons.mp hvn
    refine ih (updateSpot fc q.2 sp) ⟨?_, ?_, ?_, ?_, ?_⟩
    · rw [updateSpot_spots, keys_updateSpotList]
      exact hinv.keys
    · exact hnodups.2
    · intro q2 hq2
      obtain ⟨sp0, h1, h2, h3, h4, t2, h5⟩ :=
        hinv.reserved_mem q2 (List.mem_cons_of_mem _ hq2)
      have hne : q2.2 ≠ q.2 := by
        intro hc
        exact hnodups.1 (hc ▸ List.mem_map_of_mem Prod.snd hq2)
      refine ⟨sp0, h1, h2, h3, h4, t2, ?_⟩
      rw [updateSpot_spots, lookup_updateSpotList_other fc.spots q.2 q2.2 _ hne]
      exact h5
    · intro k hk
      by_cases hkq : k = q.2
      · rw [hkq, updateSpot_spots]
        rw [lookup_updateSpotList_self fc.spots q.2 _ sp hlkfc]
        exact hlkf.symm
      · rw [updateSpot_spots, lookup_updateSpotList_other fc.spots q.2 k _ hkq]
        refine hinv.untouched k ?_
        simp only [List.map_cons, List.mem_cons]
        push_neg
        exact ⟨hkq, hk⟩
    · exact updateSpot_shape f fc q.2 _ hinv.shape

/-- C6 amended: for every facility with distinct spot keys whose
unreserved spots carry no reservation timestamp, and every vehicle batch
with pairwise-distinct ids, `nearest_spot_assignment` returns the facility
to exactly its pre-call state: every spot's flags, occupant and timestamps
and all counters and statistics are unchanged. -/
theorem C6_nearest_frame (f : Facility) (vehicles : List Vehicle)
    (starting_pos : Option (ℕ × ℕ × ℕ)) (clock : ℕ → ℚ)
    (hnd : (f.spots.map Prod.fst).Nodup)
    (hwfres : ∀ p ∈ f.spots, p.2.reserved = false → p.2.reserved_until = none)
    (hids : (vehicles.map Vehicle.id).Nodup) :
    (nearest_spot_assignment f vehicles starting_pos clock).2 = f := by
  unfold nearest_spot_assignment
  dsimp only
  have hinit : NearInv f f [] := by
    refine ⟨rfl, List.nodup_nil, ?_, fun k _ => rfl, rfl⟩
    intro q hq
    simp at hq
  have hloop := nearestLoop_inv f hnd hwfres
    (match starting_pos with
     | some p => p
     | none => (0, f.entrances.headD (0, 0))) clock vehicles 0 f [] hinit hids (by simp)
  exact cancelLoop_restore f hnd _ _ hloop

/-- C6 counterexample: with two vehicles sharing the id `"A"`, the second
assignment overwrites the first in the `assignments` dict, so the cleanup
pass cancels only the second spot and `"s1"` is left reserved after the
call — the facility is not returned to its pre-call state. -/
theorem C6_counterexample :
    (((nearest_spot_assignment facC6 [vehC6, vehC6] none
        (fun _ => 0)).2.spots.lookup "s1").map (fun sp => sp.reserved)) = some true ∧
    ((facC6.spots.lookup "s1").map (fun sp => sp.reserved)) = some false := by
  constructor
  · with_unfolding_all decide
  · with_unfolding_all decide

/-- Closed instance of `C6_nearest_frame`: a batch of two distinct-id
vehicles on `facW` leaves the facility exactly as it was. -/
theorem C6_witness :
    ((facW.spots.map Prod.fst).Nodup) ∧
    (∀ p ∈ facW.spots, p.2.reserved = false → p.2.reserved_until = none) ∧
    (([vehW, vehW2].map Vehicle.id).Nodup) ∧
    (nearest_spot_assignment facW [vehW, vehW2] none (fun _ => 0)).2 = facW :=
  ⟨by decide, by decide, by decide,
   C6_nearest_frame facW [vehW, vehW2] none (fun _ => 0) (by decide) (by decide) (by decide)⟩

/-- All ways to pick, in order, one distinct column index below `n` for
each of `m` rows (the feasible one-to-one row→column assignments). -/
def picks : ℕ → ℕ → List (List ℕ)
  | 0, _ => [[]]
  | m + 1, n => (List.range n).flatMap fun j =>
      (picks m n).filterMap fun rest => if j ∈ rest then none else some (j :: rest)

/-- Total cost of a column selection, row `i` paying `C i (sel i)`;
`⊤` models the infinite matrix entries Python would produce. -/
def totalCostAux (C : ℕ → ℕ → WithTop ℚ) : ℕ → List ℕ → WithTop ℚ
  | _, [] => 0
  | i, j :: rest => C i j + totalCostAux C (i + 1) rest

/-- Total cost of a selection starting at row 0. -/
def totalCost (C : ℕ → ℕ → WithTop ℚ) (sel : List ℕ) : WithTop ℚ :=
  totalCostAux C 0 sel

/-- First minimiser of `g` in a non-empty candidate list. -/
def argminList (g : List ℕ → WithTop ℚ) : List (List ℕ) → Option (List ℕ)
  | [] => none
  | x :: xs => some (xs.foldl (fun best z => if g z < g best then z else best) x)

/-- Modelled from the spec: `scipy.optimize.linear_sum_assignment` solves
the assignment problem exactly, returning for each row a distinct column
such that the summed cost is minimal among all feasible one-to-one
assignments (ties broken by enumeration order here). -/
def linear_sum_assignment (C : ℕ → ℕ → WithTop ℚ) (m n : ℕ) : List ℕ :=
  (argminList (totalCost C) (picks m n)).getD []

/-- The available-spot ids of `hungarian_assignment`, in dict order. -/
def hungarianAvailable (f : Facility) : List String :=
  (f.spots.filter fun p => !p.2.occupied && !p.2.reserved).map Prod.fst

/-- `vehicles[:len(available_spots)]`. -/
def hungarianVehicles (f : Facility) (vehicles : List Vehicle) : List Vehicle :=
  vehicles.take (hungarianAvailable f).length

/-- The candidate spot subset: when spots outnumber vehicles, keep the
first `len(vehicles) * min(2, len(available) // len(vehicles))` ids. -/
def hungarianSpots (f : Facility) (vehicles : List Vehicle) : List String :=
  if (hungarianVehicles f vehicles).length < (hungarianAvailable f).length then
    (hungarianAvailable f).take ((hungarianVehicles f vehicles).length *
      min 2 ((hungarianAvailable f).length / (hungarianVehicles f vehicles).length))
  else hungarianAvailable f

/-- The cost matrix of `hungarian_assignment`:
`max(0.1, dijkstraDistance(start, spot) - preferenceScore/5)`, infinite
when the spot is unreachable (out-of-range indices also cost `⊤`; they
never arise in a feasible selection). -/
def hungarianCost (f : Facility) (starting_pos : Option (ℕ × ℕ × ℕ))
    (vehicles : List Vehicle) : ℕ → ℕ → WithTop ℚ := fun i j =>
  match (hungarianVehicles f vehicles).get? i, (hungarianSpots f vehicles).get? j with
  | some veh, some sid =>
    match f.spots.lookup sid with
    | none => ⊤
    | some spot =>
      let start : ℕ × ℕ × ℕ :=
        match starting_pos with
        | some p => p
        | none => (0, ((f.entrances.headD (0, 0)).1, (f.entrances.headD (0, 0)).2))
      WithTop.map
        (fun d : ℕ =>
          max (1 / 10) ((d : ℚ) - compute_spot_preference_score f spot veh / 5))
        (dijkstra f.graph (nodeId start.1 start.2.1 start.2.2)
          (nodeId spot.floor spot.location.1 spot.location.2)).1
  | _, _ => ⊤

/-- Build the returned dict `assignments[vehicles[i].id] = spots[sel[i]]`. -/
def hungarianBuild (vs : List Vehicle) (spots : List String) (sel : List ℕ) :
    List (String × String) :=
  (List.range vs.length).foldl (fun a i =>
    match vs.get? i, (sel.get? i).bind spots.get? with
    | some veh, some sid => dictInsert a veh.id sid
    | _, _ => a) []

/-- `ComparisonAlgorithms.hungarian_assignment`. -/
def hungarian_assignment (f : Facility) (vehicles : List Vehicle)
    (starting_pos : Option (ℕ × ℕ × ℕ)) : List (String × String) :=
  if vehicles.isEmpty || (hungarianAvailable f).isEmpty then []
  else hungarianBuild (hungarianVehicles f vehicles) (hungarianSpots f vehicles)
    (linear_sum_assignment (hungarianCost f starting_pos vehicles)
      (hungarianVehicles f vehicles).length (hungarianSpots f vehicles).length)

/-- The strict-improvement fold attains the minimum over its candidates. -/
theorem foldl_argmin_le (g : List ℕ → WithTop ℚ) :
    ∀ (xs : List (List ℕ)) (x y : List ℕ), y ∈ x :: xs →
      g (xs.foldl (fun best z => if g z < g best then z else best) x) ≤ g y := by
  intro xs
  induction xs with
  | nil =>
    intro x y hy
    simp only [List.mem_singleton] at hy
    rw [List.foldl_nil, hy]
  | cons z zs ih =>
    intro x y hy
    rw [List.foldl_cons]
    have hstep : g (if g z < g x then z else x) ≤ g x ∧
        g (if g z < g x then z else x) ≤ g z := by
      by_cases hc : g z < g x
      · rw [if_pos hc]
        exact ⟨le_of_lt hc, le_refl _⟩
      · rw [if_neg hc]
        exact ⟨le_refl _, le_of_not_lt hc⟩
    rcases List.mem_cons.mp hy with hy1 | hy2
    · rw [hy1]
      exact le_trans (ih _ _ (List.mem_cons_self _ _)) hstep.1
    · rcases List.mem_cons.mp hy2 with hy3 | hy3
      · rw [hy3]
        exact le_trans (ih _ _ (List.mem_cons_self _ _)) hstep.2
      · exact ih _ y (List.mem_cons_of_mem _ hy3)

/-- `picks` is complete: every duplicate-free in-range selection occurs. -/
theorem mem_picks : ∀ (sel : List ℕ) (n : ℕ), (∀ j ∈ sel, j < n) → sel.Nodup →
    sel ∈ picks sel.length n := by
  intro sel
  induction sel with
  | nil => intro n _ _; exact List.mem_singleton.mpr rfl
  | cons j rest ih =>
    intro n hlt hnd
    rw [List.nodup_cons] at hnd
    show j :: rest ∈ picks (rest.length + 1) n
    unfold picks
    rw [List.mem_flatMap]
    refine ⟨j, List.mem_range.mpr (hlt j (List.mem_cons_self _ _)), ?_⟩
    rw [List.mem_filterMap]
    refine ⟨rest, ih n (fun j2 hj2 => hlt j2 (List.mem_cons_of_mem _ hj2)) hnd.2, ?_⟩
    rw [if_neg hnd.1]

/-- C4: the selection `hungarian_assignment` zips into its returned
mapping has total cost (under the source's cost matrix
`max(0.1, distance - preference/5)`) at most that of every feasible
one-to-one mapping of the participating vehicles into the candidate spot
set; the returned dict is built from exactly that selection.
(`linear_sum_assignment` is modelled from the spec.) -/
theorem C4_hungarian_optimal (f : Facility) (vehicles : List Vehicle)
    (starting_pos : Option (ℕ × ℕ × ℕ)) (sel : List ℕ)
    (hlen : sel.length = (hungarianVehicles f vehicles).length)
    (hlt : ∀ j ∈ sel, j < (hungarianSpots f vehicles).length)
    (hnd : sel.Nodup) :
    totalCost (hungarianCost f starting_pos vehicles)
      (linear_sum_assignment (hungarianCost f starting_pos vehicles)
        (hungarianVehicles f vehicles).length (hungarianSpots f vehicles).length) ≤
      totalCost (hungarianCost f starting_pos vehicles) sel ∧
    (vehicles.isEmpty = false → (hungarianAvailable f).isEmpty = false →
      hungarian_assignment f vehicles starting_pos =
        hungarianBuild (hungarianVehicles f vehicles) (hungarianSpots f vehicles)
          (linear_sum_assignment (hungarianCost f starting_pos vehicles)
            (hungarianVehicles f vehicles).length (hungarianSpots f vehicles).length)) := by
  constructor
  · have hmem : sel ∈ picks (hungarianVehicles f vehicles).length
        (hungarianSpots f vehicles).length := by
      rw [← hlen]
      exact mem_picks sel _ hlt hnd
    unfold linear_sum_assignment
    cases hp : picks (hungarianVehicles f vehicles).length
        (hungarianSpots f vehicles).length with
    | nil =>
      rw [hp] at hmem
      cases hmem
    | cons x xs =>
      rw [hp] at hmem
      simp only [argminList, Option.getD_some]
      exact foldl_argmin_le (totalCost (hungarianCost f starting_pos vehicles)) xs x sel hmem
  · intro h1 h2
    unfold hungarian_assignment
    rw [if_neg (by rw [h1, h2]; simp)]

/-- Closed instance of `C4_hungarian_optimal` on `facW` with one vehicle
and the only feasible selection `[0]`. -/
theorem C4_witness :
    ([0].length = (hungarianVehicles facW [vehW]).length) ∧
    (∀ j ∈ [0], j < (hungarianSpots facW [vehW]).length) ∧
    ([0] : List ℕ).Nodup ∧
    (totalCost (hungarianCost facW none [vehW])
      (linear_sum_assignment (hungarianCost facW none [vehW])
        (hungarianVehicles facW [vehW]).length (hungarianSpots facW [vehW]).length) ≤
      totalCost (hungarianCost facW none [vehW]) [0]) :=
  ⟨by decide, by decide, by decide,
   (C4_hungarian_optimal facW [vehW] none [0] (by decide) (by decide) (by decide)).1⟩

/-- Payload of a simulator event: a vehicle for arrivals, a spot id for
departures. -/
inductive EvPayload where
  | veh (v : Vehicle)
  | spot (sid : String)
deriving DecidableEq, Repr

/-- A heap entry `(time, kind, data)`; kind 0 models `"arrival"`, kind 1
models `"departure"` (the source's tuple comparison orders equal times by
that string, and `"arrival" < "departure"`). -/
def SimEvent : Type := WithTop ℚ × ℕ × EvPayload

instance : DecidableEq SimEvent := by
  unfold SimEvent
  infer_instance

/-- Results of the random draws and wall-clock reads the simulator makes,
one stream per sampling function, consumed in call order. -/
structure Streams where
  expo : ℕ → ℚ
  choice : ℕ → String
  normal : ℕ → ℚ
  unif : ℕ → ℚ
  wall : ℕ → ℚ

/-- `SmartParkingSimulator` state (the visualisation fields are omitted;
the five counters index the draw streams). -/
structure SimState where
  facility : Facility
  simulation_time : ℚ
  vehicle_id_counter : ℕ
  events : List SimEvent
  arrival_rate : ℚ
  avg_parking_duration : ℚ
  time_of_day : ℚ
  day_of_week : ℕ
  is_running : Bool
  nExpo : ℕ
  nChoice : ℕ
  nNormal : ℕ
  nUnif : ℕ
  nWall : ℕ

/-- Strict heap order on events: by time, then by kind string. -/
def evLt (a b : SimEvent) : Bool :=
  a.1 < b.1 || (a.1 = b.1 && a.2.1 < b.2.1)

/-- Select a minimal event (first minimum, as `heapq` pops the root). -/
def simSelMin : SimEvent → List SimEvent → SimEvent × List SimEvent
  | e, [] => (e, [])
  | e, x :: xs =>
    if evLt x e then
      let r := simSelMin x xs
      (r.1, e :: r.2)
    else
      let r := simSelMin e xs
      (r.1, x :: r.2)

/-- Pop the minimal event, if any. -/
def simPopMin : List SimEvent → Option (SimEvent × List SimEvent)
  | [] => none
  | x :: xs => some (simSelMin x xs)

/-- The rush-hour table of `_adjust_arrival_rate`. -/
def time_factors : List (ℕ × ℚ) :=
  [(6, 1/2), (7, 1), (8, 2), (9, 3/2), (12, 6/5), (13, 6/5),
   (16, 3/2), (17, 2), (18, 9/5), (19, 1)]

/-- `SmartParkingSimulator._adjust_arrival_rate`. -/
def adjust_arrival_rate (st : SimState) : ℚ :=
  let hour : ℕ := (⌊st.time_of_day⌋).toNat
  let time_factor := (time_factors.lookup hour).getD (1/2)
  let weekend_factor : ℚ := if st.day_of_week = 0 ∨ st.day_of_week = 6 then 3/5 else 1
  st.arrival_rate * time_factor * weekend_factor

/-- `SmartParkingSimulator._generate_random_vehicle` (consumes one type
draw, one duration draw and three preference draws; only the
`near_entrance` preference is ever read downstream). -/
def generate_random_vehicle (s : Streams) (st : SimState) (arrival_time : WithTop ℚ) :
    Vehicle × SimState :=
  let v : Vehicle :=
    { id := "V" ++ toString st.vehicle_id_counter,
      type := s.choice st.nChoice,
      arrival_time := arrival_time.untop' 0,
      expected_duration := max 15 (s.normal st.nNormal),
      assigned_spot := none,
      near_entrance := decide (s.unif st.nUnif < 3/5) }
  (v,
   { st with
     vehicle_id_counter := st.vehicle_id_counter + 1,
     nChoice := st.nChoice + 1,
     nNormal := st.nNormal + 1,
     nUnif := st.nUnif + 3 })

/-- `SmartParkingSimulator._schedule_next_arrival`: with a positive
adjusted rate the gap is the next exponential draw, otherwise the arrival
time is infinite — and the event is pushed either way. -/
def schedule_next_arrival (s : Streams) (st : SimState) : SimState :=
  let adjusted_rate := adjust_arrival_rate st
  let drawn : WithTop ℚ × ℕ :=
    if 0 < adjusted_rate then (((s.expo st.nExpo : ℚ) : WithTop ℚ), st.nExpo + 1)
    else ((⊤ : WithTop ℚ), st.nExpo)
  let arrival_time : WithTop ℚ := (st.simulation_time : WithTop ℚ) + drawn.1
  let g := generate_random_vehicle s { st with nExpo := drawn.2 } arrival_time
  { g.2 with events := (arrival_time, 0, EvPayload.veh g.1) :: g.2.events }

/-- `SmartParkingSimulator._process_vehicle_arrival`. -/
def process_vehicle_arrival (s : Streams) (st : SimState) (v : Vehicle) : SimState :=
  let r := assign_vehicle_to_spot st.facility v none (s.wall st.nWall)
  if r.1 then
    let st1 := { st with facility := r.2.1, nWall := st.nWall + 1 }
    let departure_time : ℚ := st.simulation_time + r.2.2.expected_duration
    let st2 := { st1 with
      events := (((departure_time : ℚ) : WithTop ℚ), 1,
        EvPayload.spot ((r.2.2.assigned_spot).getD "")) :: st1.events }
    schedule_next_arrival s st2
  else schedule_next_arrival s st

/-- `SmartParkingSimulator._process_vehicle_departure`. -/
def process_vehicle_departure (s : Streams) (st : SimState) (sid : String) : SimState :=
  let r := vacate_spot st.facility sid (s.wall st.nWall)
  match r.1 with
  | none => { st with facility := r.2 }
  | some _ => { st with facility := r.2, nWall := st.nWall + 1 }

/-- Dispatch one popped event by its kind string. -/
def dispatchEvent (s : Streams) (st1 : SimState) (ev : SimEvent) : SimState :=
  if ev.2.1 = 0 then
    match ev.2.2 with
    | EvPayload.veh v => process_vehicle_arrival s st1 v
    | EvPayload.spot _ => st1
  else if ev.2.1 = 1 then
    match ev.2.2 with
    | EvPayload.spot sid => process_vehicle_departure s st1 sid
    | EvPayload.veh _ => st1
  else st1

/-- The `while self.events and self.events[0][0] <= target_time` loop of
`step_simulation`, with fuel. -/
def stepLoop (s : Streams) (target_time : ℚ) : ℕ → SimState → SimState
  | 0, st => st
  | fuel + 1, st =>
    match simPopMin st.events with
    | none => st
    | some (ev, rest) =>
      if ev.1 ≤ ((target_time : ℚ) : WithTop ℚ) then
        stepLoop s target_time fuel
          (dispatchEvent s
            { st with
              events := rest,
              simulation_time := ev.1.untop' st.simulation_time } ev)
      else st

/-- Python `%` on a nonnegative rational: `a - 1440 * ⌊a / 1440⌋`. -/
def qmod1440 (a : ℚ) : ℚ := a - 1440 * ⌊a / 1440⌋

/-- `SmartParkingSimulator.step_simulation`. -/
def step_simulation (s : Streams) (fuel : ℕ) (st : SimState) (time_step : ℚ) : SimState :=
  if st.is_running = false then st
  else
    let target_time := st.simulation_time + time_step
    let st1 := stepLoop s target_time fuel st
    { st1 with
      simulation_time := target_time,
      time_of_day := qmod1440 target_time / 60,
      day_of_week := (⌊target_time / (24 * 60)⌋).toNat % 7 }

/-- `simSelMin` permutes the pool. -/
theorem simSelMin_perm : ∀ (l : List SimEvent) (e : SimEvent),
    (e :: l).Perm ((simSelMin e l).1 :: (simSelMin e l).2) := by
  intro l
  induction l with
  | nil => intro e; exact List.Perm.refl _
  | cons x xs ih =>
    intro e
    unfold simSelMin
    by_cases hc : evLt x e = true
    · rw [if_pos hc]
      dsimp only
      exact ((ih x).cons e).trans (List.Perm.swap _ _ _)
    · rw [if_neg hc]
      dsimp only
      exact (List.Perm.swap x e xs).trans (((ih e).cons x).trans (List.Perm.swap _ _ _))

/-- `simPopMin` permutes the queue into popped element and remainder. -/
theorem simPopMin_perm (l : List SimEvent) (ev : SimEvent) (rest : List SimEvent)
    (h : simPopMin l = some (ev, rest)) : l.Perm (ev :: rest) := by
  cases l with
  | nil => cases h
  | cons x xs =>
    unfold simPopMin at h
    injection h with h
    have := simSelMin_perm xs x
    rw [h] at this
    exact this

/-- `stepLoop` on an empty queue stops. -/
theorem stepLoop_eq_none (s : Streams) (target : ℚ) (fuel : ℕ) (st : SimState)
    (hpop : simPopMin st.events = none) : stepLoop s target (fuel + 1) st = st := by
  simp only [stepLoop, hpop]

/-- One unfolding of `stepLoop` after a successful pop. -/
theorem stepLoop_eq_pop (s : Streams) (target : ℚ) (fuel : ℕ) (st : SimState)
    (ev : SimEvent) (rest : List SimEvent)
    (hpop : simPopMin st.events = some (ev, rest)) :
    stepLoop s target (fuel + 1) st =
      if ev.1 ≤ ((target : ℚ) : WithTop ℚ) then
        stepLoop s target fuel
          (dispatchEvent s
            { st with
              events := rest,
              simulation_time := ev.1.untop' st.simulation_time } ev)
      else st := by
  simp only [stepLoop, hpop]

/-- `vacate_spot` never touches the total-vehicles statistic. -/
theorem vacate_stat_total (f : Facility) (sid : String) (now : ℚ) :
    (vacate_spot f sid now).2.stat_total_vehicles = f.stat_total_vehicles := by
  rcases vacate_shape f sid now with h | ⟨sp, _, _, h⟩
  · rw [h]
  · rw [h]
    rfl

/-- Departure processing leaves the queue, the id counter and the
total-vehicles statistic alone. -/
theorem processDep_fields (s : Streams) (st : SimState) (sid : String) :
    (process_vehicle_departure s st sid).events = st.events ∧
    (process_vehicle_departure s st sid).vehicle_id_counter = st.vehicle_id_counter ∧
    (process_vehicle_departure s st sid).facility.stat_total_vehicles =
      st.facility.stat_total_vehicles := by
  unfold process_vehicle_departure
  dsimp only
  cases h : (vacate_spot st.facility sid (s.wall st.nWall)).1 with
  | none => exact ⟨rfl, rfl, vacate_stat_total st.facility sid (s.wall st.nWall)⟩
  | some d => exact ⟨rfl, rfl, vacate_stat_total st.facility sid (s.wall st.nWall)⟩

/-- While every arrival in the queue sits at time `⊤`, the event loop can
only process departures: the all-arrivals-at-`⊤` property is preserved and
neither the vehicle id counter nor the total-vehicles statistic moves. -/
theorem stepLoop_no_arrival (s : Streams) (target : ℚ) :
    ∀ (fuel : ℕ) (st : SimState), (∀ ev ∈ st.events, ev.2.1 = 0 → ev.1 = ⊤) →
      (∀ ev ∈ (stepLoop s target fuel st).events, ev.2.1 = 0 → ev.1 = ⊤) ∧
      (stepLoop s target fuel st).vehicle_id_counter = st.vehicle_id_counter ∧
      (stepLoop s target fuel st).facility.stat_total_vehicles =
        st.facility.stat_total_vehicles := by
  intro fuel
  induction fuel with
  | zero => intro st h; exact ⟨h, rfl, rfl⟩
  | succ fuel ih =>
    intro st h
    cases hpop : simPopMin st.events with
    | none =>
      rw [stepLoop_eq_none s target fuel st hpop]
      exact ⟨h, rfl, rfl⟩
    | some p =>
      obtain ⟨ev, rest⟩ := p
      have hperm := simPopMin_perm st.events ev rest hpop
      rw [stepLoop_eq_pop s target fuel st ev rest hpop]
      by_cases hle : ev.1 ≤ ((target : ℚ) : WithTop ℚ)
      · rw [if_pos hle]
        have hmem : ev ∈ st.events := hperm.mem_iff.mpr (List.mem_cons_self _ _)
        have hkind : ¬ev.2.1 = 0 := by
          intro hk
          rw [h ev hmem hk] at hle
          have : ((target : ℚ) : WithTop ℚ) = ⊤ := top_le_iff.mp hle
          exact WithTop.coe_ne_top this
        have hrest : ∀ ev2 ∈ rest, ev2.2.1 = 0 → ev2.1 = ⊤ :=
          fun ev2 hev2 => h ev2 (hperm.mem_iff.mpr (List.mem_cons_of_mem _ hev2))
        set st1 : SimState :=
          { st with
            events := rest,
            simulation_time := ev.1.untop' st.simulation_time } with hst1
        have hdisp : (dispatchEvent s st1 ev).events = rest ∧
            (dispatchEvent s st1 ev).vehicle_id_counter = st.vehicle_id_counter ∧
            (dispatchEvent s st1 ev).facility.stat_total_vehicles =
              st.facility.stat_total_vehicles := by
          unfold dispatchEvent
          rw [if_neg hkind]
          by_cases h1 : ev.2.1 = 1
          · rw [if_pos h1]
            cases hpay : ev.2.2 with
            | veh v => exact ⟨rfl, rfl, rfl⟩
            | spot sid =>
              obtain ⟨he, hc, hs⟩ := processDep_fields s st1 sid
              exact ⟨he, hc, hs⟩
          · rw [if_neg h1]
            exact ⟨rfl, rfl, rfl⟩
        have hrest2 : ∀ ev2 ∈ (dispatchEvent s st1 ev).events, ev2.2.1 = 0 → ev2.1 = ⊤ := by
          rw [hdisp.1]
          exact hrest
        obtain ⟨ha, hb, hc⟩ := ih (dispatchEvent s st1 ev) hrest2
        exact ⟨ha, by rw [hb, hdisp.2.1], by rw [hc, hdisp.2.2]⟩
      · rw [if_neg hle]
        exact ⟨h, rfl, rfl⟩

/-- C9 (amended): when the adjusted arrival rate is 0 at scheduling time,
`_schedule_next_arrival` does push an arrival event — at time `⊤` — onto
the queue (contrary to the spec's "no arrival event is added"), but no
arrival is ever processed afterwards: while every queued arrival sits at
time `⊤`, any `step_simulation` preserves that property and neither the
vehicle id counter nor the total-vehicles statistic ever moves. -/
theorem C9_rate_zero (s : Streams) (st : SimState) (d : ℚ) (fuel : ℕ)
    (hrate : adjust_arrival_rate st = 0)
    (htop : ∀ ev ∈ st.events, ev.2.1 = 0 → ev.1 = ⊤) :
    (∃ v, (schedule_next_arrival s st).events =
        ((⊤ : WithTop ℚ), 0, EvPayload.veh v) :: st.events ∧
      (schedule_next_arrival s st).vehicle_id_counter = st.vehicle_id_counter + 1) ∧
    ((∀ ev ∈ (step_simulation s fuel st d).events, ev.2.1 = 0 → ev.1 = ⊤) ∧
     (step_simulation s fuel st d).vehicle_id_counter = st.vehicle_id_counter ∧
     (step_simulation s fuel st d).facility.stat_total_vehicles =
       st.facility.stat_total_vehicles) := by
  constructor
  · unfold schedule_next_arrival
    dsimp only
    rw [hrate]
    rw [if_neg (lt_irrefl (0 : ℚ))]
    dsimp only
    refine ⟨(generate_random_vehicle s { st with nExpo := st.nExpo } ⊤).1, ?_, rfl⟩
    rw [WithTop.add_top]
    rfl
  · unfold step_simulation
    by_cases hrun : st.is_running = false
    · rw [if_pos hrun]
      exact ⟨htop, rfl, rfl⟩
    · rw [if_neg hrun]
      dsimp only
      obtain ⟨ha, hb, hc⟩ := stepLoop_no_arrival s (st.simulation_time + d) fuel st htop
      exact ⟨ha, hb, hc⟩

/-- Streams for the simulator counterexamples and witnesses. -/
def streams0 : Streams :=
  { expo := fun _ => 1, choice := fun _ => "standard", normal := fun _ => 120,
    unif := fun _ => 1, wall := fun _ => 0 }

/-- Simulator state with base arrival rate 0 for C9. -/
def stC9 : SimState :=
  { facility := facW, simulation_time := 0, vehicle_id_counter := 1,
    events := [], arrival_rate := 0, avg_parking_duration := 120, time_of_day := 9,
    day_of_week := 1, is_running := true, nExpo := 0, nChoice := 0, nNormal := 0,
    nUnif := 0, nWall := 0 }

/-- C9 counterexample: with adjusted rate 0 an arrival event IS pushed
onto the queue (at time `⊤`), so "no arrival event is added to the event
queue" is false of the code. -/
theorem C9_counterexample :
    adjust_arrival_rate stC9 = 0 ∧
    stC9.events = [] ∧
    (schedule_next_arrival streams0 stC9).events.length = 1 ∧
    (∃ ev, (schedule_next_arrival streams0 stC9).events = [ev] ∧
      ev.2.1 = 0 ∧ ev.1 = ⊤ ∧ ∃ v, ev.2.2 = EvPayload.veh v) := by
  refine ⟨?_, rfl, ?_, ?_⟩
  · with_unfolding_all decide
  · with_unfolding_all decide
  · refine ⟨((⊤ : WithTop ℚ), 0, EvPayload.veh
      { id := "V1", type := "standard", arrival_time := 0, expected_duration := 120,
        assigned_spot := none, near_entrance := false }), ?_, rfl, rfl, ⟨_, rfl⟩⟩
    with_unfolding_all decide

/-- Closed instance of `C9_rate_zero` on `stC9`. -/
theorem C9_witness :
    adjust_arrival_rate stC9 = 0 ∧
    (∀ ev ∈ stC9.events, ev.2.1 = 0 → ev.1 = ⊤) ∧
    ((∃ v, (schedule_next_arrival streams0 stC9).events =
        ((⊤ : WithTop ℚ), 0, EvPayload.veh v) :: stC9.events ∧
      (schedule_next_arrival streams0 stC9).vehicle_id_counter =
        stC9.vehicle_id_counter + 1) ∧
     ((∀ ev ∈ (step_simulation streams0 5 stC9 10).events, ev.2.1 = 0 → ev.1 = ⊤) ∧
      (step_simulation streams0 5 stC9 10).vehicle_id_counter = stC9.vehicle_id_counter ∧
      (step_simulation streams0 5 stC9 10).facility.stat_total_vehicles =
        stC9.facility.stat_total_vehicles)) :=
  ⟨by with_unfolding_all decide, by decide,
   C9_rate_zero streams0 stC9 10 5 (by with_unfolding_all decide) (by decide)⟩

/-- Popping a singleton queue. -/
theorem simPopMin_single (x : SimEvent) : simPopMin [x] = some (x, []) := rfl

/-- Popping a two-element queue whose second entry is strictly smaller. -/
theorem simPopMin_pair (a b : SimEvent) (h : evLt b a = true) :
    simPopMin [a, b] = some (b, [a]) := by
  simp [simPopMin, simSelMin, h]

/-- Exact result of a successful spot assignment. -/
theorem assign_success_eq (f : Facility) (v : Vehicle) (sid : String) (sp : Spot) (now : ℚ)
    (hfind : find_nearest_available_spot f v none = some sid)
    (hlk : f.spots.lookup sid = some sp)
    (hocc : sp.occupied = false) (hres : sp.reserved = false) :
    assign_vehicle_to_spot f v none now =
      (true,
       { updateSpot f sid
           ({ sp with
               occupied := true,
               vehicle_id := some v.id,
               occupied_since := some now }) with
         vehicles := dictInsert f.vehicles (v.assignSpot sid).id (v.assignSpot sid),
         available_spots := f.available_spots - 1,
         stat_total_vehicles := f.stat_total_vehicles + 1 },
       v.assignSpot sid) := by
  have hg : (sp.occupied || sp.reserved) = false := by rw [hocc, hres]; rfl
  simp [assign_vehicle_to_spot, assignResolved, hfind, hlk, hg, Spot.occupy]

/-- Exact result of a successful vacate. -/
theorem vacate_success_eq (f : Facility) (sid : String) (sp : Spot) (now : ℚ)
    (hlk : f.spots.lookup sid = some sp) (hocc : sp.occupied = true) :
    vacate_spot f sid now =
      (some ((now - sp.occupied_since.getD 0) / 60),
       { updateSpot f sid
           ({ sp with occupied := false, vehicle_id := none, occupied_since := none }) with
         vehicles :=
           match sp.vehicle_id with
           | some vid => dictRemove f.vehicles vid
           | none => f.vehicles,
         available_spots := f.available_spots + 1,
         stat_revenue := f.stat_revenue +
           ((now - sp.occupied_since.getD 0) / 3600) * 2 }) := by
  simp [vacate_spot, hlk, hocc, Spot.vacate]

/-- Fields of `_schedule_next_arrival`: facility and wall counter are
untouched and the queue gains one arrival at the drawn (possibly
infinite) time. -/
theorem schedule_fields (s : Streams) (st : SimState) :
    (schedule_next_arrival s st).facility = st.facility ∧
    (schedule_next_arrival s st).nWall = st.nWall ∧
    ∃ g1 : Vehicle, (schedule_next_arrival s st).events =
      (((st.simulation_time : ℚ) : WithTop ℚ) +
        (if 0 < adjust_arrival_rate st then ((s.expo st.nExpo : ℚ) : WithTop ℚ) else ⊤),
       0, EvPayload.veh g1) :: st.events := by
  unfold schedule_next_arrival
  dsimp only
  by_cases hc : 0 < adjust_arrival_rate st
  · rw [if_pos hc]
    rw [if_pos hc]
    dsimp only
    exact ⟨rfl, rfl, _, rfl⟩
  · rw [if_neg hc]
    rw [if_neg hc]
    dsimp only
    exact ⟨rfl, rfl, _, rfl⟩

/-- After a queue of the form `[pending arrival beyond the window,
departure inside the window]`, two loop rounds process exactly the
departure and stop, leaving the vacated facility. -/
theorem stepLoop_dep_then_stop (s : Streams) (tar : ℚ) (f : ℕ) (st2 : SimState)
    (arrEv : SimEvent) (t1 : ℚ) (sid : String)
    (hev : st2.events = [arrEv, (((t1 : ℚ) : WithTop ℚ), 1, EvPayload.spot sid)])
    (hle : t1 ≤ tar)
    (hAT : ((tar : ℚ) : WithTop ℚ) < arrEv.1) :
    (stepLoop s tar (f + 2) st2).facility =
      (vacate_spot st2.facility sid (s.wall st2.nWall)).2 := by
  have hlt : evLt (((t1 : ℚ) : WithTop ℚ), 1, EvPayload.spot sid) arrEv = true := by
    have h1 : (((t1 : ℚ) : WithTop ℚ)) < arrEv.1 :=
      lt_of_le_of_lt (by exact_mod_cast hle) hAT
    simp only [evLt, Bool.or_eq_true, decide_eq_true_eq]
    exact Or.inl h1
  have hpop2 : simPopMin st2.events =
      some ((((t1 : ℚ) : WithTop ℚ), 1, EvPayload.spot sid), [arrEv]) := by
    rw [hev]
    exact simPopMin_pair arrEv _ hlt
  rw [show f + 2 = (f + 1) + 1 from rfl]
  rw [stepLoop_eq_pop s tar (f + 1) st2 _ _ hpop2]
  rw [if_pos (by exact_mod_cast hle :
    (((t1 : ℚ) : WithTop ℚ)) ≤ ((tar : ℚ) : WithTop ℚ))]
  have hdisp : dispatchEvent s
      { st2 with
        events := [arrEv],
        simulation_time :=
          (((t1 : ℚ) : WithTop ℚ)).untop' st2.simulation_time }
      (((t1 : ℚ) : WithTop ℚ), 1, EvPayload.spot sid) =
      process_vehicle_departure s
        { st2 with
          events := [arrEv],
          simulation_time :=
            (((t1 : ℚ) : WithTop ℚ)).untop' st2.simulation_time } sid := by
    unfold dispatchEvent
    rfl
  rw [hdisp]
  unfold process_vehicle_departure
  dsimp only
  cases hvc : (vacate_spot st2.facility sid (s.wall st2.nWall)).1 with
  | none =>
    dsimp only
    rw [stepLoop_eq_pop s tar f _ _ _ (simPopMin_single arrEv)]
    rw [if_neg (not_le.mpr hAT)]
  | some q =>
    dsimp only
    rw [stepLoop_eq_pop s tar f _ _ _ (simPopMin_single arrEv)]
    rw [if_neg (not_le.mpr hAT)]

/-- A successful arrival: assign, push the departure, schedule the next
arrival. -/
theorem processArr_success (s : Streams) (stA : SimState) (v : Vehicle)
    (F1 : Facility) (v2 : Vehicle)
    (hassign : assign_vehicle_to_spot stA.facility v none (s.wall stA.nWall) =
      (true, F1, v2)) :
    process_vehicle_arrival s stA v =
      schedule_next_arrival s
        { stA with
          facility := F1,
          nWall := stA.nWall + 1,
          events := (((stA.simulation_time + v2.expected_duration : ℚ) : WithTop ℚ), 1,
            EvPayload.spot ((v2.assigned_spot).getD "")) :: stA.events } := by
  unfold process_vehicle_arrival
  dsimp only
  rw [hassign]
  dsimp only
  rw [if_pos (rfl : true = true)]

/-- C8 (amended): if the only event inside the step window is one arrival
whose assignment succeeds, whose departure also lands inside the window,
and whose rescheduled next arrival misses the window, then at the end of
the step the assigned spot is available again with no occupant and the
revenue has grown by exactly `(duration / 3600) * 2`, where `duration` is
the spot's elapsed wall-clock occupancy as the source computes it. -/
theorem C8_step_roundtrip (s : Streams) (st : SimState) (d t0 : ℚ) (f : ℕ)
    (v : Vehicle) (sid : String) (sp : Spot)
    (hrun : st.is_running = true)
    (hev : st.events = [(((t0 : ℚ) : WithTop ℚ), 0, EvPayload.veh v)])
    (hfind : find_nearest_available_spot st.facility v none = some sid)
    (hlk : st.facility.spots.lookup sid = some sp)
    (hocc : sp.occupied = false) (hres : sp.reserved = false)
    (ht0 : t0 ≤ st.simulation_time + d)
    (hdep : t0 + v.expected_duration ≤ st.simulation_time + d)
    (hgap : ((st.simulation_time + d : ℚ) : WithTop ℚ) <
      ((t0 : ℚ) : WithTop ℚ) + (if 0 < adjust_arrival_rate st
        then ((s.expo st.nExpo : ℚ) : WithTop ℚ) else ⊤)) :
    (∃ sp2, (step_simulation s (f + 3) st d).facility.spots.lookup sid = some sp2 ∧
      sp2.occupied = false ∧ sp2.reserved = false ∧ sp2.vehicle_id = none ∧
      sp2.get_status = "available") ∧
    (step_simulation s (f + 3) st d).facility.available_spots =
      st.facility.available_spots ∧
    (step_simulation s (f + 3) st d).facility.stat_revenue =
      st.facility.stat_revenue +
        ((s.wall (st.nWall + 1) - s.wall st.nWall) / 3600) * 2 := by
  have hassign := assign_success_eq st.facility v sid sp (s.wall st.nWall) hfind hlk hocc hres
  have hassign2 : assign_vehicle_to_spot st.facility v none (s.wall st.nWall) =
      (true, (assign_vehicle_to_spot st.facility v none (s.wall st.nWall)).2.1,
       (assign_vehicle_to_spot st.facility v none (s.wall st.nWall)).2.2) := by
    rw [hassign]
  have hfac : (step_simulation s (f + 3) st d).facility =
      (vacate_spot (assign_vehicle_to_spot st.facility v none (s.wall st.nWall)).2.1 sid
        (s.wall (st.nWall + 1))).2 := by
    unfold step_simulation
    rw [if_neg (by rw [hrun]; simp : ¬st.is_running = false)]
    dsimp only
    have hpop1 : simPopMin st.events =
        some ((((t0 : ℚ) : WithTop ℚ), 0, EvPayload.veh v), []) := by
      rw [hev]
      exact simPopMin_single _
    rw [show f + 3 = (f + 2) + 1 from rfl]
    rw [stepLoop_eq_pop s _ (f + 2) st _ _ hpop1]
    rw [if_pos (by exact_mod_cast ht0 :
      (((t0 : ℚ) : WithTop ℚ)) ≤ ((st.simulation_time + d : ℚ) : WithTop ℚ))]
    rw [show WithTop.untop' st.simulation_time ((t0 : ℚ) : WithTop ℚ) = t0 from rfl]
    rw [show dispatchEvent s
        ({ st with events := ([] : List SimEvent), simulation_time := t0 } : SimState)
        ((((t0 : ℚ) : WithTop ℚ)), 0, EvPayload.veh v) =
      process_vehicle_arrival s
        ({ st with events := ([] : List SimEvent), simulation_time := t0 } : SimState) v
      from rfl]
    rw [processArr_success s
      ({ st with events := ([] : List SimEvent), simulation_time := t0 } : SimState) v _ _
      hassign2]
    rw [show ({ st with events := ([] : List SimEvent), simulation_time := t0 } :
      SimState).simulation_time = t0 from rfl]
    rw [show ({ st with events := ([] : List SimEvent), simulation_time := t0 } :
      SimState).nWall = st.nWall from rfl]
    rw [show ({ st with events := ([] : List SimEvent), simulation_time := t0 } :
      SimState).events = ([] : List SimEvent) from rfl]
    rw [show ((assign_vehicle_to_spot st.facility v none
      (s.wall st.nWall)).2.2.expected_duration) = v.expected_duration from by
        rw [hassign]
        rfl]
    rw [show (((assign_vehicle_to_spot st.facility v none
      (s.wall st.nWall)).2.2.assigned_spot).getD "") = sid from by
        rw [hassign]
        rfl]
    obtain ⟨hfa, hwa, g1, heva⟩ := schedule_fields s
      ({ ({ st with events := ([] : List SimEvent), simulation_time := t0 } : SimState) with
         facility := (assign_vehicle_to_spot st.facility v none (s.wall st.nWall)).2.1,
         nWall := st.nWall + 1,
         events := [(((t0 + v.expected_duration : ℚ) : WithTop ℚ), 1,
           EvPayload.spot sid)] } : SimState)
    rw [stepLoop_dep_then_stop s (st.simulation_time + d) f
      (schedule_next_arrival s
        ({ ({ st with events := ([] : List SimEvent), simulation_time := t0 } : SimState) with
           facility := (assign_vehicle_to_spot st.facility v none (s.wall st.nWall)).2.1,
           nWall := st.nWall + 1,
           events := [(((t0 + v.expected_duration : ℚ) : WithTop ℚ), 1,
             EvPayload.spot sid)] } : SimState))
      _ (t0 + v.expected_duration) sid (by rw [heva]) hdep (by exact hgap)]
    rw [hfa, hwa]
  rw [hfac]
  have hlkF1 : ((assign_vehicle_to_spot st.facility v none
      (s.wall st.nWall)).2.1).spots.lookup sid =
      some ({ sp with
          occupied := true,
          vehicle_id := some v.id,
          occupied_since := some (s.wall st.nWall) }) := by
    rw [hassign]
    exact lookup_updateSpotList_self st.facility.spots sid sp _ hlk
  rw [vacate_success_eq _ sid _ (s.wall (st.nWall + 1)) hlkF1 rfl]
  have hAF_av : (assign_vehicle_to_spot st.facility v none
      (s.wall st.nWall)).2.1.available_spots = st.facility.available_spots - 1 := by
    rw [hassign]
  have hAF_rev : (assign_vehicle_to_spot st.facility v none
      (s.wall st.nWall)).2.1.stat_revenue = st.facility.stat_revenue := by
    rw [hassign]
    rfl
  refine ⟨⟨{ sp with occupied := false, vehicle_id := none, occupied_since := none },
    ?_, rfl, ?_, rfl, ?_⟩, ?_, ?_⟩
  · exact lookup_updateSpotList_self _ sid _ _ hlkF1
  · exact hres
  · unfold Spot.get_status
    rw [show ({ sp with
        occupied := false,
        vehicle_id := none,
        occupied_since := none } : Spot).occupied = false from rfl]
    rw [if_neg (by simp : ¬false = true)]
    rw [show ({ sp with
        occupied := false,
        vehicle_id := none,
        occupied_since := none } : Spot).reserved = sp.reserved from rfl]
    rw [hres]
    rw [if_neg (by simp : ¬false = true)]
  · show (assign_vehicle_to_spot st.facility v none
      (s.wall st.nWall)).2.1.available_spots + 1 = st.facility.available_spots
    rw [hAF_av]
    omega
  · show (assign_vehicle_to_spot st.facility v none
      (s.wall st.nWall)).2.1.stat_revenue +
        ((s.wall (st.nWall + 1) - s.wall st.nWall) / 3600) * 2 =
      st.facility.stat_revenue + ((s.wall (st.nWall + 1) - s.wall st.nWall) / 3600) * 2
    rw [hAF_rev]

/-- Seeded arriving vehicle for the C8 instances. -/
def vC8 : Vehicle :=
  { id := "X1", type := "standard", arrival_time := 1, expected_duration := 2,
    assigned_spot := none, near_entrance := false }

/-- Simulator state with one seeded arrival at time 1 for C8. -/
def stC8 : SimState :=
  { facility := facW, simulation_time := 0, vehicle_id_counter := 1,
    events := [(((1 : ℚ) : WithTop ℚ), 0, EvPayload.veh vC8)], arrival_rate := 5,
    avg_parking_duration := 120, time_of_day := 9, day_of_week := 1, is_running := true,
    nExpo := 0, nChoice := 0, nNormal := 0, nUnif := 0, nWall := 0 }

/-- Streams whose first exponential draw keeps the next arrival far past
the window (C8 witness). -/
def streamsC8 : Streams :=
  { expo := fun _ => 1000, choice := fun _ => "standard", normal := fun _ => 120,
    unif := fun _ => 1, wall := fun n => (n : ℚ) }

/-- Streams whose first exponential draw lands the next arrival between
the departure and the end of the window (C8 counterexample). -/
def streamsC8b : Streams :=
  { expo := fun n => if n = 0 then 3 else 1000, choice := fun _ => "standard",
    normal := fun _ => 120, unif := fun _ => 1, wall := fun n => (n : ℚ) }

/-- C8 counterexample: the seeded arrival at time 1 is assigned spot
`"0-1"`, its departure at time 3 lies inside the `Δ = 10` window and is
processed — yet at the end of the step the spot is occupied again (a
rescheduled arrival at time 4 re-took it), so the claimed "spot is
available at the end of the step" is false of the code. -/
theorem C8_counterexample :
    ((1 : ℚ) ≤ stC8.simulation_time + 10) ∧
    (assign_vehicle_to_spot stC8.facility vC8 none (streamsC8b.wall 0)).1 = true ∧
    (1 + vC8.expected_duration ≤ stC8.simulation_time + 10) ∧
    (((step_simulation streamsC8b 6 stC8 10).facility.spots.lookup "0-1").map
      (fun q => q.occupied)) = some true := by
  refine ⟨?_, ?_, ?_, ?_⟩
  · with_unfolding_all decide
  · with_unfolding_all decide
  · with_unfolding_all decide
  · with_unfolding_all decide

/-- Closed instance of `C8_step_roundtrip` on `stC8` with the next
arrival drawn past the window. -/
theorem C8_witness :
    (stC8.is_running = true) ∧
    (stC8.events = [(((1 : ℚ) : WithTop ℚ), 0, EvPayload.veh vC8)]) ∧
    (find_nearest_available_spot stC8.facility vC8 none = some "0-1") ∧
    (stC8.facility.spots.lookup "0-1" = some spotW) ∧
    (spotW.occupied = false) ∧ (spotW.reserved = false) ∧
    ((1 : ℚ) ≤ stC8.simulation_time + 10) ∧
    ((1 : ℚ) + vC8.expected_duration ≤ stC8.simulation_time + 10) ∧
    (((stC8.simulation_time + 10 : ℚ) : WithTop ℚ) <
      ((1 : ℚ) : WithTop ℚ) + (if 0 < adjust_arrival_rate stC8
        then ((streamsC8.expo stC8.nExpo : ℚ) : WithTop ℚ) else ⊤)) ∧
    ((∃ sp2, (step_simulation streamsC8 (0 + 3) stC8 10).facility.spots.lookup "0-1" =
        some sp2 ∧
      sp2.occupied = false ∧ sp2.reserved = false ∧ sp2.vehicle_id = none ∧
      sp2.get_status = "available") ∧
    (step_simulation streamsC8 (0 + 3) stC8 10).facility.available_spots =
      stC8.facility.available_spots ∧
    (step_simulation streamsC8 (0 + 3) stC8 10).facility.stat_revenue =
      stC8.facility.stat_revenue +
        ((streamsC8.wall (stC8.nWall + 1) - streamsC8.wall stC8.nWall) / 3600) * 2) :=
  ⟨rfl, rfl, by with_unfolding_all decide, by with_unfolding_all decide, rfl, rfl,
   by with_unfolding_all decide, by with_unfolding_all decide, by with_unfolding_all decide,
   C8_step_roundtrip streamsC8 stC8 10 1 0 vC8 "0-1" spotW rfl rfl
     (by with_unfolding_all decide) (by with_unfolding_all decide) rfl rfl
     (by with_unfolding_all decide) (by with_unfolding_all decide)
     (by with_unfolding_all decide)⟩
